import Mathlib

/-!
Verification of the V3 Polymarket market-channel codec (`decoder.py`):
shallow embedding of the varint codec, raw-DEFLATE/base64url transport,
session string pool, event codec, stateful compressor
(`FrameCompressorV3`) and stateful decompressor (`_V3State` together with
`_try_decode_v3_line`), followed by theorems settling the frozen claims
about this program.

Modelling conventions:

* Byte strings (`bytes` / `bytearray`) are `List Nat`; strings on the
  wire are their UTF-8 byte lists.
* Python bitwise operations on bytes are written arithmetically:
  `b & 0x7F = b % 128`, `b & 0x80 != 0 ↔ 128 ≤ b % 256`,
  `tb & 0x07 = tb % 8`, `tb & (1<<5) != 0 ↔ tb / 32 % 2 = 1`,
  `(i << 1) | 0 = 2*i`, `(len << 1) | 1 = 2*len+1`.
* Exceptions are `Except String`; index-based buffer reads become
  suffix-passing reads (a decoder takes the not-yet-consumed suffix and
  returns the remaining suffix), which is observationally the cursor of
  the source.
-/

/-- Byte strings (`bytes` in the source). -/
abbrev Bytes := List Nat

/-- All entries are genuine byte values. -/
def bytesOk (bs : Bytes) : Prop := ∀ b ∈ bs, b < 256

instance (bs : Bytes) : Decidable (bytesOk bs) := by
  unfold bytesOk; infer_instance

/-- UTF-8 bytes of an ASCII string (every concrete literal in this file is
ASCII, where code points and UTF-8 bytes coincide). -/
def bytesOf (s : String) : Bytes := s.data.map Char.toNat

/-- `str(n)` for a natural number: its decimal digit bytes. -/
def decStr (n : Nat) : Bytes := (Nat.toDigits 10 n).map Char.toNat

/-! ## Varint helpers (LEB128), `_uvarint_encode` / `_uvarint_decode` -/

/-- The loop of `_uvarint_encode`, with a structural fuel so that closed
calls compute inside the kernel; `fuel ≥ n` always suffices since the loop
divides `n` by 128 each round. -/
def uvarint_encode_go (fuel n : Nat) : Bytes :=
  match fuel with
  | 0 => [n]
  | fuel + 1 => if n > 0x7F then (n % 128 + 128) :: uvarint_encode_go fuel (n / 128) else [n]

/-- `_uvarint_encode` on a non-negative value: the loop
`while n > 0x7F: emit (n & 0x7F) | 0x80; n >>= 7` then the final low 7 bits. -/
def uvarint_encode (n : Nat) : Bytes := uvarint_encode_go n n

theorem uvarint_encode_go_fuel (n : Nat) :
    ∀ f1 f2, n ≤ f1 → n ≤ f2 → uvarint_encode_go f1 n = uvarint_encode_go f2 n := by
  induction n using Nat.strong_induction_on with
  | _ n ih =>
    intro f1 f2 h1 h2
    match f1, f2 with
    | 0, 0 => rfl
    | 0, f2 + 1 =>
      have : n = 0 := by omega
      subst this
      simp [uvarint_encode_go]
    | f1 + 1, 0 =>
      have : n = 0 := by omega
      subst this
      simp [uvarint_encode_go]
    | f1 + 1, f2 + 1 =>
      simp only [uvarint_encode_go]
      by_cases h : n > 0x7F
      · simp only [h, if_true]
        rw [ih (n / 128) (Nat.div_lt_self (by omega) (by omega)) f1 f2
          (by omega) (by omega)]
      · simp [h]

/-- The defining recurrence of `_uvarint_encode`. -/
theorem uvarint_encode_eq (n : Nat) :
    uvarint_encode n = if n > 0x7F then (n % 128 + 128) :: uvarint_encode (n / 128) else [n] := by
  unfold uvarint_encode
  by_cases h : n > 0x7F
  · have hn : n ≠ 0 := by omega
    obtain ⟨m, rfl⟩ := Nat.exists_eq_succ_of_ne_zero hn
    simp only [uvarint_encode_go, h, if_true]
    congr 1
    exact uvarint_encode_go_fuel _ _ _ (by omega) (le_refl _)
  · cases n with
    | zero => simp [uvarint_encode_go, h]
    | succ m => simp [uvarint_encode_go, h]

/-- `_uvarint_encode` including the negative-input check
(`raise ValueError("uvarint negative")`). -/
def uvarint_encode_checked (n : Int) : Except String Bytes :=
  if n < 0 then .error "uvarint negative"
  else .ok (uvarint_encode n.toNat)

/-- The loop body of `_uvarint_decode`, reading from the unconsumed suffix:
returns the decoded value and the count of bytes consumed.  `shift` and the
accumulator `x` are the loop variables of the source. -/
def uvarint_decode_loop : Bytes → Nat → Nat → Except String (Nat × Nat)
  | [], _, _ => .error "uvarint truncated"
  | b :: bs, shift, x =>
    let x' := x + (b % 128) * 2 ^ shift
    if b % 256 < 128 then .ok (x', 1)
    else if shift + 7 > 70 then .error "uvarint overflow"
    else
      match uvarint_decode_loop bs (shift + 7) x' with
      | .ok (v, c) => .ok (v, c + 1)
      | .error e => .error e

/-- `_uvarint_decode` on the unconsumed suffix of the buffer:
`(value, bytes consumed)`. -/
def uvarint_decode (bs : Bytes) : Except String (Nat × Nat) :=
  uvarint_decode_loop bs 0 0

/-! ### Varint lemmas -/

theorem uvarint_encode_small (n : Nat) (h : n ≤ 0x7F) : uvarint_encode n = [n] := by
  rw [uvarint_encode_eq]; simp [Nat.not_lt.mpr h]

theorem uvarint_encode_big (n : Nat) (h : n > 0x7F) :
    uvarint_encode n = (n % 128 + 128) :: uvarint_encode (n / 128) := by
  rw [uvarint_encode_eq]; simp [h]

theorem uvarint_encode_ne_nil (n : Nat) : uvarint_encode n ≠ [] := by
  rw [uvarint_encode_eq]
  split <;> simp

theorem uvarint_encode_bytesOk (n : Nat) : bytesOk (uvarint_encode n) := by
  induction n using Nat.strong_induction_on with
  | _ n ih =>
    rw [uvarint_encode_eq]
    split
    · rename_i h
      intro b hb
      rcases List.mem_cons.mp hb with rfl | hb
      · have := Nat.mod_lt n (show 0 < 128 by omega); omega
      · exact ih (n / 128) (Nat.div_lt_self (by omega) (by omega)) b hb
    · rename_i h
      intro b hb
      simp only [List.mem_singleton] at hb
      omega

theorem uvarint_encode_len_le (n : Nat) (h : n < 2 ^ 77) :
    (uvarint_encode n).length ≤ 11 := by
  have gen : ∀ k n, n < 2 ^ (7 * (k + 1)) → (uvarint_encode n).length ≤ k + 1 := by
    intro k
    induction k with
    | zero =>
      intro n h
      rw [uvarint_encode_eq]
      split
      · rename_i hbig
        exfalso
        have : (7 : Nat) * (0 + 1) = 7 := by norm_num
        rw [this] at h
        norm_num at h
        omega
      · simp
    | succ k ih =>
      intro n h
      rw [uvarint_encode_eq]
      split
      · rename_i hbig
        have : n / 128 < 2 ^ (7 * (k + 1)) := by
          rw [Nat.div_lt_iff_lt_mul (by omega)]
          calc n < 2 ^ (7 * (k + 1 + 1)) := h
            _ = 2 ^ (7 * (k + 1)) * 128 := by ring
        simpa using ih (n / 128) this
      · simp
  have := gen 10 n (by norm_num at h ⊢; omega)
  omega

/-- Core round-trip: decoding at any shift with any accumulator reads back
exactly the encoded bytes, provided the shift budget suffices. -/
theorem uvarint_decode_loop_encode (n : Nat) :
    ∀ (shift x : Nat) (rest : Bytes),
      shift + 7 * ((uvarint_encode n).length - 1) ≤ 70 →
      uvarint_decode_loop (uvarint_encode n ++ rest) shift x =
        .ok (x + n * 2 ^ shift, (uvarint_encode n).length) := by
  induction n using Nat.strong_induction_on with
  | _ n ih =>
    intro shift x rest hshift
    by_cases h : n > 0x7F
    · rw [uvarint_encode_big n h] at *
      simp only [List.cons_append, uvarint_decode_loop]
      have hb : ¬ ((n % 128 + 128) % 256 < 128) := by
        have := Nat.mod_lt n (show 0 < 128 by omega)
        have : (n % 128 + 128) % 256 = n % 128 + 128 := Nat.mod_eq_of_lt (by omega)
        omega
      simp only [hb, if_false]
      have hlen : (uvarint_encode (n / 128)).length ≥ 1 :=
        List.length_pos.mpr (uvarint_encode_ne_nil _)
      have hsh : ¬ (shift + 7 > 70) := by
        simp only [List.length_cons] at hshift; omega
      simp only [hsh, if_false]
      have hmod : (n % 128 + 128) % 128 = n % 128 := by omega
      simp only [hmod, List.append_eq]
      rw [ih (n / 128) (Nat.div_lt_self (by omega) (by omega)) (shift + 7)
        (x + n % 128 * 2 ^ shift) rest (by simp only [List.length_cons] at hshift; omega)]
      simp only [List.length_cons]
      congr 2
      have : n = n % 128 + 128 * (n / 128) := (Nat.mod_add_div n 128).symm
      calc x + n % 128 * 2 ^ shift + n / 128 * 2 ^ (shift + 7)
          = x + (n % 128 + 128 * (n / 128)) * 2 ^ shift := by ring
        _ = x + n * 2 ^ shift := by rw [← this]
    · rw [uvarint_encode_small n (by omega)] at *
      simp only [List.cons_append, uvarint_decode_loop]
      have : n % 256 = n := Nat.mod_eq_of_lt (by omega)
      have hn : n % 256 < 128 := by omega
      simp only [hn, if_true]
      have : n % 128 = n := Nat.mod_eq_of_lt (by omega)
      rw [this]
      simp

/-- Round-trip of the varint codec for values below `2 ^ 77`
(the decoder's shift budget `shift ≤ 70` admits 11 bytes). -/
theorem uvarint_roundtrip (n : Nat) (h : n < 2 ^ 77) (rest : Bytes) :
    uvarint_decode (uvarint_encode n ++ rest) =
      .ok (n, (uvarint_encode n).length) := by
  have hlen := uvarint_encode_len_le n h
  have := uvarint_decode_loop_encode n 0 0 rest (by omega)
  simpa [uvarint_decode] using this

theorem uvarint_decode_nil : uvarint_decode [] = .error "uvarint truncated" := rfl

/-! ## Raw-DEFLATE + base64url transport, `_deflate_raw_b64` / `_inflate_raw_b64`

`zlib.compressobj(level=9, wbits=-15)` / `zlib.decompress(data, wbits=-15)`
and `base64.urlsafe_b64encode` / `base64.urlsafe_b64decode` are external
library calls; they are modelled below from the spec (§4.2 and the
glossary), with doc comments marking each modelled piece. -/

/-- Character code of the base64url digit for a 6-bit value
(`A-Z`, `a-z`, `0-9`, `-`, `_`). -/
def b64Char (v : Nat) : Nat :=
  if v < 26 then 65 + v
  else if v < 52 then 97 + (v - 26)
  else if v < 62 then 48 + (v - 52)
  else if v = 62 then 45
  else 95

/-- 6-bit value of a base64 character code; accepts both the urlsafe
alphabet (`-`, `_`) and the standard one (`+`, `/`), since
`urlsafe_b64decode` translates `-_` to `+/` before standard decoding. -/
def b64Val (c : Nat) : Option Nat :=
  if 65 ≤ c ∧ c ≤ 90 then some (c - 65)
  else if 97 ≤ c ∧ c ≤ 122 then some (c - 97 + 26)
  else if 48 ≤ c ∧ c ≤ 57 then some (c - 48 + 52)
  else if c = 45 ∨ c = 43 then some 62
  else if c = 95 ∨ c = 47 then some 63
  else none

/-- Modelled from the spec: `base64.urlsafe_b64encode` (URL-safe base64 of a
byte string, with `=` padding), three input bytes per four characters. -/
def urlsafe_b64encode : Bytes → Bytes
  | [] => []
  | [a] => [b64Char (a / 4), b64Char (a % 4 * 16), 61, 61]
  | [a, b] => [b64Char (a / 4), b64Char (a % 4 * 16 + b / 16), b64Char (b % 16 * 4), 61]
  | a :: b :: c :: t =>
      b64Char (a / 4) :: b64Char (a % 4 * 16 + b / 16) ::
      b64Char (b % 16 * 4 + c / 64) :: b64Char (c % 64) :: urlsafe_b64encode t

/-- Byte reassembly of a stream of 6-bit values, four values per three
bytes; a final pair or triple carries one or two bytes (the spare low bits
are discarded, as `binascii.a2b_base64` does in non-strict mode). -/
def b64Quads : List Nat → Bytes
  | x :: y :: z :: w :: t => (x * 4 + y / 16) :: (y % 16 * 16 + z / 4) :: (z % 4 * 64 + w) :: b64Quads t
  | [x, y, z] => [x * 4 + y / 16, y % 16 * 16 + z / 4]
  | [x, y] => [x * 4 + y / 16]
  | _ => []

/-- Modelled from the spec: `base64.urlsafe_b64decode` via
`binascii.a2b_base64` in non-strict mode — characters outside the alphabet
are skipped, and the total count of data characters plus `=` padding
characters must be a multiple of four (`binascii.Error: Incorrect padding`
otherwise). -/
def urlsafe_b64decode (tok : Bytes) : Except String Bytes :=
  if ((tok.filterMap b64Val).length + tok.count 61) % 4 ≠ 0 then .error "Incorrect padding"
  else if (tok.filterMap b64Val).length % 4 = 1 then .error "Invalid base64-encoded string"
  else .ok (b64Quads (tok.filterMap b64Val))

/-- The five-byte header of a DEFLATE stored block: `BFINAL`/`BTYPE=00`
byte, then `LEN` and `NLEN = 0xFFFF - LEN` in little-endian order. -/
def storedHdr (final : Bool) (len : Nat) : Bytes :=
  [if final then 1 else 0, len % 256, len / 256, (65535 - len) % 256, (65535 - len) / 256]

/-- Modelled from the spec: the external raw-DEFLATE compressor
(`zlib.compressobj(level=9, wbits=-15)`).  The spec fixes only that the
stream is raw DEFLATE (no zlib framing) and MUST round-trip; it is modelled
as a sequence of stored blocks (RFC 1951 `BTYPE=00`), each of at most
65535 bytes, the last one final. -/
def deflate_raw_go (fuel : Nat) (d : Bytes) : Bytes :=
  match fuel with
  | 0 => storedHdr true d.length ++ d
  | fuel + 1 =>
    if d.length ≤ 65535 then storedHdr true d.length ++ d
    else storedHdr false 65535 ++ d.take 65535 ++ deflate_raw_go fuel (d.drop 65535)

def deflate_raw (d : Bytes) : Bytes := deflate_raw_go d.length d

theorem deflate_raw_go_fuel : ∀ (k : Nat) (d : Bytes), d.length ≤ k →
    ∀ f1 f2, d.length ≤ f1 → d.length ≤ f2 →
      deflate_raw_go f1 d = deflate_raw_go f2 d := by
  intro k
  induction k using Nat.strong_induction_on with
  | _ k ih =>
    intro d hk f1 f2 h1 h2
    match f1, f2 with
    | 0, 0 => rfl
    | 0, f2 + 1 =>
      have hd : d.length = 0 := by omega
      simp [deflate_raw_go, hd]
    | f1 + 1, 0 =>
      have hd : d.length = 0 := by omega
      simp [deflate_raw_go, hd]
    | f1 + 1, f2 + 1 =>
      simp only [deflate_raw_go]
      by_cases h : d.length ≤ 65535
      · simp [h]
      · simp only [if_neg h]
        have hlt : (d.drop 65535).length < k := by
          simp only [List.length_drop]; omega
        rw [ih (d.drop 65535).length hlt (d.drop 65535) le_rfl f1 f2
          (by simp only [List.length_drop]; omega)
          (by simp only [List.length_drop]; omega)]

/-- The defining recurrence of the modelled compressor. -/
theorem deflate_raw_eq (d : Bytes) :
    deflate_raw d = if d.length ≤ 65535 then storedHdr true d.length ++ d
      else storedHdr false 65535 ++ d.take 65535 ++ deflate_raw (d.drop 65535) := by
  unfold deflate_raw
  rw [deflate_raw_go_fuel d.length d le_rfl d.length (d.length + 1) le_rfl (by omega)]
  simp only [deflate_raw_go]
  by_cases h : d.length ≤ 65535
  · simp [h]
  · simp only [if_neg h]
    rw [deflate_raw_go_fuel (d.drop 65535).length (d.drop 65535) le_rfl
      d.length (d.drop 65535).length (by simp only [List.length_drop]; omega) le_rfl]

/-- Modelled from the spec: the external raw inflater
(`zlib.decompress(data, wbits=-15)`), on the stored-block streams produced
by `deflate_raw`: reads stored blocks until the final one and requires the
buffer to end there. -/
def inflate_raw_go (fuel : Nat) (bs : Bytes) : Except String Bytes :=
  match fuel, bs with
  | fuel + 1, f :: l0 :: l1 :: n0 :: n1 :: rest =>
    if n0 = (65535 - (l0 + 256 * l1)) % 256 ∧ n1 = (65535 - (l0 + 256 * l1)) / 256 then
      if rest.length < l0 + 256 * l1 then .error "incomplete or truncated stream"
      else if f = 1 then
        if rest.length = l0 + 256 * l1 then .ok (rest.take (l0 + 256 * l1))
        else .error "trailing data"
      else
        match inflate_raw_go fuel (rest.drop (l0 + 256 * l1)) with
        | .ok tail => .ok (rest.take (l0 + 256 * l1) ++ tail)
        | .error e => .error e
    else .error "invalid stored block lengths"
  | _, _ => .error "incomplete or truncated stream"

def inflate_raw (bs : Bytes) : Except String Bytes := inflate_raw_go bs.length bs

theorem inflate_raw_go_fuel : ∀ (k : Nat) (bs : Bytes), bs.length ≤ k →
    ∀ f1 f2, bs.length ≤ f1 → bs.length ≤ f2 →
      inflate_raw_go f1 bs = inflate_raw_go f2 bs := by
  intro k
  induction k using Nat.strong_induction_on with
  | _ k ih =>
    intro bs hk f1 f2 h1 h2
    match f1, f2, bs with
    | 0, 0, _ => rfl
    | 0, f2 + 1, bs =>
      have hd : bs = [] := List.eq_nil_of_length_eq_zero (by omega)
      subst hd; rfl
    | f1 + 1, 0, bs =>
      have hd : bs = [] := List.eq_nil_of_length_eq_zero (by omega)
      subst hd; rfl
    | f1 + 1, f2 + 1, [] => rfl
    | f1 + 1, f2 + 1, [a] => rfl
    | f1 + 1, f2 + 1, [a, b] => rfl
    | f1 + 1, f2 + 1, [a, b, c] => rfl
    | f1 + 1, f2 + 1, [a, b, c, e] => rfl
    | f1 + 1, f2 + 1, f :: l0 :: l1 :: n0 :: n1 :: rest =>
      simp only [inflate_raw_go]
      by_cases hC : n0 = (65535 - (l0 + 256 * l1)) % 256 ∧
          n1 = (65535 - (l0 + 256 * l1)) / 256
      · simp only [if_pos hC]
        by_cases hlen : rest.length < l0 + 256 * l1
        · simp [hlen]
        · simp only [if_neg hlen]
          by_cases hf : f = 1
          · simp [hf]
          · simp only [if_neg hf]
            simp only [List.length_cons] at hk h1 h2
            rw [ih (rest.drop (l0 + 256 * l1)).length
              (by simp only [List.length_drop]; omega)
              (rest.drop (l0 + 256 * l1)) le_rfl f1 f2
              (by simp only [List.length_drop]; omega)
              (by simp only [List.length_drop]; omega)]
      · simp [hC]

/-- The defining recurrence of the modelled inflater at a stored-block
header. -/
theorem inflate_raw_cons (f l0 l1 n0 n1 : Nat) (rest : Bytes) :
    inflate_raw (f :: l0 :: l1 :: n0 :: n1 :: rest) =
      if n0 = (65535 - (l0 + 256 * l1)) % 256 ∧ n1 = (65535 - (l0 + 256 * l1)) / 256 then
        if rest.length < l0 + 256 * l1 then .error "incomplete or truncated stream"
        else if f = 1 then
          if rest.length = l0 + 256 * l1 then .ok (rest.take (l0 + 256 * l1))
          else .error "trailing data"
        else
          match inflate_raw (rest.drop (l0 + 256 * l1)) with
          | .ok tail => .ok (rest.take (l0 + 256 * l1) ++ tail)
          | .error e => .error e
      else .error "invalid stored block lengths" := by
  show inflate_raw_go (f :: l0 :: l1 :: n0 :: n1 :: rest).length _ = _
  simp only [List.length_cons, inflate_raw_go]
  rw [inflate_raw_go_fuel (rest.drop (l0 + 256 * l1)).length
    (rest.drop (l0 + 256 * l1)) le_rfl (rest.length + 1 + 1 + 1 + 1)
    (rest.drop (l0 + 256 * l1)).length
    (by simp only [List.length_drop]; omega) le_rfl]
  rfl

/-- `_deflate_raw_b64`: record bytes to one base64url line. -/
def deflate_raw_b64 (d : Bytes) : Bytes := urlsafe_b64encode (deflate_raw d)

/-- `_inflate_raw_b64`: one base64url line back to record bytes. -/
def inflate_raw_b64 (tok : Bytes) : Except String Bytes := do
  let data ← urlsafe_b64decode tok
  inflate_raw data

/-- Trailing `=` padding characters removed from a token. -/
def stripPad (tok : Bytes) : Bytes :=
  (tok.reverse.dropWhile (· = 61)).reverse

/-! ### Transport lemmas -/

theorem b64Val_b64Char : ∀ v < 64, b64Val (b64Char v) = some v := by decide

theorem b64Char_ne_61 : ∀ v < 64, b64Char v ≠ 61 := by decide

/-- The 6-bit value stream of a byte string (the data characters of its
base64 encoding, before the alphabet map). -/
def sixBits : Bytes → List Nat
  | [] => []
  | [a] => [a / 4, a % 4 * 16]
  | [a, b] => [a / 4, a % 4 * 16 + b / 16, b % 16 * 4]
  | a :: b :: c :: t => a / 4 :: (a % 4 * 16 + b / 16) :: (b % 16 * 4 + c / 64) :: c % 64 :: sixBits t

/-- Count of `=` padding characters for a byte string of the given length. -/
def padCount (n : Nat) : Nat := (3 - n % 3) % 3

theorem urlsafe_b64encode_eq (d : Bytes) :
    urlsafe_b64encode d = (sixBits d).map b64Char ++ List.replicate (padCount d.length) 61 := by
  induction d using urlsafe_b64encode.induct with
  | case1 => rfl
  | case2 a => rfl
  | case3 a b => rfl
  | case4 a b c t ih =>
    simp only [urlsafe_b64encode, sixBits, List.map_cons, List.cons_append, ih]
    have : padCount (a :: b :: c :: t).length = padCount t.length := by
      simp [padCount, List.length_cons]; omega
    rw [this]

theorem sixBits_lt_64 (d : Bytes) (h : bytesOk d) : ∀ v ∈ sixBits d, v < 64 := by
  induction d using sixBits.induct with
  | case1 => intro v hv; simp [sixBits] at hv
  | case2 a =>
    intro v hv
    have ha := h a (by simp)
    simp only [sixBits, List.mem_cons, List.mem_singleton] at hv
    rcases hv with rfl | rfl | h' <;> first | omega | simp at h'
  | case3 a b =>
    intro v hv
    have ha := h a (by simp)
    have hb := h b (by simp)
    simp only [sixBits, List.mem_cons, List.mem_singleton] at hv
    rcases hv with rfl | rfl | rfl | h' <;> first | omega | simp at h'
  | case4 a b c t ih =>
    intro v hv
    have ha := h a (by simp)
    have hb := h b (by simp)
    have hc := h c (by simp)
    simp only [sixBits, List.mem_cons] at hv
    rcases hv with rfl | rfl | rfl | rfl | h'
    · omega
    · omega
    · omega
    · omega
    · exact ih (fun x hx => h x (by simp [hx])) v h'

theorem b64Quads_sixBits (d : Bytes) (h : bytesOk d) : b64Quads (sixBits d) = d := by
  induction d using sixBits.induct with
  | case1 => rfl
  | case2 a =>
    have ha := h a (by simp)
    simp only [sixBits, b64Quads]
    congr 1
    omega
  | case3 a b =>
    have ha := h a (by simp)
    have hb := h b (by simp)
    simp only [sixBits, b64Quads]
    have e1 : a / 4 * 4 + (a % 4 * 16 + b / 16) / 16 = a := by omega
    have e2 : (a % 4 * 16 + b / 16) % 16 * 16 + b % 16 * 4 / 4 = b := by omega
    rw [e1, e2]
  | case4 a b c t ih =>
    have ha := h a (by simp)
    have hb := h b (by simp)
    have hc := h c (by simp)
    simp only [sixBits, b64Quads]
    rw [ih (fun x hx => h x (by simp [hx]))]
    have e1 : a / 4 * 4 + (a % 4 * 16 + b / 16) / 16 = a := by omega
    have e2 : (a % 4 * 16 + b / 16) % 16 * 16 + (b % 16 * 4 + c / 64) / 4 = b := by omega
    have e3 : (b % 16 * 4 + c / 64) % 4 * 64 + c % 64 = c := by omega
    rw [e1, e2, e3]

theorem sixBits_length (d : Bytes) :
    (sixBits d).length =
      d.length / 3 * 4 + d.length % 3 + (if d.length % 3 = 0 then 0 else 1) := by
  induction d using sixBits.induct with
  | case1 => simp [sixBits]
  | case2 a => simp [sixBits]
  | case3 a b => simp [sixBits]
  | case4 a b c t ih =>
    simp only [sixBits, List.length_cons, ih]
    simp only [show (t.length + 1 + 1 + 1) % 3 = t.length % 3 from by omega,
      show (t.length + 1 + 1 + 1) / 3 = t.length / 3 + 1 from by omega]
    split <;> omega

theorem filterMap_map_b64 (l : List Nat) (h : ∀ v ∈ l, v < 64) :
    (l.map b64Char).filterMap b64Val = l := by
  induction l with
  | nil => rfl
  | cons a t ih =>
    simp only [List.map_cons, List.filterMap_cons, b64Val_b64Char a (h a (by simp))]
    rw [ih (fun x hx => h x (by simp [hx]))]

theorem filterMap_replicate_61 (p : Nat) : (List.replicate p 61).filterMap b64Val = [] := by
  induction p with
  | zero => rfl
  | succ p ih => simp only [List.replicate_succ, List.filterMap_cons]; exact ih

theorem count61_map_b64 (l : List Nat) (h : ∀ v ∈ l, v < 64) :
    (l.map b64Char).count 61 = 0 := by
  rw [List.count_eq_zero]
  intro hmem
  obtain ⟨v, hv, hc⟩ := List.mem_map.mp hmem
  exact b64Char_ne_61 v (h v hv) hc

theorem encode_data_chars (d : Bytes) (h : bytesOk d) :
    (urlsafe_b64encode d).filterMap b64Val = sixBits d := by
  rw [urlsafe_b64encode_eq, List.filterMap_append, filterMap_replicate_61,
    filterMap_map_b64 _ (sixBits_lt_64 d h), List.append_nil]

theorem encode_pad_count (d : Bytes) (h : bytesOk d) :
    (urlsafe_b64encode d).count 61 = padCount d.length := by
  rw [urlsafe_b64encode_eq, List.count_append, count61_map_b64 _ (sixBits_lt_64 d h)]
  simp [List.count_replicate]

/-- Round-trip of the modelled base64url codec. -/
theorem b64_roundtrip (d : Bytes) (h : bytesOk d) :
    urlsafe_b64decode (urlsafe_b64encode d) = .ok d := by
  unfold urlsafe_b64decode
  rw [encode_data_chars d h, encode_pad_count d h]
  have hL := sixBits_length d
  have hpc : padCount d.length = (3 - d.length % 3) % 3 := rfl
  have c1 : ¬ (((sixBits d).length + padCount d.length) % 4 ≠ 0) := by
    rw [hL, hpc]; split <;> omega
  have c2 : ¬ ((sixBits d).length % 4 = 1) := by
    rw [hL]; split <;> omega
  rw [if_neg c1, if_neg c2, b64Quads_sixBits d h]

theorem dropWhile_replicate_append (p : Nat) (l : List Nat) :
    List.dropWhile (· = 61) (List.replicate p 61 ++ l) = List.dropWhile (· = 61) l := by
  induction p with
  | zero => simp
  | succ p ih => simp only [List.replicate_succ, List.cons_append, List.dropWhile_cons]; simpa

theorem stripPad_encode (d : Bytes) (h : bytesOk d) :
    stripPad (urlsafe_b64encode d) = (sixBits d).map b64Char := by
  rw [urlsafe_b64encode_eq]
  unfold stripPad
  rw [List.reverse_append, List.reverse_replicate, dropWhile_replicate_append]
  have hne : ∀ c ∈ ((sixBits d).map b64Char).reverse, c ≠ 61 := by
    intro c hc
    rw [List.mem_reverse] at hc
    obtain ⟨v, hv, hcv⟩ := List.mem_map.mp hc
    exact hcv ▸ b64Char_ne_61 v (sixBits_lt_64 d h v hv)
  have : List.dropWhile (· = 61) ((sixBits d).map b64Char).reverse
      = ((sixBits d).map b64Char).reverse := by
    cases hm : ((sixBits d).map b64Char).reverse with
    | nil => rfl
    | cons x t =>
      have hx : x ≠ 61 := by
        apply hne
        rw [hm]; simp
      simp [List.dropWhile_cons, hx]
  rw [this, List.reverse_reverse]

/-- Decoding after stripping the padding: succeeds exactly when there was
no padding to strip. -/
theorem b64_stripped (d : Bytes) (h : bytesOk d) :
    urlsafe_b64decode (stripPad (urlsafe_b64encode d)) =
      if d.length % 3 = 0 then .ok d else .error "Incorrect padding" := by
  rw [stripPad_encode d h]
  unfold urlsafe_b64decode
  rw [filterMap_map_b64 _ (sixBits_lt_64 d h), count61_map_b64 _ (sixBits_lt_64 d h)]
  have hL := sixBits_length d
  by_cases h3 : d.length % 3 = 0
  · have c1 : ¬ (((sixBits d).length + 0) % 4 ≠ 0) := by rw [hL]; simp [h3]
    have c2 : ¬ ((sixBits d).length % 4 = 1) := by rw [hL]; simp [h3]
    rw [if_neg c1, if_neg c2, b64Quads_sixBits d h, if_pos h3]
  · have hmod : d.length % 3 < 3 := Nat.mod_lt _ (by omega)
    have c1 : ((sixBits d).length + 0) % 4 ≠ 0 := by
      rw [hL]; simp [h3]; omega
    rw [if_pos c1, if_neg h3]

theorem storedHdr_bytesOk (f : Bool) (len : Nat) (h : len ≤ 65535) :
    bytesOk (storedHdr f len) := by
  intro b hb
  simp only [storedHdr, List.mem_cons] at hb
  rcases hb with rfl | rfl | rfl | rfl | rfl | h'
  · cases f <;> simp
  · omega
  · omega
  · omega
  · omega
  · simp at h'

theorem deflate_raw_bytesOk (d : Bytes) (h : bytesOk d) : bytesOk (deflate_raw d) := by
  have gen : ∀ (k : Nat) (d : Bytes), d.length ≤ k → bytesOk d →
      bytesOk (deflate_raw d) := by
    intro k
    induction k using Nat.strong_induction_on with
    | _ k ih =>
      intro d hk hOk
      rw [deflate_raw_eq]
      by_cases hle : d.length ≤ 65535
      · rw [if_pos hle]
        intro b hb
        rcases List.mem_append.mp hb with hb | hb
        · exact storedHdr_bytesOk _ _ hle b hb
        · exact hOk b hb
      · rw [if_neg hle]
        intro b hb
        rcases List.mem_append.mp hb with hb | hb
        · rcases List.mem_append.mp hb with hb | hb
          · exact storedHdr_bytesOk _ _ (by omega) b hb
          · exact hOk b (List.mem_of_mem_take hb)
        · exact ih (d.drop 65535).length (by simp only [List.length_drop]; omega)
            (d.drop 65535) le_rfl (fun x hx => hOk x (List.mem_of_mem_drop hx)) b hb
  exact gen d.length d le_rfl h

/-- Round-trip of the modelled raw-DEFLATE codec. -/
theorem inflate_deflate (d : Bytes) : inflate_raw (deflate_raw d) = .ok d := by
  have gen : ∀ (k : Nat) (d : Bytes), d.length ≤ k →
      inflate_raw (deflate_raw d) = .ok d := by
    intro k
    induction k using Nat.strong_induction_on with
    | _ k ihk =>
      intro d hk
      rw [deflate_raw_eq]
      by_cases hle : d.length ≤ 65535
      case pos =>
        rw [if_pos hle]
        simp only [storedHdr, List.cons_append, List.nil_append]
        rw [inflate_raw_cons]
        have hlen : d.length % 256 + 256 * (d.length / 256) = d.length := by omega
        simp only [hlen]
        simp [List.take_length]
      case neg =>
        rw [if_neg hle]
        have hgt : ¬ d.length ≤ 65535 := hle
        have ih : inflate_raw (deflate_raw (d.drop 65535)) = .ok (d.drop 65535) :=
          ihk (d.drop 65535).length (by simp only [List.length_drop]; omega)
            (d.drop 65535) le_rfl
        simp only [storedHdr, List.cons_append, List.nil_append, List.append_assoc]
        rw [inflate_raw_cons]
        have h65 : (65535 : Nat) % 256 + 256 * (65535 / 256) = 65535 := by norm_num
        simp only [h65]
        have hto : (d.take 65535).length = 65535 := by
          rw [List.length_take]; omega
        have hrl : (d.take 65535 ++ deflate_raw (d.drop 65535)).length ≥ 65535 := by
          rw [List.length_append]; omega
        have htake : (d.take 65535 ++ deflate_raw (d.drop 65535)).take 65535 = d.take 65535 := by
          rw [List.take_append_of_le_length (by omega), List.take_take]
          simp
        have hdrop : (d.take 65535 ++ deflate_raw (d.drop 65535)).drop 65535
            = deflate_raw (d.drop 65535) := by
          rw [List.drop_append_of_le_length (by omega)]
          have : List.drop 65535 (List.take 65535 d) = [] := by
            apply List.drop_eq_nil_of_le
            omega
          rw [this, List.nil_append]
        rw [hdrop, ih]
        simp only [Nat.not_lt.mpr hrl, htake, List.take_append_drop]
        simp [htake, List.take_append_drop]
  exact gen d.length d le_rfl

/-- Round-trip of the full per-line transport. -/
theorem transport_roundtrip (d : Bytes) (h : bytesOk d) :
    inflate_raw_b64 (deflate_raw_b64 d) = .ok d := by
  unfold inflate_raw_b64 deflate_raw_b64
  rw [b64_roundtrip _ (deflate_raw_bytesOk d h)]
  exact inflate_deflate d

/-! ## String pool, `_StringPool`

The source keeps `_s2i` (dict), `_i2s` (list with a 1-based `"<unused>"`
sentinel) and `_next`; all three are views of the sentinel-free table
below: the string with ID `k` sits at index `k - 1`, `_next` is
`i2s.length + 1`, and `_s2i` is position lookup (the dict and the list
agree because a string is appended exactly when it is not yet present). -/

structure StringPool where
  i2s : List Bytes
deriving DecidableEq, Repr

/-- The fresh pool of `_StringPool.__init__` / `.reset`. -/
def StringPool.empty : StringPool := ⟨[]⟩

/-- `_s2i.get(s)`: the 1-based ID of `s` in the table, if present. -/
def poolIdx : List Bytes → Bytes → Option Nat
  | [], _ => none
  | t :: ts, s => if t = s then some 1 else (poolIdx ts s).map (· + 1)

/-- `_StringPool.encode`: a reference `(id << 1) | 0` for an interned
string, else a literal `(len << 1) | 1` followed by the raw bytes, which
are then interned. -/
def StringPool.encode (p : StringPool) (s : Bytes) : Bytes × StringPool :=
  match poolIdx p.i2s s with
  | some i => (uvarint_encode (2 * i), p)
  | none => (uvarint_encode (2 * s.length + 1) ++ s, ⟨p.i2s ++ [s]⟩)

/-- `_StringPool.decode` on the unconsumed suffix: returns the string, the
remaining suffix, and the updated pool. -/
def StringPool.decode (p : StringPool) (buf : Bytes) : Except String (Bytes × Bytes × StringPool) :=
  match uvarint_decode buf with
  | .error e => .error e
  | .ok (v, c) =>
    if v % 2 = 0 then
      if v / 2 ≤ 0 ∨ v / 2 ≥ p.i2s.length + 1 then .error "bad string ref"
      else .ok (p.i2s.getD (v / 2 - 1) [], buf.drop c, p)
    else
      if v / 2 > (buf.drop c).length then .error "literal overflow"
      else .ok ((buf.drop c).take (v / 2), (buf.drop c).drop (v / 2),
        ⟨p.i2s ++ [(buf.drop c).take (v / 2)]⟩)

/-! ### Pool lemmas -/

theorem poolIdx_none_iff (l : List Bytes) (s : Bytes) : poolIdx l s = none ↔ s ∉ l := by
  induction l with
  | nil => simp [poolIdx]
  | cons t ts ih =>
    by_cases h : t = s
    · simp [poolIdx, h]
    · simp only [poolIdx, if_neg h]
      cases hp : poolIdx ts s with
      | some j =>
        have hs : s ∈ ts := by
          by_contra hc
          rw [ih.mpr hc] at hp
          exact Option.noConfusion hp
        simp [List.mem_cons, hs]
      | none =>
        have hs : s ∉ ts := ih.mp hp
        constructor
        · intro _ hmem
          rcases List.mem_cons.mp hmem with rfl | hmem
          · exact h rfl
          · exact hs hmem
        · intro _
          rfl

theorem poolIdx_some_bounds (l : List Bytes) (s : Bytes) (i : Nat)
    (h : poolIdx l s = some i) : 1 ≤ i ∧ i ≤ l.length := by
  induction l generalizing i with
  | nil => simp [poolIdx] at h
  | cons t ts ih =>
    by_cases ht : t = s
    · simp only [poolIdx, if_pos ht, Option.some_inj] at h
      simp only [List.length_cons]
      omega
    · simp only [poolIdx, if_neg ht] at h
      cases hp : poolIdx ts s with
      | none => rw [hp] at h; exact Option.noConfusion h
      | some j =>
        rw [hp] at h
        have h' : j + 1 = i := by simpa using h
        have := ih j hp
        simp only [List.length_cons]
        omega

theorem poolIdx_some_get (l : List Bytes) (s : Bytes) (i : Nat)
    (h : poolIdx l s = some i) : l.getD (i - 1) [] = s := by
  induction l generalizing i with
  | nil => simp [poolIdx] at h
  | cons t ts ih =>
    by_cases ht : t = s
    · simp only [poolIdx, if_pos ht, Option.some_inj] at h
      subst h
      simpa using ht
    · simp only [poolIdx, if_neg ht] at h
      cases hp : poolIdx ts s with
      | none => rw [hp] at h; exact Option.noConfusion h
      | some j =>
        rw [hp] at h
        have h' : j + 1 = i := by simpa using h
        subst h'
        have hb := poolIdx_some_bounds ts s j hp
        have heq : j + 1 - 1 = (j - 1) + 1 := by omega
        rw [heq]
        simpa using ih j hp

theorem pool_encode_grow (p : StringPool) (s : Bytes) :
    (p.encode s).2.i2s.length ≤ p.i2s.length + 1 := by
  unfold StringPool.encode
  cases h : poolIdx p.i2s s <;> simp

/-- Encoder/decoder pool agreement: decoding what the encoder just wrote,
with the same pool, returns the same string and the same updated pool. -/
theorem pool_roundtrip (p : StringPool) (s rest : Bytes)
    (hp : p.i2s.length < 2 ^ 76) (hs : s.length < 2 ^ 76) :
    StringPool.decode p ((p.encode s).1 ++ rest) = .ok (s, rest, (p.encode s).2) := by
  unfold StringPool.encode StringPool.decode
  cases hidx : poolIdx p.i2s s with
  | some i =>
    have hb := poolIdx_some_bounds _ _ _ hidx
    have h2i : 2 * i < 2 ^ 77 := by
      have h1 : i ≤ p.i2s.length := hb.2
      have h2 : 2 * 2 ^ 76 = 2 ^ 77 := by ring
      omega
    rw [uvarint_roundtrip (2 * i) h2i rest]
    simp only [List.drop_left]
    have hev : 2 * i % 2 = 0 := by omega
    have hno : ¬ (2 * i / 2 ≤ 0 ∨ 2 * i / 2 ≥ p.i2s.length + 1) := by
      push_neg
      omega
    rw [if_pos hev, if_neg hno]
    have h2 : 2 * i / 2 = i := by omega
    rw [h2, poolIdx_some_get _ _ _ hidx]
  | none =>
    have hln : 2 * s.length + 1 < 2 ^ 77 := by
      have h2 : 2 * 2 ^ 76 = 2 ^ 77 := by ring
      omega
    rw [List.append_assoc, uvarint_roundtrip (2 * s.length + 1) hln (s ++ rest)]
    simp only [List.drop_left]
    have hodd : ¬ ((2 * s.length + 1) % 2 = 0) := by omega
    rw [if_neg hodd]
    have hdiv : (2 * s.length + 1) / 2 = s.length := by omega
    rw [hdiv]
    have hle : ¬ (s.length > (s ++ rest).length) := by
      simp [List.length_append]
    rw [if_neg hle]
    rw [List.take_left, List.drop_left]

/-! ## Event data model

An incoming event is a JSON object; the compressor reads it only through
`ev.get(...)` on a fixed set of keys.  The embedding types exactly those
keys: a missing key is `none` (`ev.get(k, "")` becomes `Option.getD _ []`,
`"k" in ev` becomes `Option.isSome`).  Values are UTF-8 byte strings. -/

structure InLevel where
  price : Option Bytes
  size : Option Bytes
deriving DecidableEq, Repr

structure InChange where
  side : Option Bytes
  price : Option Bytes
  size : Option Bytes
deriving DecidableEq, Repr

/-- The per-`event_type` payload keys of an input event.  `book` keeps the
four possible level keys (`bids`/`buys`, `asks`/`sells`) because the source
prefers `bids`/`asks` when the key is present.  `other` is any unknown
`event_type` string (the encoder raises on it). -/
inductive InPayload
  | book (bids buys asks sells : Option (List InLevel))
  | price_change (changes : Option (List InChange))
  | tick_size_change (old_tick_size new_tick_size : Option Bytes)
  | last_trade_price (price size side fee_rate_bps : Option Bytes)
  | other (event_type : Bytes)
deriving DecidableEq, Repr

structure InEvent where
  payload : InPayload
  timestamp : Option Bytes
  market : Option Bytes
  hash : Option Bytes
deriving DecidableEq, Repr

/-- `str.upper()` for the ASCII range (the only range exercised by side
strings; the source compares the uppercased side against `"SELL"`). -/
def asciiUpper (s : Bytes) : Bytes :=
  s.map (fun b => if 97 ≤ b ∧ b ≤ 122 then b - 32 else b)

/-- `int(s)` on a decimal string: optional ASCII whitespace around an
optional sign and digits (the forms that occur in timestamps; other exotic
`int()` inputs such as underscore separators are out of scope and map to
`none`). -/
def digitsVal (bs : Bytes) : Option Nat :=
  if bs ≠ [] ∧ bs.all (fun b => decide (48 ≤ b ∧ b ≤ 57))
  then some (bs.foldl (fun acc b => acc * 10 + (b - 48)) 0)
  else none

def isWsByte (b : Nat) : Bool := b = 32 || b = 9 || b = 10 || b = 11 || b = 12 || b = 13

def parseInt (bs : Bytes) : Option Int :=
  match ((bs.dropWhile isWsByte).reverse.dropWhile isWsByte).reverse with
  | 43 :: t => (digitsVal t).map (fun n => (n : Int))
  | 45 :: t => (digitsVal t).map (fun n => -(n : Int))
  | t => (digitsVal t).map (fun n => (n : Int))

/-- `FrameCompressorV3._get_ts`: the numeric value of the `timestamp`
field, `None` when missing or non-numeric. -/
def get_ts (ev : InEvent) : Option Int := ev.timestamp.bind parseInt

/-! ## Stateful V3 compressor, `FrameCompressorV3` -/

structure FrameCompressorV3 where
  asset_id : Bytes
  pool : StringPool
  base_ts : Option Int
  prev_ts : Option Int
  wrote_header : Bool
deriving DecidableEq, Repr

/-- `FrameCompressorV3.__init__(asset_id)`. -/
def FrameCompressorV3.init (aid : Bytes) : FrameCompressorV3 :=
  ⟨aid, .empty, none, none, false⟩

/-- `_ET_CODE.get(event_type)`. -/
def etCode : InPayload → Option Nat
  | .book .. => some 0
  | .price_change _ => some 1
  | .tick_size_change .. => some 2
  | .last_trade_price .. => some 3
  | .other _ => none

/-- Whether the `fee_rate_bps` key is present (`"fee_rate_bps" in ev`). -/
def feePresent : InPayload → Bool
  | .last_trade_price _ _ _ fee => fee.isSome
  | _ => false

/-- The body of `_encode_levels`: `(price, size)` of each level through the
pool, in order. -/
def encode_levels_loop : StringPool → List InLevel → Bytes × StringPool
  | p, [] => ([], p)
  | p, l :: ls =>
    let r1 := p.encode (l.price.getD [])
    let r2 := r1.2.encode (l.size.getD [])
    let r3 := encode_levels_loop r2.2 ls
    (r1.1 ++ r2.1 ++ r3.1, r3.2)

/-- `FrameCompressorV3._encode_levels`: count then pooled pairs. -/
def encode_levels (p : StringPool) (lv : List InLevel) : Bytes × StringPool :=
  let r := encode_levels_loop p lv
  (uvarint_encode lv.length ++ r.1, r.2)

/-- The loop of `_encode_price_change`: side byte (`1` iff the uppercased
side equals `"SELL"`), then pooled price and size. -/
def encode_changes_loop : StringPool → List InChange → Bytes × StringPool
  | p, [] => ([], p)
  | p, ch :: chs =>
    let sideb : Nat := if asciiUpper (ch.side.getD []) = bytesOf "SELL" then 1 else 0
    let r1 := p.encode (ch.price.getD [])
    let r2 := r1.2.encode (ch.size.getD [])
    let r3 := encode_changes_loop r2.2 chs
    ([sideb] ++ r1.1 ++ r2.1 ++ r3.1, r3.2)

/-- `FrameCompressorV3._encode_price_change`. -/
def encode_price_change (p : StringPool) (chs : List InChange) : Bytes × StringPool :=
  let r := encode_changes_loop p chs
  (uvarint_encode chs.length ++ r.1, r.2)

/-- `FrameCompressorV3._encode_tick_size_change`. -/
def encode_tick_size_change (p : StringPool) (old_t new_t : Bytes) : Bytes × StringPool :=
  let r1 := p.encode old_t
  let r2 := r1.2.encode new_t
  (r1.1 ++ r2.1, r2.2)

/-- `FrameCompressorV3._encode_last_trade_price` (the `fee_rate_bps` field
is appended iff bit 3 of the type byte is set). -/
def encode_last_trade_price (p : StringPool) (price size side : Bytes)
    (fee : Option Bytes) (tb : Nat) : Bytes × StringPool :=
  let r1 := p.encode price
  let r2 := r1.2.encode size
  let sideb : Nat := if asciiUpper side = bytesOf "SELL" then 1 else 0
  if tb / 8 % 2 = 1 then
    let r3 := r2.2.encode (fee.getD [])
    (r1.1 ++ r2.1 ++ [sideb] ++ r3.1, r3.2)
  else
    (r1.1 ++ r2.1 ++ [sideb], r2.2)

/-- Payload dispatch of `_encode_event` (the four `elif` branches). -/
def encode_payload (p : StringPool) (pl : InPayload) (tb : Nat) : Bytes × StringPool :=
  match pl with
  | .book bids buys asks sells =>
    let r1 := encode_levels p (bids.getD (buys.getD []))
    let r2 := encode_levels r1.2 (asks.getD (sells.getD []))
    (r1.1 ++ r2.1, r2.2)
  | .price_change chs => encode_price_change p (chs.getD [])
  | .tick_size_change o n => encode_tick_size_change p (o.getD []) (n.getD [])
  | .last_trade_price pr sz sd fee =>
    encode_last_trade_price p (pr.getD []) (sz.getD []) (sd.getD []) fee tb
  | .other _ => ([], p)

/-- `FrameCompressorV3._encode_event`: type byte, timestamp varint
(delta or absolute), then payload; raises on an unknown `event_type` and
on a negative varint value. -/
def encode_event (c : FrameCompressorV3) (ev : InEvent) : Except String (Bytes × FrameCompressorV3) :=
  match etCode ev.payload with
  | none => .error "Unknown event_type"
  | some et_code =>
    let ts := get_ts ev
    let step : Int × Bool × Option Int :=
      match c.prev_ts, ts with
      | none, some t => (t, true, some t)
      | none, none => (0, true, none)
      | some p, none => (0, true, some p)
      | some p, some t => if t ≥ p then (t - p, false, some t) else (t, true, some t)
    let tb := et_code + (if step.2.1 then 32 else 0) +
      (if et_code = 3 ∧ feePresent ev.payload then 8 else 0)
    match uvarint_encode_checked step.1 with
    | .error e => .error e
    | .ok tsb =>
      let r := encode_payload c.pool ev.payload tb
      .ok ([tb] ++ tsb ++ r.1, { c with pool := r.2, prev_ts := step.2.2 })

/-- The loop of `_encode_frame_events` over the events of one frame. -/
def encode_events_fold : FrameCompressorV3 → List InEvent → Except String (Bytes × FrameCompressorV3)
  | c, [] => .ok ([], c)
  | c, ev :: evs =>
    match encode_event c ev with
    | .error e => .error e
    | .ok (b, c1) =>
      match encode_events_fold c1 evs with
      | .error e => .error e
      | .ok (bs, c2) => .ok (b ++ bs, c2)

/-- `FrameCompressorV3._encode_frame_events`, up to the transport: the
`F` record bytes. -/
def encode_frame_events (c : FrameCompressorV3) (events : List InEvent) :
    Except String (Bytes × FrameCompressorV3) :=
  match encode_events_fold c events with
  | .error e => .error e
  | .ok (bs, c1) => .ok ([0x46] ++ uvarint_encode events.length ++ bs, c1)

/-- `FrameCompressorV3._ensure_header`: on the first call, fix
`base_ts`/`prev_ts`, reset the pool, and emit the `H` record
(`version=3`, `flags=1` (single-asset), `base_ts`, `asset_count=1`,
then the asset id). -/
def ensure_header (c : FrameCompressorV3) (first_ts : Option Int) :
    Except String (Option Bytes × FrameCompressorV3) :=
  if c.wrote_header then .ok (none, c)
  else
    match uvarint_encode_checked (first_ts.getD 0) with
    | .error e => .error e
    | .ok baseb =>
      let hrec := [0x48] ++ uvarint_encode 3 ++ uvarint_encode 1 ++ baseb ++
        uvarint_encode 1 ++ uvarint_encode c.asset_id.length ++ c.asset_id
      .ok (some (deflate_raw_b64 hrec),
        { c with base_ts := some (first_ts.getD 0), prev_ts := some (first_ts.getD 0),
                 wrote_header := true, pool := .empty })

/-- `ev.pop("market", None); ev.pop("hash", None)` in `compress`. -/
def stripMarketHash (ev : InEvent) : InEvent := { ev with market := none, hash := none }

/-- The `base_ts` scan of `compress`: the first event with a numeric
timestamp. -/
def first_numeric_ts : List InEvent → Option Int
  | [] => none
  | ev :: evs =>
    match get_ts ev with
    | some t => some t
    | none => first_numeric_ts evs

/-- The result of `json.loads(raw_frame_str)` at the top of `compress`,
which drives its four paths: parse failure, object, array, other scalar
(re-serialized to compact JSON). -/
inductive RawFrame
  | text (s : Bytes)
  | jsonDict (ev : InEvent)
  | jsonList (evs : List InEvent)
  | jsonScalar (txt : Bytes)
deriving DecidableEq, Repr

/-- The event-frame path of `compress` (shared by the dict and list
cases): scan for `base_ts`, ensure the header, strip `market`/`hash`,
emit one `F` record line. -/
def compress_events (c : FrameCompressorV3) (evs : List InEvent) :
    Except String (List Bytes × FrameCompressorV3) :=
  match ensure_header c (first_numeric_ts evs) with
  | .error e => .error e
  | .ok (hdr, c1) =>
    match encode_frame_events c1 (evs.map stripMarketHash) with
    | .error e => .error e
    | .ok (rec_, c2) =>
      match hdr with
      | some h => .ok ([h, deflate_raw_b64 rec_], c2)
      | none => .ok ([deflate_raw_b64 rec_], c2)

/-- The raw-text path of `compress` (`PONG` heartbeats, non-object JSON):
header if needed with `base_ts = 0`, then an `X` record whose payload is
the pooled text. -/
def compress_raw (c : FrameCompressorV3) (s : Bytes) :
    Except String (List Bytes × FrameCompressorV3) :=
  match ensure_header c none with
  | .error e => .error e
  | .ok (hdr, c1) =>
    let r := c1.pool.encode s
    let line := deflate_raw_b64 ([0x58] ++ r.1)
    match hdr with
    | some h => .ok ([h, line], { c1 with pool := r.2 })
    | none => .ok ([line], { c1 with pool := r.2 })

/-- `FrameCompressorV3.compress`: the Python return `str | [str, str]`
becomes a one- or two-element list of lines. -/
def compress (c : FrameCompressorV3) (f : RawFrame) :
    Except String (List Bytes × FrameCompressorV3) :=
  match f with
  | .text s => compress_raw c s
  | .jsonScalar txt => compress_raw c txt
  | .jsonDict ev => compress_events c [ev]
  | .jsonList evs => compress_events c evs

/-! ## Stateful V3 decoder, `_V3State` and `_try_decode_v3_line` -/

structure V3State where
  pool : StringPool
  base_ts : Nat
  prev_ts : Option Nat
  asset_ids : List Bytes
  flags : Nat
  have_header : Bool
deriving DecidableEq, Repr

/-- `_V3State.__init__` / `.reset`. -/
def V3State.init : V3State := ⟨.empty, 0, none, [], 0, false⟩

/-- A decoded event, the dict built by `_decode_event`
(`event_type`, `asset_id`, `timestamp`, then per-type fields). -/
structure DLevel where
  price : Bytes
  size : Bytes
deriving DecidableEq, Repr

structure DChange where
  side : Bytes
  price : Bytes
  size : Bytes
deriving DecidableEq, Repr

inductive DPayload
  | book (bids asks : List DLevel)
  | price_change (changes : List DChange)
  | tick_size_change (old_tick_size new_tick_size : Bytes)
  | last_trade_price (price size side : Bytes) (fee_rate_bps : Option Bytes)
deriving DecidableEq, Repr

structure DEvent where
  event_type : Bytes
  asset_id : Bytes
  timestamp : Bytes
  payload : DPayload
deriving DecidableEq, Repr

/-- `_ET_FROM.get(et_code)`. -/
def etName (code : Nat) : Option Bytes :=
  if code = 0 then some (bytesOf "book")
  else if code = 1 then some (bytesOf "price_change")
  else if code = 2 then some (bytesOf "tick_size_change")
  else if code = 3 then some (bytesOf "last_trade_price")
  else none

/-- The asset-id loop of `_decode_header`. -/
def read_assets : Nat → Bytes → Except String (List Bytes × Bytes)
  | 0, buf => .ok ([], buf)
  | n + 1, buf =>
    match uvarint_decode buf with
    | .error e => .error e
    | .ok (ln, c) =>
      if ln > (buf.drop c).length then .error "asset id truncated"
      else
        match read_assets n ((buf.drop c).drop ln) with
        | .error e => .error e
        | .ok (rest_assets, rem) => .ok ((buf.drop c).take ln :: rest_assets, rem)

/-- `_decode_header`: version (must be 3), flags, `base_ts`
(also seeding `prev_ts`), pool reset, asset ids. -/
def decode_header (buf : Bytes) (st : V3State) : Except String V3State :=
  match uvarint_decode buf with
  | .error e => .error e
  | .ok (ver, c1) =>
    if ver ≠ 3 then .error ("Unsupported V3 version: " ++ toString ver)
    else
      match uvarint_decode (buf.drop c1) with
      | .error e => .error e
      | .ok (flags, c2) =>
        match uvarint_decode ((buf.drop c1).drop c2) with
        | .error e => .error e
        | .ok (base_ts, c3) =>
          match uvarint_decode (((buf.drop c1).drop c2).drop c3) with
          | .error e => .error e
          | .ok (ac, c4) =>
            match read_assets ac ((((buf.drop c1).drop c2).drop c3).drop c4) with
            | .error e => .error e
            | .ok (assets, _) =>
              .ok { pool := .empty, base_ts := base_ts, prev_ts := some base_ts,
                    asset_ids := assets, flags := flags, have_header := true }

/-- The level loop of `_dec_levels`. -/
def dec_levels_loop : Nat → Bytes → StringPool → Except String (List DLevel × Bytes × StringPool)
  | 0, buf, p => .ok ([], buf, p)
  | n + 1, buf, p =>
    match p.decode buf with
    | .error e => .error e
    | .ok (pr, buf1, p1) =>
      match p1.decode buf1 with
      | .error e => .error e
      | .ok (sz, buf2, p2) =>
        match dec_levels_loop n buf2 p2 with
        | .error e => .error e
        | .ok (lvs, buf3, p3) => .ok (⟨pr, sz⟩ :: lvs, buf3, p3)

/-- `_dec_levels`: count then `(price, size)` pairs through the pool. -/
def dec_levels (buf : Bytes) (p : StringPool) :
    Except String (List DLevel × Bytes × StringPool) :=
  match uvarint_decode buf with
  | .error e => .error e
  | .ok (n, c) => dec_levels_loop n (buf.drop c) p

/-- The change loop of the `price_change` branch of `_decode_event`. -/
def dec_changes_loop : Nat → Bytes → StringPool → Except String (List DChange × Bytes × StringPool)
  | 0, buf, p => .ok ([], buf, p)
  | n + 1, buf, p =>
    match buf with
    | [] => .error "index out of range"
    | sb :: buf0 =>
      let side := if sb = 1 then bytesOf "SELL" else bytesOf "BUY"
      match p.decode buf0 with
      | .error e => .error e
      | .ok (pr, buf1, p1) =>
        match p1.decode buf1 with
        | .error e => .error e
        | .ok (sz, buf2, p2) =>
          match dec_changes_loop n buf2 p2 with
          | .error e => .error e
          | .ok (chs, buf3, p3) => .ok (⟨side, pr, sz⟩ :: chs, buf3, p3)

/-- The payload part of `_decode_event`, after the type byte and timestamp
have been read; `ts` is the decoded absolute timestamp, already stored in
the state. -/
def decode_event_payload (et_code tb : Nat) (et : Bytes) (buf : Bytes) (st : V3State)
    (ts : Nat) : Except String (DEvent × Bytes × V3State) :=
  let aid := st.asset_ids.headD []
  if et_code = 0 then
    match dec_levels buf st.pool with
    | .error e => .error e
    | .ok (bids, buf1, p1) =>
      match dec_levels buf1 p1 with
      | .error e => .error e
      | .ok (asks, buf2, p2) =>
        .ok (⟨et, aid, decStr ts, .book bids asks⟩, buf2, { st with pool := p2 })
  else if et_code = 1 then
    match uvarint_decode buf with
    | .error e => .error e
    | .ok (n, c) =>
      match dec_changes_loop n (buf.drop c) st.pool with
      | .error e => .error e
      | .ok (chs, buf1, p1) =>
        .ok (⟨et, aid, decStr ts, .price_change chs⟩, buf1, { st with pool := p1 })
  else if et_code = 2 then
    match st.pool.decode buf with
    | .error e => .error e
    | .ok (ot, buf1, p1) =>
      match p1.decode buf1 with
      | .error e => .error e
      | .ok (nt, buf2, p2) =>
        .ok (⟨et, aid, decStr ts, .tick_size_change ot nt⟩, buf2, { st with pool := p2 })
  else
    match st.pool.decode buf with
    | .error e => .error e
    | .ok (pr, buf1, p1) =>
      match p1.decode buf1 with
      | .error e => .error e
      | .ok (sz, buf2, p2) =>
        match buf2 with
        | [] => .error "index out of range"
        | sb :: buf3 =>
          let side := if sb = 1 then bytesOf "SELL" else bytesOf "BUY"
          if tb / 8 % 2 = 1 then
            match p2.decode buf3 with
            | .error e => .error e
            | .ok (fee, buf4, p3) =>
              .ok (⟨et, aid, decStr ts, .last_trade_price pr sz side (some fee)⟩, buf4,
                { st with pool := p3 })
          else
            .ok (⟨et, aid, decStr ts, .last_trade_price pr sz side none⟩, buf3,
              { st with pool := p2 })

/-- `_decode_event`: type byte (`et_code` in bits 0..2, `TS_ABS` bit 5,
`OPT0` bit 3), timestamp varint, absolute/delta resolution
(`prev_ts := ts` afterwards), then the payload. -/
def decode_event (buf : Bytes) (st : V3State) : Except String (DEvent × Bytes × V3State) :=
  match buf with
  | [] => .error "index out of range"
  | tb :: buf0 =>
    let et_code := tb % 8
    match etName et_code with
    | none => .error ("Unknown event type code: " ++ toString et_code)
    | some et =>
      match uvarint_decode buf0 with
      | .error e => .error e
      | .ok (tsv, c) =>
        let ts : Nat :=
          if tb / 32 % 2 = 1 ∨ st.prev_ts = none then tsv
          else st.prev_ts.getD 0 + tsv
        decode_event_payload et_code tb et (buf0.drop c) { st with prev_ts := some ts } ts

/-- The event loop of `_decode_frame`. -/
def decode_events_loop : Nat → Bytes → V3State → Except String (List DEvent × Bytes × V3State)
  | 0, buf, st => .ok ([], buf, st)
  | n + 1, buf, st =>
    match decode_event buf st with
    | .error e => .error e
    | .ok (ev, buf1, st1) =>
      match decode_events_loop n buf1 st1 with
      | .error e => .error e
      | .ok (evs, buf2, st2) => .ok (ev :: evs, buf2, st2)

/-- `_decode_frame`: count then events (the JSON serialization of the
array is kept structural). -/
def decode_frame (buf : Bytes) (st : V3State) :
    Except String (List DEvent × Bytes × V3State) :=
  match uvarint_decode buf with
  | .error e => .error e
  | .ok (cnt, c) => decode_events_loop cnt (buf.drop c) st

/-- `_decode_raw`: one pooled string. -/
def decode_raw (buf : Bytes) (st : V3State) : Except String (Bytes × Bytes × V3State) :=
  match st.pool.decode buf with
  | .error e => .error e
  | .ok (s, rest, p) => .ok (s, rest, { st with pool := p })

/-- One output of `_try_decode_v3_line`: a frame yields the JSON array of
its decoded events, a raw record yields the JSON encoding of its text. -/
inductive V3Out
  | frame (events : List DEvent)
  | raw (text : Bytes)
deriving DecidableEq, Repr

/-- `_try_decode_v3_line`: transport failure or an unknown leading byte is
"not V3" (`none`); a malformed V3 record raises. -/
def try_decode_v3_line (tok : Bytes) (st : V3State) :
    Except String (Option (List V3Out) × V3State) :=
  match inflate_raw_b64 tok with
  | .error _ => .ok (none, st)
  | .ok [] => .ok (none, st)
  | .ok (kind :: body) =>
    if kind = 0x48 then
      match decode_header body st with
      | .error e => .error e
      | .ok st1 => .ok (some [], st1)
    else if kind = 0x46 then
      match decode_frame body st with
      | .error e => .error e
      | .ok (evs, _, st1) => .ok (some [.frame evs], st1)
    else if kind = 0x58 then
      match decode_raw body st with
      | .error e => .error e
      | .ok (s, _, st1) => .ok (some [.raw s], st1)
    else .ok (none, st)

/-- Hex digit byte (lowercase), as used by JSON `\u00xx` escapes. -/
def hexDigit (n : Nat) : Nat := if n < 10 then 48 + n else 97 + (n - 10)

/-- Modelled from the spec: `json.dumps` applied to a text value (the
reinflater emits raw records as JSON string values).  Faithful on ASCII
text, the only kind exercised (`"PONG"`): quotes, backslashes and control
characters are escaped, other ASCII bytes kept. -/
def jsonEscapeChar (b : Nat) : Bytes :=
  if b = 34 then [92, 34]
  else if b = 92 then [92, 92]
  else if b = 8 then [92, 98]
  else if b = 9 then [92, 116]
  else if b = 10 then [92, 110]
  else if b = 12 then [92, 102]
  else if b = 13 then [92, 114]
  else if b < 32 then [92, 117, 48, 48, hexDigit (b / 16), hexDigit (b % 16)]
  else [b]

def jsonStringLit (s : Bytes) : Bytes := [34] ++ (s.map jsonEscapeChar).flatten ++ [34]

/-! ## Claim-side definitions: normalisation, validity, session drivers -/

/-- Claim-side normalisation of a level (`get` defaults as in the
encoder). -/
def normLevel (l : InLevel) : DLevel := ⟨l.price.getD [], l.size.getD []⟩

/-- Claim-side normalisation of a price change: side uppercased. -/
def normChange (ch : InChange) : DChange :=
  ⟨asciiUpper (ch.side.getD []), ch.price.getD [], ch.size.getD []⟩

/-- The normalisation named by the spec (§8.1): `market`/`hash` stripped
(no such fields on the output type), `buys`/`sells` renamed to
`bids`/`asks` (with the source's preference for `bids`/`asks` when both are
present), side uppercased, `asset_id` stamped from the session, and the
timestamp the canonical decimal string of the numeric timestamp value. -/
def normEvent (aid : Bytes) (ev : InEvent) : DEvent :=
  let ts : Nat := ((get_ts ev).getD 0).toNat
  match ev.payload with
  | .book bids buys asks sells =>
    ⟨bytesOf "book", aid, decStr ts,
      .book ((bids.getD (buys.getD [])).map normLevel)
            ((asks.getD (sells.getD [])).map normLevel)⟩
  | .price_change chs =>
    ⟨bytesOf "price_change", aid, decStr ts, .price_change ((chs.getD []).map normChange)⟩
  | .tick_size_change o n =>
    ⟨bytesOf "tick_size_change", aid, decStr ts, .tick_size_change (o.getD []) (n.getD [])⟩
  | .last_trade_price pr sz sd fee =>
    ⟨bytesOf "last_trade_price", aid, decStr ts,
      .last_trade_price (pr.getD []) (sz.getD []) (asciiUpper (sd.getD [])) fee⟩
  | .other et => ⟨et, aid, decStr ts, .book [] []⟩

/-- A wire string: byte values, length within the varint budget. -/
def strOk (s : Bytes) : Prop := bytesOk s ∧ s.length < 2 ^ 76

/-- A side that uppercases to one of the two canonical values. -/
def sideOk (s : Option Bytes) : Prop :=
  asciiUpper (s.getD []) = bytesOf "BUY" ∨ asciiUpper (s.getD []) = bytesOf "SELL"

def levelOk (l : InLevel) : Prop := strOk (l.price.getD []) ∧ strOk (l.size.getD [])

def changeOk (ch : InChange) : Prop :=
  sideOk ch.side ∧ strOk (ch.price.getD []) ∧ strOk (ch.size.getD [])

def payloadOk : InPayload → Prop
  | .book bids buys asks sells =>
    (∀ l ∈ bids.getD (buys.getD []), levelOk l) ∧ (∀ l ∈ asks.getD (sells.getD []), levelOk l)
  | .price_change chs => ∀ ch ∈ chs.getD [], changeOk ch
  | .tick_size_change o n => strOk (o.getD []) ∧ strOk (n.getD [])
  | .last_trade_price pr sz sd fee =>
    strOk (pr.getD []) ∧ strOk (sz.getD []) ∧ sideOk sd ∧ strOk (fee.getD [])
  | .other _ => False

/-- A syntactically valid event in the sense of the claims: known
`event_type`, required fields well-formed, numeric non-negative timestamp
(within the varint budget). -/
def validEvent (ev : InEvent) : Prop :=
  (get_ts ev).isSome ∧ 0 ≤ (get_ts ev).getD 0 ∧ (get_ts ev).getD 0 < 2 ^ 77 ∧
    payloadOk ev.payload

/-- Upper bound on the number of `pool.encode` calls of one event. -/
def evCalls (ev : InEvent) : Nat :=
  match ev.payload with
  | .book bids buys asks sells =>
    2 * (bids.getD (buys.getD [])).length + 2 * (asks.getD (sells.getD [])).length
  | .price_change chs => 2 * (chs.getD []).length
  | .tick_size_change _ _ => 2
  | .last_trade_price _ _ _ _ => 3
  | .other _ => 0

def frameCalls (evs : List InEvent) : Nat := (evs.map evCalls).sum

def sessionCalls (frames : List (List InEvent)) : Nat := (frames.map frameCalls).sum

/-- Encoder/decoder state agreement inside a session: equal pools, the
decoder holds the session's single asset id, and both `prev_ts` hold the
same (non-negative) timestamp. -/
def Synced (c : FrameCompressorV3) (st : V3State) : Prop :=
  st.pool = c.pool ∧ st.asset_ids = [c.asset_id] ∧
    ∃ p : Nat, c.prev_ts = some (p : Int) ∧ st.prev_ts = some p

/-- Driving the compressor over a list of frames, concatenating the
emitted lines. -/
def compress_all : FrameCompressorV3 → List (List InEvent) → Except String (List Bytes × FrameCompressorV3)
  | c, [] => .ok ([], c)
  | c, f :: fs =>
    match compress c (.jsonList f) with
    | .error e => .error e
    | .ok (lines, c1) =>
      match compress_all c1 fs with
      | .error e => .error e
      | .ok (ls, c2) => .ok (lines ++ ls, c2)

/-- Driving the decoder over a list of lines, concatenating the outputs
(a line the decoder does not recognise as V3 is an error here). -/
def decode_lines : V3State → List Bytes → Except String (List V3Out × V3State)
  | st, [] => .ok ([], st)
  | st, tok :: toks =>
    match try_decode_v3_line tok st with
    | .error e => .error e
    | .ok (none, _) => .error "not V3"
    | .ok (some outs, st1) =>
      match decode_lines st1 toks with
      | .error e => .error e
      | .ok (os, st2) => .ok (outs ++ os, st2)

/-! ### Round-trip lemmas -/

theorem strip_payload (ev : InEvent) : (stripMarketHash ev).payload = ev.payload := rfl

theorem strip_get_ts (ev : InEvent) : get_ts (stripMarketHash ev) = get_ts ev := rfl

theorem strip_valid (ev : InEvent) : validEvent (stripMarketHash ev) ↔ validEvent ev := Iff.rfl

theorem strip_evCalls (ev : InEvent) : evCalls (stripMarketHash ev) = evCalls ev := rfl

theorem strip_norm (aid : Bytes) (ev : InEvent) :
    normEvent aid (stripMarketHash ev) = normEvent aid ev := rfl

theorem pool_encode_bytesOk (p : StringPool) (s : Bytes) (h : bytesOk s) :
    bytesOk (p.encode s).1 := by
  unfold StringPool.encode
  cases hidx : poolIdx p.i2s s with
  | some i =>
    simp only [hidx]
    exact uvarint_encode_bytesOk _
  | none =>
    simp only [hidx]
    intro b hb
    rcases List.mem_append.mp hb with hb | hb
    · exact uvarint_encode_bytesOk _ b hb
    · exact h b hb

theorem levels_loop_roundtrip (lv : List InLevel) :
    ∀ (p : StringPool) (rest : Bytes),
      (∀ l ∈ lv, levelOk l) → p.i2s.length + 2 * lv.length ≤ 2 ^ 76 →
      dec_levels_loop lv.length ((encode_levels_loop p lv).1 ++ rest) p =
        .ok (lv.map normLevel, rest, (encode_levels_loop p lv).2) ∧
      (encode_levels_loop p lv).2.i2s.length ≤ p.i2s.length + 2 * lv.length ∧
      bytesOk (encode_levels_loop p lv).1 := by
  induction lv with
  | nil =>
    intro p rest _ _
    refine ⟨rfl, by simp [encode_levels_loop], ?_⟩
    intro b hb
    simp [encode_levels_loop] at hb
  | cons l ls ih =>
    intro p rest hok hb
    simp only [List.length_cons] at hb
    have hl := hok l (by simp)
    have hp1 : p.i2s.length < 2 ^ 76 := by omega
    have g1 := pool_encode_grow p (l.price.getD [])
    have r1rt := pool_roundtrip p (l.price.getD []) (((p.encode (l.price.getD [])).2.encode
      (l.size.getD [])).1 ++ ((encode_levels_loop ((p.encode (l.price.getD [])).2.encode
      (l.size.getD [])).2 ls).1 ++ rest)) hp1 hl.1.2
    have hp2 : (p.encode (l.price.getD [])).2.i2s.length < 2 ^ 76 := by omega
    have r2rt := pool_roundtrip (p.encode (l.price.getD [])).2 (l.size.getD [])
      ((encode_levels_loop ((p.encode (l.price.getD [])).2.encode (l.size.getD [])).2 ls).1
        ++ rest) hp2 hl.2.2
    have g2 := pool_encode_grow (p.encode (l.price.getD [])).2 (l.size.getD [])
    have ihs := ih ((p.encode (l.price.getD [])).2.encode (l.size.getD [])).2 rest
      (fun x hx => hok x (by simp [hx]))
      (by omega)
    refine ⟨?_, ?_, ?_⟩
    · simp only [encode_levels_loop, List.length_cons, List.map_cons]
      simp only [dec_levels_loop, List.append_assoc]
      rw [r1rt]
      simp only [r2rt, ihs.1, normLevel]
    · simp only [encode_levels_loop, List.length_cons]
      have := ihs.2.1
      omega
    · simp only [encode_levels_loop]
      intro b hbm
      rcases List.mem_append.mp hbm with hbm | hbm
      · rcases List.mem_append.mp hbm with hbm | hbm
        · exact pool_encode_bytesOk _ _ hl.1.1 b hbm
        · exact pool_encode_bytesOk _ _ hl.2.1 b hbm
      · exact ihs.2.2 b hbm

theorem levels_roundtrip (lv : List InLevel) (p : StringPool) (rest : Bytes)
    (hok : ∀ l ∈ lv, levelOk l) (hb : p.i2s.length + 2 * lv.length ≤ 2 ^ 76) :
    dec_levels ((encode_levels p lv).1 ++ rest) p =
      .ok (lv.map normLevel, rest, (encode_levels p lv).2) ∧
    (encode_levels p lv).2.i2s.length ≤ p.i2s.length + 2 * lv.length ∧
    bytesOk (encode_levels p lv).1 := by
  have hcnt : lv.length < 2 ^ 77 := by
    have : (2 : Nat) ^ 76 < 2 ^ 77 := by norm_num
    omega
  have hloop := levels_loop_roundtrip lv p rest hok hb
  refine ⟨?_, by simpa [encode_levels] using hloop.2.1, ?_⟩
  · simp only [encode_levels, dec_levels, List.append_assoc]
    rw [uvarint_roundtrip lv.length hcnt]
    simp only [List.drop_left]
    exact hloop.1
  · simp only [encode_levels]
    intro b hbm
    rcases List.mem_append.mp hbm with hbm | hbm
    · exact uvarint_encode_bytesOk _ b hbm
    · exact hloop.2.2 b hbm

theorem changes_loop_roundtrip (chs : List InChange) :
    ∀ (p : StringPool) (rest : Bytes),
      (∀ ch ∈ chs, changeOk ch) → p.i2s.length + 2 * chs.length ≤ 2 ^ 76 →
      dec_changes_loop chs.length ((encode_changes_loop p chs).1 ++ rest) p =
        .ok (chs.map normChange, rest, (encode_changes_loop p chs).2) ∧
      (encode_changes_loop p chs).2.i2s.length ≤ p.i2s.length + 2 * chs.length ∧
      bytesOk (encode_changes_loop p chs).1 := by
  induction chs with
  | nil =>
    intro p rest _ _
    refine ⟨rfl, by simp [encode_changes_loop], ?_⟩
    intro b hb
    simp [encode_changes_loop] at hb
  | cons ch chs ih =>
    intro p rest hok hb
    simp only [List.length_cons] at hb
    have hc := hok ch (by simp)
    have hp1 : p.i2s.length < 2 ^ 76 := by omega
    have g1 := pool_encode_grow p (ch.price.getD [])
    have r1rt := pool_roundtrip p (ch.price.getD []) (((p.encode (ch.price.getD [])).2.encode
      (ch.size.getD [])).1 ++ ((encode_changes_loop ((p.encode (ch.price.getD [])).2.encode
      (ch.size.getD [])).2 chs).1 ++ rest)) hp1 hc.2.1.2
    have hp2 : (p.encode (ch.price.getD [])).2.i2s.length < 2 ^ 76 := by omega
    have r2rt := pool_roundtrip (p.encode (ch.price.getD [])).2 (ch.size.getD [])
      ((encode_changes_loop ((p.encode (ch.price.getD [])).2.encode (ch.size.getD [])).2 chs).1
        ++ rest) hp2 hc.2.2.2
    have g2 := pool_encode_grow (p.encode (ch.price.getD [])).2 (ch.size.getD [])
    have ihs := ih ((p.encode (ch.price.getD [])).2.encode (ch.size.getD [])).2 rest
      (fun x hx => hok x (by simp [hx]))
      (by omega)
    refine ⟨?_, ?_, ?_⟩
    · simp only [encode_changes_loop, List.length_cons, List.map_cons]
      simp only [dec_changes_loop, List.cons_append, List.nil_append, List.append_assoc,
        r1rt, r2rt, ihs.1, normChange]
      have hside : (if (if asciiUpper (ch.side.getD []) = bytesOf "SELL" then (1 : Nat) else 0)
          = 1 then bytesOf "SELL" else bytesOf "BUY") = asciiUpper (ch.side.getD []) := by
        rcases hc.1 with hbuy | hsell
        · rw [hbuy]
          have : ¬ (bytesOf "BUY" = bytesOf "SELL") := by decide
          simp [this]
        · rw [hsell]
          simp
      rw [hside]
    · simp only [encode_changes_loop, List.length_cons]
      have := ihs.2.1
      omega
    · simp only [encode_changes_loop, List.cons_append, List.nil_append, List.append_assoc]
      intro b hbm
      rcases List.mem_cons.mp hbm with rfl | hbm
      · split <;> omega
      · rcases List.mem_append.mp hbm with hbm | hbm
        · exact pool_encode_bytesOk _ _ hc.2.1.1 b hbm
        · rcases List.mem_append.mp hbm with hbm | hbm
          · exact pool_encode_bytesOk _ _ hc.2.2.1 b hbm
          · exact ihs.2.2 b hbm

theorem book_roundtrip (p : StringPool) (lv1 lv2 : List InLevel) (tb : Nat) (et : Bytes)
    (st : V3State) (ts : Nat) (rest : Bytes)
    (h1 : ∀ l ∈ lv1, levelOk l) (h2 : ∀ l ∈ lv2, levelOk l)
    (hb : p.i2s.length + (2 * lv1.length + 2 * lv2.length) ≤ 2 ^ 76)
    (hpool : st.pool = p) :
    decode_event_payload 0 tb et
      (((encode_levels p lv1).1 ++ (encode_levels (encode_levels p lv1).2 lv2).1) ++ rest) st ts =
      .ok (⟨et, st.asset_ids.headD [], decStr ts,
        .book (lv1.map normLevel) (lv2.map normLevel)⟩, rest,
        { st with pool := (encode_levels (encode_levels p lv1).2 lv2).2 }) ∧
    (encode_levels (encode_levels p lv1).2 lv2).2.i2s.length
      ≤ p.i2s.length + (2 * lv1.length + 2 * lv2.length) ∧
    bytesOk ((encode_levels p lv1).1 ++ (encode_levels (encode_levels p lv1).2 lv2).1) := by
  have hr1 := levels_roundtrip lv1 p ((encode_levels (encode_levels p lv1).2 lv2).1 ++ rest)
    h1 (by omega)
  have hr2 := levels_roundtrip lv2 (encode_levels p lv1).2 rest h2 (by omega)
  refine ⟨?_, by omega, ?_⟩
  · simp only [decode_event_payload, if_pos rfl, List.append_assoc, hpool]
    simp only [hr1.1, hr2.1]
    simp
  · intro b hbm
    rcases List.mem_append.mp hbm with hbm | hbm
    · exact hr1.2.2 b hbm
    · exact hr2.2.2 b hbm

theorem price_change_roundtrip (p : StringPool) (chs : List InChange) (tb : Nat) (et : Bytes)
    (st : V3State) (ts : Nat) (rest : Bytes)
    (hok : ∀ ch ∈ chs, changeOk ch)
    (hb : p.i2s.length + 2 * chs.length ≤ 2 ^ 76)
    (hpool : st.pool = p) :
    decode_event_payload 1 tb et ((encode_price_change p chs).1 ++ rest) st ts =
      .ok (⟨et, st.asset_ids.headD [], decStr ts, .price_change (chs.map normChange)⟩, rest,
        { st with pool := (encode_price_change p chs).2 }) ∧
    (encode_price_change p chs).2.i2s.length ≤ p.i2s.length + 2 * chs.length ∧
    bytesOk (encode_price_change p chs).1 := by
  have hcnt : chs.length < 2 ^ 77 := by
    have : (2 : Nat) ^ 76 < 2 ^ 77 := by norm_num
    omega
  have hloop := changes_loop_roundtrip chs p rest hok hb
  refine ⟨?_, by simpa [encode_price_change] using hloop.2.1, ?_⟩
  · simp only [decode_event_payload, encode_price_change, List.append_assoc, hpool]
    norm_num
    rw [uvarint_roundtrip chs.length hcnt]
    simp only [List.drop_left]
    simp only [hloop.1]
  · simp only [encode_price_change]
    intro b hbm
    rcases List.mem_append.mp hbm with hbm | hbm
    · exact uvarint_encode_bytesOk _ b hbm
    · exact hloop.2.2 b hbm

theorem tick_roundtrip (p : StringPool) (ot nt : Bytes) (tb : Nat) (et : Bytes)
    (st : V3State) (ts : Nat) (rest : Bytes)
    (ho : strOk ot) (hn : strOk nt)
    (hb : p.i2s.length + 2 ≤ 2 ^ 76)
    (hpool : st.pool = p) :
    decode_event_payload 2 tb et ((encode_tick_size_change p ot nt).1 ++ rest) st ts =
      .ok (⟨et, st.asset_ids.headD [], decStr ts, .tick_size_change ot nt⟩, rest,
        { st with pool := (encode_tick_size_change p ot nt).2 }) ∧
    (encode_tick_size_change p ot nt).2.i2s.length ≤ p.i2s.length + 2 ∧
    bytesOk (encode_tick_size_change p ot nt).1 := by
  have g1 := pool_encode_grow p ot
  have g2 := pool_encode_grow (p.encode ot).2 nt
  have r1 := pool_roundtrip p ot (((p.encode ot).2.encode nt).1 ++ rest) (by omega) ho.2
  have r2 := pool_roundtrip (p.encode ot).2 nt rest (by omega) hn.2
  refine ⟨?_, by simp only [encode_tick_size_change]; omega, ?_⟩
  · simp only [decode_event_payload, encode_tick_size_change, List.append_assoc, hpool]
    norm_num
    simp only [r1, r2]
  · simp only [encode_tick_size_change]
    intro b hbm
    rcases List.mem_append.mp hbm with hbm | hbm
    · exact pool_encode_bytesOk _ _ ho.1 b hbm
    · exact pool_encode_bytesOk _ _ hn.1 b hbm

theorem ltp_roundtrip (p : StringPool) (pr sz sd : Bytes) (fee : Option Bytes) (tb : Nat)
    (et : Bytes) (st : V3State) (ts : Nat) (rest : Bytes)
    (hpr : strOk pr) (hsz : strOk sz) (hfee : strOk (fee.getD []))
    (hsd : asciiUpper sd = bytesOf "BUY" ∨ asciiUpper sd = bytesOf "SELL")
    (hb : p.i2s.length + 3 ≤ 2 ^ 76)
    (hpool : st.pool = p)
    (htb : (tb / 8 % 2 = 1) ↔ fee.isSome = true) :
    decode_event_payload 3 tb et ((encode_last_trade_price p pr sz sd fee tb).1 ++ rest) st ts =
      .ok (⟨et, st.asset_ids.headD [], decStr ts,
        .last_trade_price pr sz (asciiUpper sd) fee⟩, rest,
        { st with pool := (encode_last_trade_price p pr sz sd fee tb).2 }) ∧
    (encode_last_trade_price p pr sz sd fee tb).2.i2s.length ≤ p.i2s.length + 3 ∧
    bytesOk (encode_last_trade_price p pr sz sd fee tb).1 := by
  have g1 := pool_encode_grow p pr
  have g2 := pool_encode_grow (p.encode pr).2 sz
  have g3 := pool_encode_grow ((p.encode pr).2.encode sz).2 (fee.getD [])
  have hside : ∀ rest2 : Bytes, (if (if asciiUpper sd = bytesOf "SELL" then (1 : Nat) else 0)
      = 1 then bytesOf "SELL" else bytesOf "BUY") = asciiUpper sd := by
    intro _
    rcases hsd with hbuy | hsell
    · rw [hbuy]
      have : ¬ (bytesOf "BUY" = bytesOf "SELL") := by decide
      simp [this]
    · rw [hsell]
      simp
  by_cases hf : tb / 8 % 2 = 1
  · obtain ⟨fv, hfv⟩ := Option.isSome_iff_exists.mp (htb.mp hf)
    subst hfv
    have r1 := pool_roundtrip p pr (((p.encode pr).2.encode sz).1 ++
      ((if asciiUpper sd = bytesOf "SELL" then (1 : Nat) else 0) ::
        ((((p.encode pr).2.encode sz).2.encode fv).1 ++ rest))) (by omega) hpr.2
    have r2 := pool_roundtrip (p.encode pr).2 sz
      ((if asciiUpper sd = bytesOf "SELL" then (1 : Nat) else 0) ::
        ((((p.encode pr).2.encode sz).2.encode fv).1 ++ rest)) (by omega) hsz.2
    have r3 := pool_roundtrip ((p.encode pr).2.encode sz).2 fv rest (by omega)
      (by simpa using hfee.2)
    refine ⟨?_, ?_, ?_⟩
    · simp only [decode_event_payload, encode_last_trade_price, if_pos hf, List.append_assoc,
        List.cons_append, List.nil_append, hpool]
      norm_num
      simp only [r1, r2, r3]
      rw [hside rest]
    · simp only [encode_last_trade_price, if_pos hf]
      omega
    · simp only [encode_last_trade_price, if_pos hf]
      intro b hbm
      simp only [List.append_assoc, List.cons_append, List.nil_append] at hbm
      rcases List.mem_append.mp hbm with hbm | hbm
      · exact pool_encode_bytesOk _ _ hpr.1 b hbm
      · rcases List.mem_append.mp hbm with hbm | hbm
        · exact pool_encode_bytesOk _ _ hsz.1 b hbm
        · rcases List.mem_cons.mp hbm with rfl | hbm
          · split <;> omega
          · exact pool_encode_bytesOk _ _ (by simpa using hfee.1) b hbm
  · have hfn : fee = none := by
      cases fee with
      | none => rfl
      | some fv => simp [htb] at hf
    subst hfn
    have r1 := pool_roundtrip p pr (((p.encode pr).2.encode sz).1 ++
      ((if asciiUpper sd = bytesOf "SELL" then (1 : Nat) else 0) :: rest)) (by omega) hpr.2
    have r2 := pool_roundtrip (p.encode pr).2 sz
      ((if asciiUpper sd = bytesOf "SELL" then (1 : Nat) else 0) :: rest) (by omega) hsz.2
    refine ⟨?_, ?_, ?_⟩
    · simp only [decode_event_payload, encode_last_trade_price, if_neg hf, List.append_assoc,
        List.cons_append, List.nil_append, hpool]
      norm_num
      simp only [r1, r2]
      rw [hside rest]
    · simp only [encode_last_trade_price, if_neg hf]
      omega
    · simp only [encode_last_trade_price, if_neg hf]
      intro b hbm
      simp only [List.append_assoc, List.cons_append, List.nil_append] at hbm
      rcases List.mem_append.mp hbm with hbm | hbm
      · exact pool_encode_bytesOk _ _ hpr.1 b hbm
      · rcases List.mem_append.mp hbm with hbm | hbm
        · exact pool_encode_bytesOk _ _ hsz.1 b hbm
        · rcases List.mem_singleton.mp hbm with rfl
          split <;> omega

theorem decode_event_ts (tb tsv : Nat) (payloadB rest : Bytes) (st : V3State) (et : Bytes)
    (htsv : tsv < 2 ^ 77) (hname : etName (tb % 8) = some et) :
    decode_event (([tb] ++ uvarint_encode tsv ++ payloadB) ++ rest) st =
      decode_event_payload (tb % 8) tb et (payloadB ++ rest)
        { st with prev_ts := some (if tb / 32 % 2 = 1 ∨ st.prev_ts = none then tsv
            else st.prev_ts.getD 0 + tsv) }
        (if tb / 32 % 2 = 1 ∨ st.prev_ts = none then tsv else st.prev_ts.getD 0 + tsv) := by
  simp only [decode_event, List.singleton_append, List.cons_append, List.nil_append,
    List.append_assoc, hname]
  rw [uvarint_roundtrip tsv htsv]
  simp only [List.drop_left]

/-- Round-trip of one event between synced states: encoding succeeds,
decoding the produced bytes returns the normalised event, and the two
states stay synced (pools equal, `prev_ts` equal to the event's
timestamp). -/
theorem event_roundtrip (c : FrameCompressorV3) (st : V3State) (ev : InEvent) (rest : Bytes)
    (hsync : Synced c st) (hv : validEvent ev)
    (hbudget : c.pool.i2s.length + evCalls ev ≤ 2 ^ 76) :
    ∃ b c', encode_event c ev = .ok (b, c') ∧
      decode_event (b ++ rest) st =
        .ok (normEvent c.asset_id ev, rest,
          { st with pool := c'.pool, prev_ts := some ((get_ts ev).getD 0).toNat }) ∧
      c'.asset_id = c.asset_id ∧ c'.base_ts = c.base_ts ∧ c'.wrote_header = c.wrote_header ∧
      c'.prev_ts = some ((get_ts ev).getD 0) ∧
      c'.pool.i2s.length ≤ c.pool.i2s.length + evCalls ev ∧
      bytesOk b := by
  obtain ⟨hps, has, p, hcp, hsp⟩ := hsync
  obtain ⟨v, hgts⟩ := Option.isSome_iff_exists.mp hv.1
  have hv0 : 0 ≤ v := by have h := hv.2.1; rw [hgts] at h; simpa using h
  have hvlt : v < 2 ^ 77 := by have h := hv.2.2.1; rw [hgts] at h; simpa using h
  have hpok := hv.2.2.2
  have htv : (v.toNat : Int) = v := Int.toNat_of_nonneg hv0
  have hc77 : ((2 ^ 77 : Nat) : Int) = (2 : Int) ^ 77 := by push_cast
  have htlt : v.toNat < 2 ^ 77 := by omega
  have haid : st.asset_ids.headD [] = c.asset_id := by rw [has]; rfl
  cases hpl : ev.payload with
  | book bids buys asks sells =>
    simp only [evCalls, hpl] at hbudget
    rw [hpl] at hpok
    simp only [payloadOk] at hpok
    by_cases hge : v ≥ (p : Int)
    · have hpt : p ≤ v.toNat := by omega
      have hd : (v - (p : Int)).toNat = v.toNat - p := by omega
      have henc : encode_event c ev = .ok (
          [0] ++ uvarint_encode (v.toNat - p) ++ (encode_payload c.pool (.book bids buys asks sells) 0).1,
          { c with
            pool := (encode_payload c.pool (.book bids buys asks sells) 0).2,
            prev_ts := some v }) := by
        simp only [encode_event, hpl, etCode, hgts, hcp, if_pos hge, feePresent,
          uvarint_encode_checked, hd]
        rw [if_neg (by omega : ¬ (v - (p : Int) < 0))]
        norm_num
      refine ⟨_, _, henc, ?_, rfl, rfl, rfl, by simp [hgts], ?_, ?_⟩
      · have hbr := book_roundtrip c.pool (bids.getD (buys.getD [])) (asks.getD (sells.getD []))
          0 (bytesOf "book") { st with prev_ts := some v.toNat } v.toNat rest
          hpok.1 hpok.2 (by omega) (by simpa using hps)
        rw [decode_event_ts 0 (v.toNat - p) _ rest st (bytesOf "book") (by omega) (by rfl)]
        have hcond : ¬ ((0 : Nat) / 32 % 2 = 1 ∨ st.prev_ts = none) := by
          rw [hsp]; simp
        rw [if_neg hcond]
        rw [hsp]
        simp only [Option.getD_some]
        have hts : p + (v.toNat - p) = v.toNat := by omega
        rw [hts]
        simp only [encode_payload]
        rw [hbr.1]
        simp only [normEvent, hpl, hgts, Option.getD_some, haid]
      · simp only [encode_payload, evCalls, hpl]
        have := (book_roundtrip c.pool (bids.getD (buys.getD [])) (asks.getD (sells.getD []))
          0 (bytesOf "book") { st with prev_ts := some v.toNat } v.toNat rest
          hpok.1 hpok.2 (by omega) (by simpa using hps)).2.1
        omega
      · intro b hbm
        rcases List.mem_append.mp hbm with hbm | hbm
        · rcases List.mem_append.mp hbm with hbm | hbm
          · simp only [List.mem_singleton] at hbm; omega
          · exact uvarint_encode_bytesOk _ b hbm
        · exact (book_roundtrip c.pool (bids.getD (buys.getD [])) (asks.getD (sells.getD []))
            0 (bytesOf "book") { st with prev_ts := some v.toNat } v.toNat rest
            hpok.1 hpok.2 (by omega) (by simpa using hps)).2.2 b
            (by simpa [encode_payload] using hbm)
    · have henc : encode_event c ev = .ok (
          [32] ++ uvarint_encode v.toNat ++ (encode_payload c.pool (.book bids buys asks sells) 32).1,
          { c with
            pool := (encode_payload c.pool (.book bids buys asks sells) 32).2,
            prev_ts := some v }) := by
        simp only [encode_event, hpl, etCode, hgts, hcp, if_neg hge, feePresent,
          uvarint_encode_checked]
        rw [if_neg (by omega : ¬ (v < 0))]
        norm_num
      refine ⟨_, _, henc, ?_, rfl, rfl, rfl, by simp [hgts], ?_, ?_⟩
      · have hbr := book_roundtrip c.pool (bids.getD (buys.getD [])) (asks.getD (sells.getD []))
          32 (bytesOf "book") { st with prev_ts := some v.toNat } v.toNat rest
          hpok.1 hpok.2 (by omega) (by simpa using hps)
        rw [decode_event_ts 32 v.toNat _ rest st (bytesOf "book") htlt (by rfl)]
        rw [if_pos (Or.inl (by norm_num))]
        simp only [encode_payload]
        rw [hbr.1]
        simp only [normEvent, hpl, hgts, Option.getD_some, haid]
      · simp only [encode_payload, evCalls, hpl]
        have := (book_roundtrip c.pool (bids.getD (buys.getD [])) (asks.getD (sells.getD []))
          32 (bytesOf "book") { st with prev_ts := some v.toNat } v.toNat rest
          hpok.1 hpok.2 (by omega) (by simpa using hps)).2.1
        omega
      · intro b hbm
        rcases List.mem_append.mp hbm with hbm | hbm
        · rcases List.mem_append.mp hbm with hbm | hbm
          · simp only [List.mem_singleton] at hbm; omega
          · exact uvarint_encode_bytesOk _ b hbm
        · exact (book_roundtrip c.pool (bids.getD (buys.getD [])) (asks.getD (sells.getD []))
            32 (bytesOf "book") { st with prev_ts := some v.toNat } v.toNat rest
            hpok.1 hpok.2 (by omega) (by simpa using hps)).2.2 b
            (by simpa [encode_payload] using hbm)
  | price_change chs =>
    simp only [evCalls, hpl] at hbudget
    rw [hpl] at hpok
    simp only [payloadOk] at hpok
    by_cases hge : v ≥ (p : Int)
    · have hpt : p ≤ v.toNat := by omega
      have hd : (v - (p : Int)).toNat = v.toNat - p := by omega
      have henc : encode_event c ev = .ok (
          [1] ++ uvarint_encode (v.toNat - p) ++ (encode_payload c.pool (.price_change chs) 1).1,
          { c with
            pool := (encode_payload c.pool (.price_change chs) 1).2,
            prev_ts := some v }) := by
        simp only [encode_event, hpl, etCode, hgts, hcp, if_pos hge, feePresent,
          uvarint_encode_checked, hd]
        rw [if_neg (by omega : ¬ (v - (p : Int) < 0))]
        norm_num
      refine ⟨_, _, henc, ?_, rfl, rfl, rfl, by simp [hgts], ?_, ?_⟩
      · have hbr := price_change_roundtrip c.pool (chs.getD []) 1 (bytesOf "price_change")
          { st with prev_ts := some v.toNat } v.toNat rest hpok (by omega) (by simpa using hps)
        rw [decode_event_ts 1 (v.toNat - p) _ rest st (bytesOf "price_change") (by omega) (by rfl)]
        have hcond : ¬ ((1 : Nat) / 32 % 2 = 1 ∨ st.prev_ts = none) := by
          rw [hsp]; simp
        rw [if_neg hcond]
        rw [hsp]
        simp only [Option.getD_some]
        have hts : p + (v.toNat - p) = v.toNat := by omega
        rw [hts]
        simp only [encode_payload]
        rw [hbr.1]
        simp only [normEvent, hpl, hgts, Option.getD_some, haid]
      · simp only [encode_payload, evCalls, hpl]
        have := (price_change_roundtrip c.pool (chs.getD []) 1 (bytesOf "price_change")
          { st with prev_ts := some v.toNat } v.toNat rest hpok (by omega)
          (by simpa using hps)).2.1
        omega
      · intro b hbm
        rcases List.mem_append.mp hbm with hbm | hbm
        · rcases List.mem_append.mp hbm with hbm | hbm
          · simp only [List.mem_singleton] at hbm; omega
          · exact uvarint_encode_bytesOk _ b hbm
        · exact (price_change_roundtrip c.pool (chs.getD []) 1 (bytesOf "price_change")
            { st with prev_ts := some v.toNat } v.toNat rest hpok (by omega)
            (by simpa using hps)).2.2 b (by simpa [encode_payload] using hbm)
    · have henc : encode_event c ev = .ok (
          [33] ++ uvarint_encode v.toNat ++ (encode_payload c.pool (.price_change chs) 33).1,
          { c with
            pool := (encode_payload c.pool (.price_change chs) 33).2,
            prev_ts := some v }) := by
        simp only [encode_event, hpl, etCode, hgts, hcp, if_neg hge, feePresent,
          uvarint_encode_checked]
        rw [if_neg (by omega : ¬ (v < 0))]
        norm_num
      refine ⟨_, _, henc, ?_, rfl, rfl, rfl, by simp [hgts], ?_, ?_⟩
      · have hbr := price_change_roundtrip c.pool (chs.getD []) 33 (bytesOf "price_change")
          { st with prev_ts := some v.toNat } v.toNat rest hpok (by omega) (by simpa using hps)
        rw [decode_event_ts 33 v.toNat _ rest st (bytesOf "price_change") htlt (by rfl)]
        rw [if_pos (Or.inl (by norm_num))]
        simp only [encode_payload]
        rw [hbr.1]
        simp only [normEvent, hpl, hgts, Option.getD_some, haid]
      · simp only [encode_payload, evCalls, hpl]
        have := (price_change_roundtrip c.pool (chs.getD []) 33 (bytesOf "price_change")
          { st with prev_ts := some v.toNat } v.toNat rest hpok (by omega)
          (by simpa using hps)).2.1
        omega
      · intro b hbm
        rcases List.mem_append.mp hbm with hbm | hbm
        · rcases List.mem_append.mp hbm with hbm | hbm
          · simp only [List.mem_singleton] at hbm; omega
          · exact uvarint_encode_bytesOk _ b hbm
        · exact (price_change_roundtrip c.pool (chs.getD []) 33 (bytesOf "price_change")
            { st with prev_ts := some v.toNat } v.toNat rest hpok (by omega)
            (by simpa using hps)).2.2 b (by simpa [encode_payload] using hbm)
  | tick_size_change o n =>
    simp only [evCalls, hpl] at hbudget
    rw [hpl] at hpok
    simp only [payloadOk] at hpok
    by_cases hge : v ≥ (p : Int)
    · have hpt : p ≤ v.toNat := by omega
      have hd : (v - (p : Int)).toNat = v.toNat - p := by omega
      have henc : encode_event c ev = .ok (
          [2] ++ uvarint_encode (v.toNat - p) ++ (encode_payload c.pool (.tick_size_change o n) 2).1,
          { c with
            pool := (encode_payload c.pool (.tick_size_change o n) 2).2,
            prev_ts := some v }) := by
        simp only [encode_event, hpl, etCode, hgts, hcp, if_pos hge, feePresent,
          uvarint_encode_checked, hd]
        rw [if_neg (by omega : ¬ (v - (p : Int) < 0))]
        norm_num
      refine ⟨_, _, henc, ?_, rfl, rfl, rfl, by simp [hgts], ?_, ?_⟩
      · have hbr := tick_roundtrip c.pool (o.getD []) (n.getD []) 2 (bytesOf "tick_size_change")
          { st with prev_ts := some v.toNat } v.toNat rest hpok.1 hpok.2 (by omega)
          (by simpa using hps)
        rw [decode_event_ts 2 (v.toNat - p) _ rest st (bytesOf "tick_size_change") (by omega)
          (by rfl)]
        have hcond : ¬ ((2 : Nat) / 32 % 2 = 1 ∨ st.prev_ts = none) := by
          rw [hsp]; simp
        rw [if_neg hcond]
        rw [hsp]
        simp only [Option.getD_some]
        have hts : p + (v.toNat - p) = v.toNat := by omega
        rw [hts]
        simp only [encode_payload]
        rw [hbr.1]
        simp only [normEvent, hpl, hgts, Option.getD_some, haid]
      · simp only [encode_payload, evCalls, hpl]
        have := (tick_roundtrip c.pool (o.getD []) (n.getD []) 2 (bytesOf "tick_size_change")
          { st with prev_ts := some v.toNat } v.toNat rest hpok.1 hpok.2 (by omega)
          (by simpa using hps)).2.1
        omega
      · intro b hbm
        rcases List.mem_append.mp hbm with hbm | hbm
        · rcases List.mem_append.mp hbm with hbm | hbm
          · simp only [List.mem_singleton] at hbm; omega
          · exact uvarint_encode_bytesOk _ b hbm
        · exact (tick_roundtrip c.pool (o.getD []) (n.getD []) 2 (bytesOf "tick_size_change")
            { st with prev_ts := some v.toNat } v.toNat rest hpok.1 hpok.2 (by omega)
            (by simpa using hps)).2.2 b (by simpa [encode_payload] using hbm)
    · have henc : encode_event c ev = .ok (
          [34] ++ uvarint_encode v.toNat ++ (encode_payload c.pool (.tick_size_change o n) 34).1,
          { c with
            pool := (encode_payload c.pool (.tick_size_change o n) 34).2,
            prev_ts := some v }) := by
        simp only [encode_event, hpl, etCode, hgts, hcp, if_neg hge, feePresent,
          uvarint_encode_checked]
        rw [if_neg (by omega : ¬ (v < 0))]
        norm_num
      refine ⟨_, _, henc, ?_, rfl, rfl, rfl, by simp [hgts], ?_, ?_⟩
      · have hbr := tick_roundtrip c.pool (o.getD []) (n.getD []) 34 (bytesOf "tick_size_change")
          { st with prev_ts := some v.toNat } v.toNat rest hpok.1 hpok.2 (by omega)
          (by simpa using hps)
        rw [decode_event_ts 34 v.toNat _ rest st (bytesOf "tick_size_change") htlt (by rfl)]
        rw [if_pos (Or.inl (by norm_num))]
        simp only [encode_payload]
        rw [hbr.1]
        simp only [normEvent, hpl, hgts, Option.getD_some, haid]
      · simp only [encode_payload, evCalls, hpl]
        have := (tick_roundtrip c.pool (o.getD []) (n.getD []) 34 (bytesOf "tick_size_change")
          { st with prev_ts := some v.toNat } v.toNat rest hpok.1 hpok.2 (by omega)
          (by simpa using hps)).2.1
        omega
      · intro b hbm
        rcases List.mem_append.mp hbm with hbm | hbm
        · rcases List.mem_append.mp hbm with hbm | hbm
          · simp only [List.mem_singleton] at hbm; omega
          · exact uvarint_encode_bytesOk _ b hbm
        · exact (tick_roundtrip c.pool (o.getD []) (n.getD []) 34 (bytesOf "tick_size_change")
            { st with prev_ts := some v.toNat } v.toNat rest hpok.1 hpok.2 (by omega)
            (by simpa using hps)).2.2 b (by simpa [encode_payload] using hbm)
  | last_trade_price pr sz sd fee =>
    simp only [evCalls, hpl] at hbudget
    rw [hpl] at hpok
    simp only [payloadOk] at hpok
    cases fee with
    | some fv =>
      by_cases hge : v ≥ (p : Int)
      · have hpt : p ≤ v.toNat := by omega
        have hd : (v - (p : Int)).toNat = v.toNat - p := by omega
        have henc : encode_event c ev = .ok (
            [11] ++ uvarint_encode (v.toNat - p) ++
              (encode_payload c.pool (.last_trade_price pr sz sd (some fv)) 11).1,
            { c with
              pool := (encode_payload c.pool (.last_trade_price pr sz sd (some fv)) 11).2,
              prev_ts := some v }) := by
          simp only [encode_event, hpl, etCode, hgts, hcp, if_pos hge, feePresent,
            uvarint_encode_checked, hd]
          rw [if_neg (by omega : ¬ (v - (p : Int) < 0))]
          norm_num
        refine ⟨_, _, henc, ?_, rfl, rfl, rfl, by simp [hgts], ?_, ?_⟩
        · have hbr := ltp_roundtrip c.pool (pr.getD []) (sz.getD []) (sd.getD []) (some fv) 11
            (bytesOf "last_trade_price") { st with prev_ts := some v.toNat } v.toNat rest
            hpok.1 hpok.2.1 hpok.2.2.2 hpok.2.2.1 (by omega) (by simpa using hps) (by simp)
          rw [decode_event_ts 11 (v.toNat - p) _ rest st (bytesOf "last_trade_price") (by omega)
            (by rfl)]
          have hcond : ¬ ((11 : Nat) / 32 % 2 = 1 ∨ st.prev_ts = none) := by
            rw [hsp]; simp
          rw [if_neg hcond]
          rw [hsp]
          simp only [Option.getD_some]
          have hts : p + (v.toNat - p) = v.toNat := by omega
          rw [hts]
          simp only [encode_payload]
          rw [hbr.1]
          simp only [normEvent, hpl, hgts, Option.getD_some, haid]
        · simp only [encode_payload, evCalls, hpl]
          have := (ltp_roundtrip c.pool (pr.getD []) (sz.getD []) (sd.getD []) (some fv) 11
            (bytesOf "last_trade_price") { st with prev_ts := some v.toNat } v.toNat rest
            hpok.1 hpok.2.1 hpok.2.2.2 hpok.2.2.1 (by omega) (by simpa using hps) (by simp)).2.1
          omega
        · intro b hbm
          rcases List.mem_append.mp hbm with hbm | hbm
          · rcases List.mem_append.mp hbm with hbm | hbm
            · simp only [List.mem_singleton] at hbm; omega
            · exact uvarint_encode_bytesOk _ b hbm
          · exact (ltp_roundtrip c.pool (pr.getD []) (sz.getD []) (sd.getD []) (some fv) 11
              (bytesOf "last_trade_price") { st with prev_ts := some v.toNat } v.toNat rest
              hpok.1 hpok.2.1 hpok.2.2.2 hpok.2.2.1 (by omega) (by simpa using hps)
              (by simp)).2.2 b (by simpa [encode_payload] using hbm)
      · have henc : encode_event c ev = .ok (
            [43] ++ uvarint_encode v.toNat ++
              (encode_payload c.pool (.last_trade_price pr sz sd (some fv)) 43).1,
            { c with
              pool := (encode_payload c.pool (.last_trade_price pr sz sd (some fv)) 43).2,
              prev_ts := some v }) := by
          simp only [encode_event, hpl, etCode, hgts, hcp, if_neg hge, feePresent,
            uvarint_encode_checked]
          rw [if_neg (by omega : ¬ (v < 0))]
          norm_num
        refine ⟨_, _, henc, ?_, rfl, rfl, rfl, by simp [hgts], ?_, ?_⟩
        · have hbr := ltp_roundtrip c.pool (pr.getD []) (sz.getD []) (sd.getD []) (some fv) 43
            (bytesOf "last_trade_price") { st with prev_ts := some v.toNat } v.toNat rest
            hpok.1 hpok.2.1 hpok.2.2.2 hpok.2.2.1 (by omega) (by simpa using hps) (by simp)
          rw [decode_event_ts 43 v.toNat _ rest st (bytesOf "last_trade_price") htlt (by rfl)]
          rw [if_pos (Or.inl (by norm_num))]
          simp only [encode_payload]
          rw [hbr.1]
          simp only [normEvent, hpl, hgts, Option.getD_some, haid]
        · simp only [encode_payload, evCalls, hpl]
          have := (ltp_roundtrip c.pool (pr.getD []) (sz.getD []) (sd.getD []) (some fv) 43
            (bytesOf "last_trade_price") { st with prev_ts := some v.toNat } v.toNat rest
            hpok.1 hpok.2.1 hpok.2.2.2 hpok.2.2.1 (by omega) (by simpa using hps) (by simp)).2.1
          omega
        · intro b hbm
          rcases List.mem_append.mp hbm with hbm | hbm
          · rcases List.mem_append.mp hbm with hbm | hbm
            · simp only [List.mem_singleton] at hbm; omega
            · exact uvarint_encode_bytesOk _ b hbm
          · exact (ltp_roundtrip c.pool (pr.getD []) (sz.getD []) (sd.getD []) (some fv) 43
              (bytesOf "last_trade_price") { st with prev_ts := some v.toNat } v.toNat rest
              hpok.1 hpok.2.1 hpok.2.2.2 hpok.2.2.1 (by omega) (by simpa using hps)
              (by simp)).2.2 b (by simpa [encode_payload] using hbm)
    | none =>
      by_cases hge : v ≥ (p : Int)
      · have hpt : p ≤ v.toNat := by omega
        have hd : (v - (p : Int)).toNat = v.toNat - p := by omega
        have henc : encode_event c ev = .ok (
            [3] ++ uvarint_encode (v.toNat - p) ++
              (encode_payload c.pool (.last_trade_price pr sz sd none) 3).1,
            { c with
              pool := (encode_payload c.pool (.last_trade_price pr sz sd none) 3).2,
              prev_ts := some v }) := by
          simp only [encode_event, hpl, etCode, hgts, hcp, if_pos hge, feePresent,
            uvarint_encode_checked, hd]
          rw [if_neg (by omega : ¬ (v - (p : Int) < 0))]
          norm_num
        refine ⟨_, _, henc, ?_, rfl, rfl, rfl, by simp [hgts], ?_, ?_⟩
        · have hbr := ltp_roundtrip c.pool (pr.getD []) (sz.getD []) (sd.getD []) none 3
            (bytesOf "last_trade_price") { st with prev_ts := some v.toNat } v.toNat rest
            hpok.1 hpok.2.1 hpok.2.2.2 hpok.2.2.1 (by omega) (by simpa using hps) (by simp)
          rw [decode_event_ts 3 (v.toNat - p) _ rest st (bytesOf "last_trade_price") (by omega)
            (by rfl)]
          have hcond : ¬ ((3 : Nat) / 32 % 2 = 1 ∨ st.prev_ts = none) := by
            rw [hsp]; simp
          rw [if_neg hcond]
          rw [hsp]
          simp only [Option.getD_some]
          have hts : p + (v.toNat - p) = v.toNat := by omega
          rw [hts]
          simp only [encode_payload]
          rw [hbr.1]
          simp only [normEvent, hpl, hgts, Option.getD_some, haid]
        · simp only [encode_payload, evCalls, hpl]
          have := (ltp_roundtrip c.pool (pr.getD []) (sz.getD []) (sd.getD []) none 3
            (bytesOf "last_trade_price") { st with prev_ts := some v.toNat } v.toNat rest
            hpok.1 hpok.2.1 hpok.2.2.2 hpok.2.2.1 (by omega) (by simpa using hps) (by simp)).2.1
          omega
        · intro b hbm
          rcases List.mem_append.mp hbm with hbm | hbm
          · rcases List.mem_append.mp hbm with hbm | hbm
            · simp only [List.mem_singleton] at hbm; omega
            · exact uvarint_encode_bytesOk _ b hbm
          · exact (ltp_roundtrip c.pool (pr.getD []) (sz.getD []) (sd.getD []) none 3
              (bytesOf "last_trade_price") { st with prev_ts := some v.toNat } v.toNat rest
              hpok.1 hpok.2.1 hpok.2.2.2 hpok.2.2.1 (by omega) (by simpa using hps)
              (by simp)).2.2 b (by simpa [encode_payload] using hbm)
      · have henc : encode_event c ev = .ok (
            [35] ++ uvarint_encode v.toNat ++
              (encode_payload c.pool (.last_trade_price pr sz sd none) 35).1,
            { c with
              pool := (encode_payload c.pool (.last_trade_price pr sz sd none) 35).2,
              prev_ts := some v }) := by
          simp only [encode_event, hpl, etCode, hgts, hcp, if_neg hge, feePresent,
            uvarint_encode_checked]
          rw [if_neg (by omega : ¬ (v < 0))]
          norm_num
        refine ⟨_, _, henc, ?_, rfl, rfl, rfl, by simp [hgts], ?_, ?_⟩
        · have hbr := ltp_roundtrip c.pool (pr.getD []) (sz.getD []) (sd.getD []) none 35
            (bytesOf "last_trade_price") { st with prev_ts := some v.toNat } v.toNat rest
            hpok.1 hpok.2.1 hpok.2.2.2 hpok.2.2.1 (by omega) (by simpa using hps) (by simp)
          rw [decode_event_ts 35 v.toNat _ rest st (bytesOf "last_trade_price") htlt (by rfl)]
          rw [if_pos (Or.inl (by norm_num))]
          simp only [encode_payload]
          rw [hbr.1]
          simp only [normEvent, hpl, hgts, Option.getD_some, haid]
        · simp only [encode_payload, evCalls, hpl]
          have := (ltp_roundtrip c.pool (pr.getD []) (sz.getD []) (sd.getD []) none 35
            (bytesOf "last_trade_price") { st with prev_ts := some v.toNat } v.toNat rest
            hpok.1 hpok.2.1 hpok.2.2.2 hpok.2.2.1 (by omega) (by simpa using hps) (by simp)).2.1
          omega
        · intro b hbm
          rcases List.mem_append.mp hbm with hbm | hbm
          · rcases List.mem_append.mp hbm with hbm | hbm
            · simp only [List.mem_singleton] at hbm; omega
            · exact uvarint_encode_bytesOk _ b hbm
          · exact (ltp_roundtrip c.pool (pr.getD []) (sz.getD []) (sd.getD []) none 35
              (bytesOf "last_trade_price") { st with prev_ts := some v.toNat } v.toNat rest
              hpok.1 hpok.2.1 hpok.2.2.2 hpok.2.2.1 (by omega) (by simpa using hps)
              (by simp)).2.2 b (by simpa [encode_payload] using hbm)
  | other et =>
    rw [hpl] at hpok
    simp only [payloadOk] at hpok

theorem frameCalls_cons (ev : InEvent) (evs : List InEvent) :
    frameCalls (ev :: evs) = evCalls ev + frameCalls evs := by
  simp [frameCalls]

/-- Round-trip of a list of events between synced states. -/
theorem events_roundtrip (evs : List InEvent) :
    ∀ (c : FrameCompressorV3) (st : V3State) (rest : Bytes),
      Synced c st → (∀ ev ∈ evs, validEvent ev) →
      c.pool.i2s.length + frameCalls evs ≤ 2 ^ 76 →
      ∃ b c' st', encode_events_fold c evs = .ok (b, c') ∧
        decode_events_loop evs.length (b ++ rest) st =
          .ok (evs.map (normEvent c.asset_id), rest, st') ∧
        Synced c' st' ∧
        c'.asset_id = c.asset_id ∧ c'.base_ts = c.base_ts ∧ c'.wrote_header = c.wrote_header ∧
        st'.asset_ids = st.asset_ids ∧ st'.flags = st.flags ∧ st'.base_ts = st.base_ts ∧
        st'.have_header = st.have_header ∧
        c'.pool.i2s.length ≤ c.pool.i2s.length + frameCalls evs ∧
        bytesOk b := by
  induction evs with
  | nil =>
    intro c st rest hsync _ _
    exact ⟨[], c, st, rfl, rfl, hsync, rfl, rfl, rfl, rfl, rfl, rfl, rfl,
      by simp [frameCalls], by intro b hb; simp at hb⟩
  | cons ev evs ih =>
    intro c st rest hsync hval hb
    have hval1 := hval ev (by simp)
    have hbud1 : c.pool.i2s.length + evCalls ev ≤ 2 ^ 76 := by
      rw [frameCalls_cons] at hb; omega
    obtain ⟨b1, c1, henc1, _hdec1, ha1, hbase1, hw1, hp1, hg1, hok1⟩ :=
      event_roundtrip c st ev [] hsync hval1 hbud1
    obtain ⟨v, hgts⟩ := Option.isSome_iff_exists.mp hval1.1
    have hv0 : 0 ≤ v := by have h := hval1.2.1; rw [hgts] at h; simpa using h
    have hsync1 : Synced c1
        { st with pool := c1.pool, prev_ts := some ((get_ts ev).getD 0).toNat } := by
      refine ⟨rfl, ?_, ⟨((get_ts ev).getD 0).toNat, ?_, rfl⟩⟩
      · rw [ha1]
        exact hsync.2.1
      · rw [hp1, hgts]
        simp only [Option.getD_some]
        congr 1
        omega
    have hbud2 : c1.pool.i2s.length + frameCalls evs ≤ 2 ^ 76 := by
      rw [frameCalls_cons] at hb; omega
    obtain ⟨b2, c2, st2, henc2, hdec2, hsync2, ha2, hbase2, hw2, hsa2, hsf2, hsb2, hsh2, hg2,
      hok2⟩ := ih c1 { st with pool := c1.pool, prev_ts := some ((get_ts ev).getD 0).toNat }
      rest hsync1 (fun x hx => hval x (by simp [hx])) hbud2
    obtain ⟨b1', c1', henc1', hdec1', _, _, _, _, _, _⟩ :=
      event_roundtrip c st ev (b2 ++ rest) hsync hval1 hbud1
    rw [henc1] at henc1'
    have hbeq : b1 = b1' ∧ c1 = c1' := by
      have := henc1'
      simp only [Except.ok.injEq, Prod.mk.injEq] at this
      exact this
    obtain ⟨hbe, hce⟩ := hbeq
    subst hbe
    subst hce
    refine ⟨b1 ++ b2, c2, st2, ?_, ?_, hsync2, by rw [ha2, ha1], by rw [hbase2, hbase1],
      by rw [hw2, hw1], by simpa using hsa2, hsf2, by simpa using hsb2, by simpa using hsh2,
      ?_, ?_⟩
    · simp only [encode_events_fold, henc1, henc2]
    · simp only [List.length_cons, decode_events_loop, List.append_assoc, hdec1']
      rw [hdec2]
      simp only [List.map_cons, ha1]
    · rw [frameCalls_cons]
      omega
    · intro b hbm
      rcases List.mem_append.mp hbm with hbm | hbm
      · exact hok1 b hbm
      · exact hok2 b hbm

/-- Round-trip of one `F` record line between synced states, through the
transport and `_try_decode_v3_line`. -/
theorem frame_line_roundtrip (evs : List InEvent) (c : FrameCompressorV3) (st : V3State)
    (hsync : Synced c st) (hval : ∀ ev ∈ evs, validEvent ev)
    (hb : c.pool.i2s.length + frameCalls evs ≤ 2 ^ 76) (hn : evs.length < 2 ^ 77) :
    ∃ rec c' st', encode_frame_events c evs = .ok (rec, c') ∧
      bytesOk rec ∧ rec.head? = some 0x46 ∧
      try_decode_v3_line (deflate_raw_b64 rec) st =
        .ok (some [.frame (evs.map (normEvent c.asset_id))], st') ∧
      Synced c' st' ∧
      c'.asset_id = c.asset_id ∧ c'.base_ts = c.base_ts ∧ c'.wrote_header = c.wrote_header ∧
      st'.asset_ids = st.asset_ids ∧ st'.flags = st.flags ∧ st'.base_ts = st.base_ts ∧
      st'.have_header = st.have_header ∧
      c'.pool.i2s.length ≤ c.pool.i2s.length + frameCalls evs := by
  obtain ⟨B, c', st', henc, hdec, hsync', ha, hbase, hw, hsa, hsf, hsb, hsh, hg, hok⟩ :=
    events_roundtrip evs c st [] hsync hval hb
  rw [List.append_nil] at hdec
  have hrecOk : bytesOk ([0x46] ++ uvarint_encode evs.length ++ B) := by
    intro b hbm
    rcases List.mem_append.mp hbm with hbm | hbm
    · rcases List.mem_append.mp hbm with hbm | hbm
      · simp only [List.mem_singleton] at hbm; omega
      · exact uvarint_encode_bytesOk _ b hbm
    · exact hok b hbm
  refine ⟨[0x46] ++ uvarint_encode evs.length ++ B, c', st', ?_, hrecOk, rfl, ?_, hsync', ha,
    hbase, hw, hsa, hsf, hsb, hsh, hg⟩
  · simp only [encode_frame_events, henc]
  · unfold try_decode_v3_line
    rw [transport_roundtrip _ hrecOk]
    simp only [List.singleton_append, List.cons_append]
    norm_num
    unfold decode_frame
    rw [uvarint_roundtrip evs.length hn B]
    simp only [List.drop_left]
    rw [hdec]

/-- Decoding the header line built by `_ensure_header` from any decoder
state: the state is replaced by the fresh session state. -/
theorem header_line_roundtrip (aid : Bytes) (base : Nat) (st0 : V3State)
    (haid : bytesOk aid) (hlen : aid.length < 2 ^ 77) (hbase : base < 2 ^ 77) :
    try_decode_v3_line (deflate_raw_b64 ([0x48] ++ uvarint_encode 3 ++ uvarint_encode 1 ++
        uvarint_encode base ++ uvarint_encode 1 ++ uvarint_encode aid.length ++ aid)) st0 =
      .ok (some [], ⟨.empty, base, some base, [aid], 1, true⟩) := by
  have hrecOk : bytesOk ([0x48] ++ uvarint_encode 3 ++ uvarint_encode 1 ++
      uvarint_encode base ++ uvarint_encode 1 ++ uvarint_encode aid.length ++ aid) := by
    intro b hbm
    simp only [List.mem_append, List.mem_singleton] at hbm
    rcases hbm with (((((rfl | h) | h) | h) | h) | h) | h
    · omega
    · exact uvarint_encode_bytesOk _ b h
    · exact uvarint_encode_bytesOk _ b h
    · exact uvarint_encode_bytesOk _ b h
    · exact uvarint_encode_bytesOk _ b h
    · exact uvarint_encode_bytesOk _ b h
    · exact haid b h
  have hra : read_assets 1 (uvarint_encode aid.length ++ aid) = .ok ([aid], []) := by
    unfold read_assets
    rw [uvarint_roundtrip aid.length hlen]
    simp only [List.drop_left]
    rw [if_neg (by simp)]
    simp only [List.drop_length, List.take_length]
    rfl
  have hdr : decode_header (uvarint_encode 3 ++ (uvarint_encode 1 ++ (uvarint_encode base ++
      (uvarint_encode 1 ++ (uvarint_encode aid.length ++ aid))))) st0 =
      .ok ⟨.empty, base, some base, [aid], 1, true⟩ := by
    unfold decode_header
    rw [uvarint_roundtrip 3 (by norm_num)]
    simp only [List.drop_left]
    rw [if_neg (by norm_num)]
    rw [uvarint_roundtrip 1 (by norm_num)]
    simp only [List.drop_left]
    rw [uvarint_roundtrip base hbase]
    simp only [List.drop_left]
    rw [uvarint_roundtrip 1 (by norm_num)]
    simp only [List.drop_left]
    rw [hra]
  unfold try_decode_v3_line
  rw [transport_roundtrip _ hrecOk]
  simp only [List.append_assoc, List.singleton_append, List.cons_append, List.nil_append,
    if_true]
  rw [hdr]

theorem frameCalls_strip (evs : List InEvent) :
    frameCalls (evs.map stripMarketHash) = frameCalls evs := by
  induction evs with
  | nil => rfl
  | cons e t ihh =>
    simp only [List.map_cons, frameCalls_cons, ihh, strip_evCalls]

theorem norm_strip_map (aid : Bytes) (evs : List InEvent) :
    (evs.map stripMarketHash).map (normEvent aid) = evs.map (normEvent aid) := by
  induction evs with
  | nil => rfl
  | cons e t ihh =>
    simp only [List.map_cons, ihh, strip_norm]

/-- One `compress` call inside an established session: a single frame line,
which decodes to the one normalised event array. -/
theorem compress_frame_in_session (evs : List InEvent) (c : FrameCompressorV3) (st : V3State)
    (hsync : Synced c st) (hw : c.wrote_header = true)
    (hval : ∀ ev ∈ evs, validEvent ev)
    (hb : c.pool.i2s.length + frameCalls evs ≤ 2 ^ 76) (hn : evs.length < 2 ^ 77) :
    ∃ line c' st', compress c (.jsonList evs) = .ok ([line], c') ∧
      try_decode_v3_line line st = .ok (some [.frame (evs.map (normEvent c.asset_id))], st') ∧
      Synced c' st' ∧ c'.wrote_header = true ∧
      c'.asset_id = c.asset_id ∧ c'.base_ts = c.base_ts ∧
      c'.pool.i2s.length ≤ c.pool.i2s.length + frameCalls evs := by
  have hval' : ∀ ev ∈ evs.map stripMarketHash, validEvent ev := by
    intro x hx
    obtain ⟨y, hy, rfl⟩ := List.mem_map.mp hx
    exact (strip_valid y).mpr (hval y hy)
  obtain ⟨rec, c', st', henc, hok, hhead, hdec, hsync', ha, hbase, hw', hsa, hsf, hsb, hsh, hg⟩ :=
    frame_line_roundtrip (evs.map stripMarketHash) c st hsync hval'
      (by rw [frameCalls_strip]; exact hb) (by simpa using hn)
  refine ⟨deflate_raw_b64 rec, c', st', ?_, ?_, hsync', by rw [hw', hw], ha, hbase,
    by rw [← frameCalls_strip]; exact hg⟩
  · unfold compress compress_events ensure_header
    simp only [hw, if_true]
    rw [henc]
  · rw [norm_strip_map] at hdec
    exact hdec

/-- The value chosen for `base_ts` on the first frame of a valid session. -/
theorem first_ts_of_valid (evs : List InEvent) (hval : ∀ ev ∈ evs, validEvent ev) :
    ∃ bn : Nat, (first_numeric_ts evs).getD 0 = (bn : Int) ∧ bn < 2 ^ 77 ∧
      0 ≤ (first_numeric_ts evs).getD 0 := by
  cases evs with
  | nil => exact ⟨0, rfl, by norm_num, le_refl 0⟩
  | cons ev t =>
    have hv := hval ev (by simp)
    obtain ⟨v, hgts⟩ := Option.isSome_iff_exists.mp hv.1
    have hv0 : 0 ≤ v := by have h := hv.2.1; rw [hgts] at h; simpa using h
    have hvlt : v < 2 ^ 77 := by have h := hv.2.2.1; rw [hgts] at h; simpa using h
    have hfn : first_numeric_ts (ev :: t) = some v := by
      simp only [first_numeric_ts, hgts]
    refine ⟨v.toNat, ?_, ?_, ?_⟩
    · rw [hfn]
      simp only [Option.getD_some]
      omega
    · have hc77 : ((2 ^ 77 : Nat) : Int) = (2 : Int) ^ 77 := by push_cast
      omega
    · rw [hfn]
      simpa using hv0

/-- The first `compress` call of a session: the header line (decoding to
zero outputs, from any prior decoder state) followed by the frame line. -/
theorem compress_first_frame (aid : Bytes) (evs : List InEvent) (st0 : V3State)
    (haid : bytesOk aid) (halen : aid.length < 2 ^ 77)
    (hval : ∀ ev ∈ evs, validEvent ev)
    (hb : frameCalls evs ≤ 2 ^ 76) (hn : evs.length < 2 ^ 77) :
    ∃ hline fline c' st1 st',
      compress (.init aid) (.jsonList evs) = .ok ([hline, fline], c') ∧
      try_decode_v3_line hline st0 = .ok (some [], st1) ∧
      try_decode_v3_line fline st1 = .ok (some [.frame (evs.map (normEvent aid))], st') ∧
      Synced c' st' ∧ c'.wrote_header = true ∧ c'.asset_id = aid ∧
      c'.pool.i2s.length ≤ frameCalls evs := by
  obtain ⟨bn, hbn, hbnlt, hb0⟩ := first_ts_of_valid evs hval
  have htn : ((first_numeric_ts evs).getD 0).toNat = bn := by omega
  have hhdr : ensure_header (.init aid) (first_numeric_ts evs) = .ok (
      some (deflate_raw_b64 ([0x48] ++ uvarint_encode 3 ++ uvarint_encode 1 ++
        uvarint_encode bn ++ uvarint_encode 1 ++ uvarint_encode aid.length ++ aid)),
      { asset_id := aid, pool := .empty, base_ts := some ((first_numeric_ts evs).getD 0),
        prev_ts := some ((first_numeric_ts evs).getD 0), wrote_header := true }) := by
    unfold ensure_header FrameCompressorV3.init uvarint_encode_checked
    rw [if_neg (by simp), if_neg (not_lt.mpr hb0), htn]
  have hsync1 : Synced
      { asset_id := aid, pool := .empty, base_ts := some ((first_numeric_ts evs).getD 0),
        prev_ts := some ((first_numeric_ts evs).getD 0), wrote_header := true }
      ⟨.empty, bn, some bn, [aid], 1, true⟩ :=
    ⟨rfl, rfl, ⟨bn, by simp [hbn], rfl⟩⟩
  have hval' : ∀ ev ∈ evs.map stripMarketHash, validEvent ev := by
    intro x hx
    obtain ⟨y, hy, rfl⟩ := List.mem_map.mp hx
    exact (strip_valid y).mpr (hval y hy)
  obtain ⟨rec, c', st', henc, hok, hhead, hdec, hsync', ha, hbase, hw', hsa, hsf, hsb, hsh, hg⟩ :=
    frame_line_roundtrip (evs.map stripMarketHash)
      { asset_id := aid, pool := .empty, base_ts := some ((first_numeric_ts evs).getD 0),
        prev_ts := some ((first_numeric_ts evs).getD 0), wrote_header := true }
      ⟨.empty, bn, some bn, [aid], 1, true⟩ hsync1 hval'
      (by rw [frameCalls_strip]; simpa [StringPool.empty] using hb) (by simpa using hn)
  refine ⟨_, deflate_raw_b64 rec, c', ⟨.empty, bn, some bn, [aid], 1, true⟩, st', ?_,
    header_line_roundtrip aid bn st0 haid halen hbnlt, ?_, hsync', hw', ha, ?_⟩
  · simp only [compress, compress_events, hhdr, henc]
  · rw [norm_strip_map] at hdec
    exact hdec
  · rw [← frameCalls_strip]
    simpa [StringPool.empty] using hg

theorem sessionCalls_cons (f : List InEvent) (fs : List (List InEvent)) :
    sessionCalls (f :: fs) = frameCalls f + sessionCalls fs := by
  simp [sessionCalls]

/-- Round-trip of the remaining frames of an established session. -/
theorem session_roundtrip_tail (frames : List (List InEvent)) :
    ∀ (c : FrameCompressorV3) (st : V3State),
      Synced c st → c.wrote_header = true →
      (∀ f ∈ frames, ∀ ev ∈ f, validEvent ev) →
      (∀ f ∈ frames, f.length < 2 ^ 77) →
      c.pool.i2s.length + sessionCalls frames ≤ 2 ^ 76 →
      ∃ lines c' st', compress_all c frames = .ok (lines, c') ∧
        decode_lines st lines =
          .ok (frames.map (fun f => V3Out.frame (f.map (normEvent c.asset_id))), st') ∧
        Synced c' st' ∧ c'.wrote_header = true ∧ c'.asset_id = c.asset_id ∧
        c'.pool.i2s.length ≤ c.pool.i2s.length + sessionCalls frames := by
  induction frames with
  | nil =>
    intro c st hsync hw _ _ _
    exact ⟨[], c, st, rfl, rfl, hsync, hw, rfl, by simp [sessionCalls]⟩
  | cons f fs ihh =>
    intro c st hsync hw hval hn hb
    obtain ⟨line, c1, st1, hcomp1, hdec1, hsync1, hw1, ha1, hbase1, hg1⟩ :=
      compress_frame_in_session f c st hsync hw (hval f (by simp)) (by
        rw [sessionCalls_cons] at hb; omega) (hn f (by simp))
    obtain ⟨lines2, c2, st2, hcomp2, hdec2, hsync2, hw2, ha2, hg2⟩ :=
      ihh c1 st1 hsync1 hw1 (fun x hx => hval x (by simp [hx]))
        (fun x hx => hn x (by simp [hx]))
        (by rw [sessionCalls_cons] at hb; omega)
    refine ⟨line :: lines2, c2, st2, ?_, ?_, hsync2, hw2, by rw [ha2, ha1], ?_⟩
    · simp only [compress_all, hcomp1, hcomp2]
      rfl
    · simp only [decode_lines, hdec1, hdec2, List.map_cons, ha1]
      rfl
    · rw [sessionCalls_cons]
      omega

instance (s : Bytes) : Decidable (strOk s) := by unfold strOk; infer_instance

instance (s : Option Bytes) : Decidable (sideOk s) := by unfold sideOk; infer_instance

instance (l : InLevel) : Decidable (levelOk l) := by unfold levelOk; infer_instance

instance (ch : InChange) : Decidable (changeOk ch) := by unfold changeOk; infer_instance

instance payloadOkDec : (pl : InPayload) → Decidable (payloadOk pl)
  | .book _ _ _ _ => by unfold payloadOk; infer_instance
  | .price_change _ => by unfold payloadOk; infer_instance
  | .tick_size_change _ _ => by unfold payloadOk; infer_instance
  | .last_trade_price _ _ _ _ => by unfold payloadOk; infer_instance
  | .other _ => by unfold payloadOk; infer_instance

instance (ev : InEvent) : Decidable (validEvent ev) := by unfold validEvent; infer_instance

/-- C1: Session round-trip: for every sequence of frames of syntactically
valid events (known `event_type`, per-type required fields, numeric
timestamps; sizes within the varint budget), compressing each frame and
feeding every produced line, in order, to a fresh decompressor yields
exactly one event array per frame (headers yield zero outputs), equal to
the input events modulo normalisation — `market`/`hash` stripped, side
uppercased to `BUY`/`SELL`, `buys`/`sells` renamed, `asset_id` stamped
from the constructor, timestamp the decimal string of the event's
timestamp. -/
theorem c1_session_roundtrip (aid : Bytes) (frames : List (List InEvent))
    (haid : bytesOk aid) (halen : aid.length < 2 ^ 77)
    (hval : ∀ f ∈ frames, ∀ ev ∈ f, validEvent ev)
    (hn : ∀ f ∈ frames, f.length < 2 ^ 77)
    (hcalls : sessionCalls frames ≤ 2 ^ 76) :
    ∃ lines c' st',
      compress_all (.init aid) frames = .ok (lines, c') ∧
      decode_lines V3State.init lines =
        .ok (frames.map (fun f => V3Out.frame (f.map (normEvent aid))), st') := by
  cases frames with
  | nil => exact ⟨[], _, _, rfl, rfl⟩
  | cons f fs =>
    obtain ⟨hline, fline, c1, st1, st1', hcomp1, hdech, hdecf, hsync1, hw1, ha1, hg1⟩ :=
      compress_first_frame aid f V3State.init haid halen (hval f (by simp))
        (by rw [sessionCalls_cons] at hcalls; omega) (hn f (by simp))
    obtain ⟨lines2, c2, st2, hcomp2, hdec2, hsync2, hw2, ha2, hg2⟩ :=
      session_roundtrip_tail fs c1 st1' hsync1 hw1 (fun x hx => hval x (by simp [hx]))
        (fun x hx => hn x (by simp [hx]))
        (by rw [sessionCalls_cons] at hcalls; omega)
    refine ⟨hline :: fline :: lines2, c2, st2, ?_, ?_⟩
    · simp only [compress_all, hcomp1, hcomp2]
      rfl
    · simp only [decode_lines, hdech, hdecf, hdec2, List.map_cons, ha1]
      rfl

/-! ## Concrete scenario data (spec §8, scenarios 1 and 2) -/

/-- Scenario 1: the book snapshot event (timestamp 1000, one bid
`0.5 × 10`, one ask `0.6 × 5`, with `market`/`hash` present). -/
def ev_book : InEvent :=
  { payload := .book (some [⟨some (bytesOf "0.5"), some (bytesOf "10")⟩]) none
      (some [⟨some (bytesOf "0.6"), some (bytesOf "5")⟩]) none,
    timestamp := some (bytesOf "1000"),
    market := some (bytesOf "m"), hash := some (bytesOf "h") }

/-- Scenario 2: the price change event (timestamp 1050, one `sell` at the
already-interned price `0.5`, size `0`). -/
def ev_pc : InEvent :=
  { payload := .price_change (some [⟨some (bytesOf "sell"), some (bytesOf "0.5"),
      some (bytesOf "0")⟩]),
    timestamp := some (bytesOf "1050"), market := none, hash := none }

theorem c1_session_roundtrip_witness :
    ∃ lines c' st',
      compress_all (.init (bytesOf "A")) [[ev_book], [ev_pc]] = .ok (lines, c') ∧
      decode_lines V3State.init lines =
        .ok ([[ev_book], [ev_pc]].map
          (fun f => V3Out.frame (f.map (normEvent (bytesOf "A")))), st') :=
  c1_session_roundtrip (bytesOf "A") [[ev_book], [ev_pc]] (by decide) (by decide)
    (by decide) (by decide) (by decide)

/-- C8: Concrete delta-and-reference scenario.  After compressing the
scenario-1 book frame (timestamp 1000, levels `0.5 × 10` and `0.6 × 5`),
compressing the scenario-2 price-change frame produces one frame line
whose record bytes are exactly `[0x46, 1, 1, 50, 1, 1, 2, 3, 0x30]`:
`F`, event count 1, type byte `1` (`price_change`, `TS_ABS` bit 5 clear),
timestamp varint `50` (the delta `1050 - 1000`), one change, side byte
`1` (`SELL`), price token `2 = (1 << 1) | 0` — a pool reference to ID 1,
the `"0.5"` interned by scenario 1 — and the size `"0"` as the literal
`3, 0x30`.  Decoding the three lines yields the price-change event with
side `"SELL"` and timestamp `"1050"`. -/
theorem c8_delta_and_reference :
    ∃ h1 l1 c1 l2 c2 st3,
      compress (.init (bytesOf "A")) (.jsonList [ev_book]) = .ok ([h1, l1], c1) ∧
      compress c1 (.jsonList [ev_pc]) = .ok ([l2], c2) ∧
      poolIdx c1.pool.i2s (bytesOf "0.5") = some 1 ∧
      inflate_raw_b64 l2 = .ok [0x46, 1, 1, 50, 1, 1, 2, 3, 0x30] ∧
      decode_lines V3State.init [h1, l1, l2] = .ok ([
        V3Out.frame [⟨bytesOf "book", bytesOf "A", bytesOf "1000",
          .book [⟨bytesOf "0.5", bytesOf "10"⟩] [⟨bytesOf "0.6", bytesOf "5"⟩]⟩],
        V3Out.frame [⟨bytesOf "price_change", bytesOf "A", bytesOf "1050",
          .price_change [⟨bytesOf "SELL", bytesOf "0.5", bytesOf "0"⟩]⟩]], st3) := by
  refine ⟨[65, 81, 103, 65, 57, 95, 57, 73, 65, 119, 72, 111, 66, 119, 69, 66, 81, 81, 61, 61],
    [65, 82, 77, 65, 55, 80, 57, 71, 65, 81, 65, 65, 65, 81, 99, 119, 76, 106, 85, 70, 77, 84,
      65, 66, 66, 122, 65, 117, 78, 103, 77, 49],
    ⟨bytesOf "A", ⟨[bytesOf "0.5", bytesOf "10", bytesOf "0.6", bytesOf "5"]⟩,
      some 1000, some 1000, true⟩,
    [65, 81, 107, 65, 57, 118, 57, 71, 65, 81, 69, 121, 65, 81, 69, 67, 65, 122, 65, 61],
    ⟨bytesOf "A", ⟨[bytesOf "0.5", bytesOf "10", bytesOf "0.6", bytesOf "5", bytesOf "0"]⟩,
      some 1000, some 1050, true⟩,
    ⟨⟨[bytesOf "0.5", bytesOf "10", bytesOf "0.6", bytesOf "5", bytesOf "0"]⟩,
      1000, some 1050, [bytesOf "A"], 1, true⟩,
    ?_, ?_, ?_, ?_, ?_⟩ <;> rfl

/-- Decoding the `X` line written through pool `p` from a state holding the
same pool: exactly one raw output carrying the pooled text. -/
theorem raw_line_roundtrip (p : StringPool) (s : Bytes) (st : V3State)
    (hs : strOk s) (hp : p.i2s.length < 2 ^ 76) (hpool : st.pool = p) :
    try_decode_v3_line (deflate_raw_b64 ([0x58] ++ (p.encode s).1)) st =
      .ok (some [.raw s], { st with pool := (p.encode s).2 }) := by
  have hrecOk : bytesOk ([0x58] ++ (p.encode s).1) := by
    intro b hb
    rcases List.mem_append.mp hb with hb | hb
    · simp only [List.mem_singleton] at hb
      omega
    · exact pool_encode_bytesOk _ _ hs.1 b hb
  unfold try_decode_v3_line
  rw [transport_roundtrip _ hrecOk]
  simp only [List.singleton_append]
  rw [if_neg (by norm_num), if_neg (by norm_num), if_pos trivial]
  unfold decode_raw
  rw [hpool]
  have hrt := pool_roundtrip p s [] hp hs.2
  rw [List.append_nil] at hrt
  rw [hrt]

/-- C9: Heartbeat raw path.  For every text `s` (well-formed bytes within
the varint budget) handed to `compress` as a non-JSON input: if no header
was written yet, the output is the header line (version 3, flags 1,
`base_ts = 0`, the single asset id) followed by the `X` record whose
payload is `s` written through the fresh string pool; if the header was
already written, the output is the single `X` record with `s` written
through the current pool.  In both cases, feeding the produced lines to
the decoder (holding the compressor's pool) emits exactly one output, the
raw text `s` (rendered by the reinflater as the JSON string
`jsonStringLit s`). -/
theorem c9_heartbeat_raw (c : FrameCompressorV3) (st : V3State) (s : Bytes)
    (hs : strOk s) (haid : bytesOk c.asset_id) (halen : c.asset_id.length < 2 ^ 77)
    (hpool : st.pool = c.pool) (hplen : c.pool.i2s.length < 2 ^ 76) :
    (c.wrote_header = false →
      ∃ st', compress c (.text s) = .ok (
          [deflate_raw_b64 ([0x48] ++ uvarint_encode 3 ++ uvarint_encode 1 ++
             uvarint_encode 0 ++ uvarint_encode 1 ++
             uvarint_encode c.asset_id.length ++ c.asset_id),
           deflate_raw_b64 ([0x58] ++ (StringPool.empty.encode s).1)],
          { c with
            pool := (StringPool.empty.encode s).2, base_ts := some 0,
            prev_ts := some 0, wrote_header := true }) ∧
        decode_lines st
          [deflate_raw_b64 ([0x48] ++ uvarint_encode 3 ++ uvarint_encode 1 ++
             uvarint_encode 0 ++ uvarint_encode 1 ++
             uvarint_encode c.asset_id.length ++ c.asset_id),
           deflate_raw_b64 ([0x58] ++ (StringPool.empty.encode s).1)] =
          .ok ([.raw s], st')) ∧
    (c.wrote_header = true →
      ∃ st', compress c (.text s) = .ok (
          [deflate_raw_b64 ([0x58] ++ (c.pool.encode s).1)],
          { c with pool := (c.pool.encode s).2 }) ∧
        decode_lines st [deflate_raw_b64 ([0x58] ++ (c.pool.encode s).1)] =
          .ok ([.raw s], st')) := by
  constructor
  · intro hw
    have hhdr : ensure_header c none = .ok (
        some (deflate_raw_b64 ([0x48] ++ uvarint_encode 3 ++ uvarint_encode 1 ++
          uvarint_encode 0 ++ uvarint_encode 1 ++
          uvarint_encode c.asset_id.length ++ c.asset_id)),
        { c with base_ts := some 0, prev_ts := some 0, wrote_header := true,
                 pool := .empty }) := by
      unfold ensure_header uvarint_encode_checked
      rw [hw]
      norm_num
    refine ⟨⟨(StringPool.empty.encode s).2, 0, some 0, [c.asset_id], 1, true⟩, ?_, ?_⟩
    · show compress_raw c s = _
      unfold compress_raw
      simp only [hhdr]
    · have hdr := header_line_roundtrip c.asset_id 0 st haid halen (by norm_num)
      have hxr := raw_line_roundtrip .empty s ⟨.empty, 0, some 0, [c.asset_id], 1, true⟩
        hs (by decide) rfl
      simp only [decode_lines, hdr, hxr]
      rfl
  · intro hw
    have hhdr : ensure_header c none = .ok (none, c) := by
      unfold ensure_header
      rw [hw, if_pos rfl]
    refine ⟨{ st with pool := (c.pool.encode s).2 }, ?_, ?_⟩
    · show compress_raw c s = _
      unfold compress_raw
      simp only [hhdr]
    · have hxr := raw_line_roundtrip c.pool s st hs hplen hpool
      simp only [decode_lines, hxr]
      rfl

theorem c9_heartbeat_raw_witness :
    ∃ st', compress (.init (bytesOf "A")) (.text (bytesOf "PONG")) = .ok (
        [deflate_raw_b64 ([0x48] ++ uvarint_encode 3 ++ uvarint_encode 1 ++
           uvarint_encode 0 ++ uvarint_encode 1 ++
           uvarint_encode (bytesOf "A").length ++ bytesOf "A"),
         deflate_raw_b64 ([0x58] ++ (StringPool.empty.encode (bytesOf "PONG")).1)],
        ⟨bytesOf "A", (StringPool.empty.encode (bytesOf "PONG")).2, some 0, some 0, true⟩) ∧
      decode_lines V3State.init
        [deflate_raw_b64 ([0x48] ++ uvarint_encode 3 ++ uvarint_encode 1 ++
           uvarint_encode 0 ++ uvarint_encode 1 ++
           uvarint_encode (bytesOf "A").length ++ bytesOf "A"),
         deflate_raw_b64 ([0x58] ++ (StringPool.empty.encode (bytesOf "PONG")).1)] =
        .ok ([.raw (bytesOf "PONG")], st') :=
  (c9_heartbeat_raw (.init (bytesOf "A")) V3State.init (bytesOf "PONG")
    (by decide) (by decide) (by decide) rfl (by decide)).1 rfl

/-- Every successful `_decode_event` payload stamps the event with the
given type name, the head of the state's asset ids (`b""` when empty), the
decimal timestamp it was passed, and touches only the pool. -/
theorem decode_event_payload_fields (et_code tb : Nat) (et buf : Bytes) (st : V3State)
    (ts : Nat) (ev : DEvent) (rest : Bytes) (st1 : V3State)
    (h : decode_event_payload et_code tb et buf st ts = .ok (ev, rest, st1)) :
    ev.event_type = et ∧ ev.asset_id = st.asset_ids.headD [] ∧ ev.timestamp = decStr ts ∧
      st1.asset_ids = st.asset_ids ∧ st1.prev_ts = st.prev_ts ∧
      st1.base_ts = st.base_ts ∧ st1.flags = st.flags ∧ st1.have_header = st.have_header := by
  unfold decode_event_payload at h
  repeat' split at h
  all_goals
    first
      | exact Except.noConfusion h
      | (simp only [Except.ok.injEq, Prod.mk.injEq] at h
         obtain ⟨h1, h2, h3⟩ := h
         subst h1
         subst h2
         subst h3
         simp)

/-- The defining recurrence of `_decode_event` at a non-empty buffer. -/
theorem decode_event_cons (tb : Nat) (buf0 : Bytes) (st : V3State) :
    decode_event (tb :: buf0) st =
      match etName (tb % 8) with
      | none => .error ("Unknown event type code: " ++ toString (tb % 8))
      | some et =>
        match uvarint_decode buf0 with
        | .error e => .error e
        | .ok (tsv, c) =>
          decode_event_payload (tb % 8) tb et (buf0.drop c)
            { st with prev_ts := some (if tb / 32 % 2 = 1 ∨ st.prev_ts = none then tsv
                else st.prev_ts.getD 0 + tsv) }
            (if tb / 32 % 2 = 1 ∨ st.prev_ts = none then tsv
              else st.prev_ts.getD 0 + tsv) := rfl

/-- Every successful `_decode_event` stamps the asset id from the state and
leaves everything but the pool and `prev_ts` unchanged. -/
theorem decode_event_fields (buf : Bytes) (st : V3State) (ev : DEvent) (rest : Bytes)
    (st1 : V3State) (h : decode_event buf st = .ok (ev, rest, st1)) :
    ev.asset_id = st.asset_ids.headD [] ∧ st1.asset_ids = st.asset_ids ∧
      st1.base_ts = st.base_ts ∧ st1.flags = st.flags ∧ st1.have_header = st.have_header := by
  cases buf with
  | nil => exact absurd h (by simp [decode_event])
  | cons tb buf0 =>
    rw [decode_event_cons] at h
    cases het : etName (tb % 8) with
    | none => rw [het] at h; exact absurd h (by simp)
    | some et =>
      rw [het] at h
      cases htsv : uvarint_decode buf0 with
      | error e => rw [htsv] at h; exact absurd h (by simp)
      | ok vc =>
        obtain ⟨tsv, c⟩ := vc
        rw [htsv] at h
        have hp := decode_event_payload_fields _ _ _ _ _ _ _ _ _ h
        exact ⟨hp.2.1, hp.2.2.2.1, hp.2.2.2.2.2.1, hp.2.2.2.2.2.2.1, hp.2.2.2.2.2.2.2⟩

/-- On a state with `prev_ts` unset, `_decode_event` takes the timestamp
varint as the absolute timestamp, regardless of the `TS_ABS` bit of the
type byte. -/
theorem decode_event_fresh_ts (buf : Bytes) (st : V3State) (ev : DEvent) (rest : Bytes)
    (st1 : V3State) (hprev : st.prev_ts = none)
    (h : decode_event buf st = .ok (ev, rest, st1)) :
    ∃ tb buf0 tsv c, buf = tb :: buf0 ∧ uvarint_decode buf0 = .ok (tsv, c) ∧
      ev.timestamp = decStr tsv ∧ st1.prev_ts = some tsv := by
  cases buf with
  | nil => exact absurd h (by simp [decode_event])
  | cons tb buf0 =>
    rw [decode_event_cons] at h
    cases het : etName (tb % 8) with
    | none => rw [het] at h; exact absurd h (by simp)
    | some et =>
      rw [het] at h
      cases htsv : uvarint_decode buf0 with
      | error e => rw [htsv] at h; exact absurd h (by simp)
      | ok vc =>
        obtain ⟨tsv, c⟩ := vc
        rw [htsv] at h
        rw [hprev] at h
        simp only [eq_self_iff_true, or_true, if_true] at h
        have hp := decode_event_payload_fields _ _ _ _ _ _ _ _ _ h
        exact ⟨tb, buf0, tsv, c, rfl, htsv, hp.2.2.1, hp.2.2.2.2.1⟩

/-- The event loop stamps every event with the state's (possibly absent)
first asset id and never alters the asset id list. -/
theorem decode_events_loop_fields (n : Nat) :
    ∀ (buf : Bytes) (st : V3State) (evs : List DEvent) (rest : Bytes) (st1 : V3State),
      decode_events_loop n buf st = .ok (evs, rest, st1) →
      (∀ ev ∈ evs, ev.asset_id = st.asset_ids.headD []) ∧ st1.asset_ids = st.asset_ids := by
  induction n with
  | zero =>
    intro buf st evs rest st1 h
    simp only [decode_events_loop, Except.ok.injEq, Prod.mk.injEq] at h
    obtain ⟨h1, h2, h3⟩ := h
    subst h1
    subst h3
    exact ⟨by intro ev hev; simp at hev, rfl⟩
  | succ n ih =>
    intro buf st evs rest st1 h
    simp only [decode_events_loop] at h
    cases hde : decode_event buf st with
    | error e => simp only [hde] at h; exact absurd h (by simp)
    | ok r1 =>
      obtain ⟨ev1, buf1, stm⟩ := r1
      simp only [hde] at h
      cases hloop : decode_events_loop n buf1 stm with
      | error e => simp only [hloop] at h; exact absurd h (by simp)
      | ok r2 =>
        obtain ⟨evs2, buf2, st2⟩ := r2
        simp only [hloop] at h
        simp only [Except.ok.injEq, Prod.mk.injEq] at h
        obtain ⟨h1, h2, h3⟩ := h
        subst h1
        subst h2
        subst h3
        have hf := decode_event_fields _ _ _ _ _ hde
        have hl := ih _ _ _ _ _ hloop
        refine ⟨?_, by rw [hl.2, hf.2.1]⟩
        intro ev hev
        rcases List.mem_cons.mp hev with rfl | hev
        · exact hf.1
        · rw [hl.1 ev hev, hf.2.1]

/-- C10: Headerless frame decode.  A well-formed `F` line presented to a
fresh decoder state (no header seen: `have_header = false`, empty
`asset_ids`, `prev_ts` unset) does not fail: whenever
`_try_decode_v3_line` succeeds with a frame output on `_V3State.init`,
every decoded event's `asset_id` is the empty string (the head of the
empty asset list), and the first event's timestamp is the raw value of its
timestamp varint, taken as absolute because `prev_ts` is unset — whatever
the `TS_ABS` bit of its type byte says. -/
theorem c10_headerless_frame (tok : Bytes) (evs : List DEvent) (st' : V3State)
    (h : try_decode_v3_line tok V3State.init = .ok (some [.frame evs], st')) :
    (∀ ev ∈ evs, ev.asset_id = []) ∧
    (∀ ev1 tl, evs = ev1 :: tl →
      ∃ body cnt c0 tsv c, inflate_raw_b64 tok = .ok (0x46 :: body) ∧
        uvarint_decode body = .ok (cnt, c0) ∧
        uvarint_decode ((body.drop c0).drop 1) = .ok (tsv, c) ∧
        ev1.timestamp = decStr tsv) := by
  unfold try_decode_v3_line at h
  cases hinf : inflate_raw_b64 tok with
  | error e => rw [hinf] at h; exact absurd h (by simp)
  | ok buf =>
    cases buf with
    | nil => rw [hinf] at h; exact absurd h (by simp)
    | cons kind body =>
      simp only [hinf] at h
      by_cases k48 : kind = 0x48
      · rw [if_pos k48] at h
        cases hdh : decode_header body V3State.init with
        | error e => simp only [hdh] at h; exact absurd h (by simp)
        | ok st1 => simp only [hdh] at h; exact absurd h (by simp)
      · rw [if_neg k48] at h
        by_cases k46 : kind = 0x46
        · rw [if_pos k46] at h
          cases hdf : decode_frame body V3State.init with
          | error e => simp only [hdf] at h; exact absurd h (by simp)
          | ok r =>
            obtain ⟨evs0, rest0, st1⟩ := r
            simp only [hdf] at h
            simp only [Except.ok.injEq, Prod.mk.injEq, Option.some.injEq,
              List.cons.injEq, and_true, V3Out.frame.injEq] at h
            obtain ⟨hevs, hst⟩ := h
            subst hevs
            subst hst
            unfold decode_frame at hdf
            cases hcnt : uvarint_decode body with
            | error e => simp only [hcnt] at hdf; exact absurd hdf (by simp)
            | ok cc =>
              obtain ⟨cnt, c0⟩ := cc
              simp only [hcnt] at hdf
              have hFields := decode_events_loop_fields cnt _ _ _ _ _ hdf
              refine ⟨fun ev hev => hFields.1 ev hev, ?_⟩
              intro ev1 tl hcons
              subst hcons
              cases cnt with
              | zero =>
                simp only [decode_events_loop, Except.ok.injEq, Prod.mk.injEq] at hdf
                exact absurd hdf.1 (by simp)
              | succ n =>
                simp only [decode_events_loop] at hdf
                cases hde : decode_event (body.drop c0) V3State.init with
                | error e => simp only [hde] at hdf; exact absurd hdf (by simp)
                | ok r1 =>
                  obtain ⟨ev1', buf1, stm⟩ := r1
                  simp only [hde] at hdf
                  cases hloop : decode_events_loop n buf1 stm with
                  | error e => simp only [hloop] at hdf; exact absurd hdf (by simp)
                  | ok r2 =>
                    obtain ⟨evs2, buf2, st2⟩ := r2
                    simp only [hloop] at hdf
                    simp only [Except.ok.injEq, Prod.mk.injEq, List.cons.injEq] at hdf
                    obtain ⟨⟨hev1, -⟩, -, -⟩ := hdf
                    obtain ⟨tb, buf0, tsv, c, heq, htsv, hts, -⟩ :=
                      decode_event_fresh_ts _ _ _ _ _ rfl hde
                    refine ⟨body, n + 1, c0, tsv, c, by rw [k46], hcnt, ?_, ?_⟩
                    · rw [heq]
                      exact htsv
                    · rw [← hev1]
                      exact hts
        · rw [if_neg k46] at h
          by_cases k58 : kind = 0x58
          · rw [if_pos k58] at h
            cases hdr : decode_raw body V3State.init with
            | error e => simp only [hdr] at h; exact absurd h (by simp)
            | ok r =>
              obtain ⟨s, rest0, st1⟩ := r
              simp only [hdr] at h
              exact absurd h (by simp)
          · rw [if_neg k58] at h
            exact absurd h (by simp)

theorem c10_headerless_frame_witness :
    (try_decode_v3_line [65, 82, 77, 65, 55, 80, 57, 71, 65, 81, 65, 65, 65, 81, 99, 119,
        76, 106, 85, 70, 77, 84, 65, 66, 66, 122, 65, 117, 78, 103, 77, 49] V3State.init =
      .ok (some [.frame [⟨bytesOf "book", [], bytesOf "0",
          .book [⟨bytesOf "0.5", bytesOf "10"⟩] [⟨bytesOf "0.6", bytesOf "5"⟩]⟩]],
        ⟨⟨[bytesOf "0.5", bytesOf "10", bytesOf "0.6", bytesOf "5"]⟩,
          0, some 0, [], 0, false⟩)) ∧
    ((∀ ev ∈ [(⟨bytesOf "book", [], bytesOf "0",
        .book [⟨bytesOf "0.5", bytesOf "10"⟩] [⟨bytesOf "0.6", bytesOf "5"⟩]⟩ : DEvent)],
       ev.asset_id = []) ∧
     (∀ ev1 tl, [(⟨bytesOf "book", [], bytesOf "0",
          .book [⟨bytesOf "0.5", bytesOf "10"⟩] [⟨bytesOf "0.6", bytesOf "5"⟩]⟩ : DEvent)] =
            ev1 :: tl →
        ∃ body cnt c0 tsv c,
          inflate_raw_b64 [65, 82, 77, 65, 55, 80, 57, 71, 65, 81, 65, 65, 65, 81, 99, 119,
            76, 106, 85, 70, 77, 84, 65, 66, 66, 122, 65, 117, 78, 103, 77, 49] =
              .ok (0x46 :: body) ∧
          uvarint_decode body = .ok (cnt, c0) ∧
          uvarint_decode ((body.drop c0).drop 1) = .ok (tsv, c) ∧
          ev1.timestamp = decStr tsv)) :=
  ⟨rfl, c10_headerless_frame _ _ _ rfl⟩

/-- `_encode_event` never touches `wrote_header` or the asset id. -/
theorem encode_event_wrote (c : FrameCompressorV3) (ev : InEvent) (b : Bytes)
    (c1 : FrameCompressorV3) (h : encode_event c ev = .ok (b, c1)) :
    c1.wrote_header = c.wrote_header ∧ c1.asset_id = c.asset_id := by
  unfold encode_event at h
  cases hec : etCode ev.payload with
  | none => simp only [hec] at h; exact absurd h (by simp)
  | some et_code =>
    simp only [hec] at h
    cases hpt : c.prev_ts with
    | none =>
      cases hgt : get_ts ev with
      | none =>
        simp only [hpt, hgt] at h
        repeat' split at h
        all_goals
          first
            | exact Except.noConfusion h
            | (simp only [Except.ok.injEq, Prod.mk.injEq] at h
               obtain ⟨h1, h2⟩ := h
               subst h2
               exact ⟨rfl, rfl⟩)
      | some t =>
        simp only [hpt, hgt] at h
        repeat' split at h
        all_goals
          first
            | exact Except.noConfusion h
            | (simp only [Except.ok.injEq, Prod.mk.injEq] at h
               obtain ⟨h1, h2⟩ := h
               subst h2
               exact ⟨rfl, rfl⟩)
    | some p =>
      cases hgt : get_ts ev with
      | none =>
        simp only [hpt, hgt] at h
        repeat' split at h
        all_goals
          first
            | exact Except.noConfusion h
            | (simp only [Except.ok.injEq, Prod.mk.injEq] at h
               obtain ⟨h1, h2⟩ := h
               subst h2
               exact ⟨rfl, rfl⟩)
      | some t =>
        simp only [hpt, hgt] at h
        by_cases hge : t ≥ p
        · simp only [if_pos hge] at h
          repeat' split at h
          all_goals
            first
              | exact Except.noConfusion h
              | (simp only [Except.ok.injEq, Prod.mk.injEq] at h
                 obtain ⟨h1, h2⟩ := h
                 subst h2
                 exact ⟨rfl, rfl⟩)
        · simp only [if_neg hge] at h
          repeat' split at h
          all_goals
            first
              | exact Except.noConfusion h
              | (simp only [Except.ok.injEq, Prod.mk.injEq] at h
                 obtain ⟨h1, h2⟩ := h
                 subst h2
                 exact ⟨rfl, rfl⟩)

/-- The event loop of `_encode_frame_events` never touches `wrote_header`
or the asset id. -/
theorem encode_events_fold_wrote (evs : List InEvent) :
    ∀ (c : FrameCompressorV3) (bs : Bytes) (c1 : FrameCompressorV3),
      encode_events_fold c evs = .ok (bs, c1) →
      c1.wrote_header = c.wrote_header ∧ c1.asset_id = c.asset_id := by
  induction evs with
  | nil =>
    intro c bs c1 h
    simp only [encode_events_fold, Except.ok.injEq, Prod.mk.injEq] at h
    obtain ⟨h1, h2⟩ := h
    subst h2
    exact ⟨rfl, rfl⟩
  | cons ev evs ih =>
    intro c bs c1 h
    simp only [encode_events_fold] at h
    cases he : encode_event c ev with
    | error e => simp only [he] at h; exact absurd h (by simp)
    | ok r =>
      obtain ⟨b1, cm⟩ := r
      simp only [he] at h
      cases hf : encode_events_fold cm evs with
      | error e => simp only [hf] at h; exact absurd h (by simp)
      | ok r2 =>
        obtain ⟨bs2, c2⟩ := r2
        simp only [hf] at h
        simp only [Except.ok.injEq, Prod.mk.injEq] at h
        obtain ⟨h1, h2⟩ := h
        subst h2
        have ha := encode_event_wrote c ev b1 cm he
        have hb := ih cm bs2 c2 hf
        exact ⟨by rw [hb.1, ha.1], by rw [hb.2, ha.2]⟩

/-- An `F` record starts with the byte `F` and preserves `wrote_header`
and the asset id. -/
theorem encode_frame_events_wrote (c : FrameCompressorV3) (evs : List InEvent)
    (rcd : Bytes) (c1 : FrameCompressorV3) (h : encode_frame_events c evs = .ok (rcd, c1)) :
    c1.wrote_header = c.wrote_header ∧ c1.asset_id = c.asset_id ∧ rcd.head? = some 0x46 := by
  unfold encode_frame_events at h
  cases hf : encode_events_fold c evs with
  | error e => simp only [hf] at h; exact absurd h (by simp)
  | ok r =>
    obtain ⟨bs, cm⟩ := r
    simp only [hf] at h
    simp only [Except.ok.injEq, Prod.mk.injEq] at h
    obtain ⟨h1, h2⟩ := h
    subst h1
    subst h2
    have := encode_events_fold_wrote evs c bs cm hf
    exact ⟨this.1, this.2, rfl⟩

/-- `_ensure_header` always leaves `wrote_header` set; it emits a record
(starting with `H`) exactly when `wrote_header` was clear, and is the
identity otherwise. -/
theorem ensure_header_wrote (c : FrameCompressorV3) (ft : Option Int) (hdr : Option Bytes)
    (c1 : FrameCompressorV3) (h : ensure_header c ft = .ok (hdr, c1)) :
    c1.wrote_header = true ∧ c1.asset_id = c.asset_id ∧
      (c.wrote_header = true → hdr = none ∧ c1 = c) ∧
      (c.wrote_header = false →
        ∃ hrec, hdr = some (deflate_raw_b64 hrec) ∧ hrec.head? = some 0x48) := by
  unfold ensure_header at h
  by_cases hw : c.wrote_header
  · rw [if_pos hw] at h
    simp only [Except.ok.injEq, Prod.mk.injEq] at h
    obtain ⟨h1, h2⟩ := h
    subst h1
    subst h2
    exact ⟨hw, rfl, fun _ => ⟨rfl, rfl⟩, fun hf => absurd hw (by simp [hf])⟩
  · rw [if_neg hw] at h
    cases hb : uvarint_encode_checked (ft.getD 0) with
    | error e => simp only [hb] at h; exact absurd h (by simp)
    | ok baseb =>
      simp only [hb] at h
      simp only [Except.ok.injEq, Prod.mk.injEq] at h
      obtain ⟨h1, h2⟩ := h
      subst h1
      subst h2
      exact ⟨rfl, rfl, fun ht => absurd ht hw, fun _ => ⟨_, rfl, rfl⟩⟩

/-- The raw path of `compress`: a single `X` line once the header exists,
a header line followed by the `X` line on the first call. -/
theorem compress_raw_wrote (c : FrameCompressorV3) (s : Bytes) (lines : List Bytes)
    (c' : FrameCompressorV3) (h : compress_raw c s = .ok (lines, c')) :
    c'.wrote_header = true ∧ c'.asset_id = c.asset_id ∧
      (c.wrote_header = true → ∃ rcd, lines = [deflate_raw_b64 rcd] ∧
        (rcd.head? = some 0x46 ∨ rcd.head? = some 0x58)) ∧
      (c.wrote_header = false → ∃ hrec rcd,
        lines = [deflate_raw_b64 hrec, deflate_raw_b64 rcd] ∧ hrec.head? = some 0x48 ∧
        (rcd.head? = some 0x46 ∨ rcd.head? = some 0x58)) := by
  unfold compress_raw at h
  cases hh : ensure_header c none with
  | error e => simp only [hh] at h; exact absurd h (by simp)
  | ok r =>
    obtain ⟨hdr, c1⟩ := r
    have he := ensure_header_wrote c none hdr c1 hh
    cases hdr with
    | some hl =>
      simp only [hh] at h
      simp only [Except.ok.injEq, Prod.mk.injEq] at h
      obtain ⟨h1, h2⟩ := h
      subst h1
      subst h2
      refine ⟨he.1, he.2.1, ?_, ?_⟩
      · intro hw
        obtain ⟨hn, -⟩ := he.2.2.1 hw
        exact absurd hn (by simp)
      · intro hf
        obtain ⟨hrec, hsome, hhead⟩ := he.2.2.2 hf
        simp only [Option.some.injEq] at hsome
        exact ⟨hrec, [0x58] ++ (c1.pool.encode s).1, by rw [hsome], hhead, Or.inr (by simp)⟩
    | none =>
      simp only [hh] at h
      simp only [Except.ok.injEq, Prod.mk.injEq] at h
      obtain ⟨h1, h2⟩ := h
      subst h1
      subst h2
      refine ⟨he.1, he.2.1, ?_, ?_⟩
      · intro _
        exact ⟨[0x58] ++ (c1.pool.encode s).1, rfl, Or.inr (by simp)⟩
      · intro hf
        obtain ⟨hrec, hsome, -⟩ := he.2.2.2 hf
        exact absurd hsome (by simp)

/-- The event path of `compress`: a single `F` line once the header
exists, a header line followed by the `F` line on the first call. -/
theorem compress_events_wrote (c : FrameCompressorV3) (evs : List InEvent)
    (lines : List Bytes) (c' : FrameCompressorV3)
    (h : compress_events c evs = .ok (lines, c')) :
    c'.wrote_header = true ∧ c'.asset_id = c.asset_id ∧
      (c.wrote_header = true → ∃ rcd, lines = [deflate_raw_b64 rcd] ∧
        (rcd.head? = some 0x46 ∨ rcd.head? = some 0x58)) ∧
      (c.wrote_header = false → ∃ hrec rcd,
        lines = [deflate_raw_b64 hrec, deflate_raw_b64 rcd] ∧ hrec.head? = some 0x48 ∧
        (rcd.head? = some 0x46 ∨ rcd.head? = some 0x58)) := by
  unfold compress_events at h
  cases hh : ensure_header c (first_numeric_ts evs) with
  | error e => simp only [hh] at h; exact absurd h (by simp)
  | ok r =>
    obtain ⟨hdr, c1⟩ := r
    have he := ensure_header_wrote c (first_numeric_ts evs) hdr c1 hh
    simp only [hh] at h
    cases hf : encode_frame_events c1 (evs.map stripMarketHash) with
    | error e => simp only [hf] at h; exact absurd h (by simp)
    | ok r2 =>
      obtain ⟨rcd, c2⟩ := r2
      have hr := encode_frame_events_wrote c1 (evs.map stripMarketHash) rcd c2 hf
      simp only [hf] at h
      cases hdr with
      | some hl =>
        simp only [Except.ok.injEq, Prod.mk.injEq] at h
        obtain ⟨h1, h2⟩ := h
        subst h1
        subst h2
        refine ⟨by rw [hr.1, he.1], by rw [hr.2.1, he.2.1], ?_, ?_⟩
        · intro hw
          obtain ⟨hn, -⟩ := he.2.2.1 hw
          exact absurd hn (by simp)
        · intro hfr
          obtain ⟨hrec, hsome, hhead⟩ := he.2.2.2 hfr
          simp only [Option.some.injEq] at hsome
          exact ⟨hrec, rcd, by rw [hsome], hhead, Or.inl hr.2.2⟩
      | none =>
        simp only [Except.ok.injEq, Prod.mk.injEq] at h
        obtain ⟨h1, h2⟩ := h
        subst h1
        subst h2
        refine ⟨by rw [hr.1, he.1], by rw [hr.2.1, he.2.1], ?_, ?_⟩
        · intro _
          exact ⟨rcd, rfl, Or.inl hr.2.2⟩
        · intro hfr
          obtain ⟨hrec, hsome, -⟩ := he.2.2.2 hfr
          exact absurd hsome (by simp)

/-- One `compress` call: the result state always has `wrote_header`, and
the emitted lines are a header pair exactly when the header was missing. -/
theorem compress_wrote (c : FrameCompressorV3) (f : RawFrame) (lines : List Bytes)
    (c' : FrameCompressorV3) (h : compress c f = .ok (lines, c')) :
    c'.wrote_header = true ∧ c'.asset_id = c.asset_id ∧
      (c.wrote_header = true → ∃ rcd, lines = [deflate_raw_b64 rcd] ∧
        (rcd.head? = some 0x46 ∨ rcd.head? = some 0x58)) ∧
      (c.wrote_header = false → ∃ hrec rcd,
        lines = [deflate_raw_b64 hrec, deflate_raw_b64 rcd] ∧ hrec.head? = some 0x48 ∧
        (rcd.head? = some 0x46 ∨ rcd.head? = some 0x58)) := by
  cases f with
  | text s => exact compress_raw_wrote c s lines c' h
  | jsonScalar txt => exact compress_raw_wrote c txt lines c' h
  | jsonDict ev => exact compress_events_wrote c [ev] lines c' h
  | jsonList evs => exact compress_events_wrote c evs lines c' h

/-- Driving `compress` over a sequence of input frames, keeping the list
of lines returned by each call. -/
def compress_seq : FrameCompressorV3 → List RawFrame → Except String (List (List Bytes) × FrameCompressorV3)
  | c, [] => .ok ([], c)
  | c, f :: fs =>
    match compress c f with
    | .error e => .error e
    | .ok (lines, c1) =>
      match compress_seq c1 fs with
      | .error e => .error e
      | .ok (outs, c2) => .ok (lines :: outs, c2)

/-- C5: Header idempotence.  Over any sequence of `compress` calls, every
call after the first returns a single line whose record is a frame (`F`)
or raw (`X`) record — never a second header; if the compressor has already
written its header, this holds for every call including the first; and on
a compressor that has not, exactly the first call returns the pair of a
header (`H`) line and a frame-or-raw line. -/
theorem c5_header_idempotence (c : FrameCompressorV3) (fs : List RawFrame)
    (outs : List (List Bytes)) (c' : FrameCompressorV3)
    (h : compress_seq c fs = .ok (outs, c')) :
    (∀ out ∈ outs.drop 1, ∃ rcd, out = [deflate_raw_b64 rcd] ∧
      (rcd.head? = some 0x46 ∨ rcd.head? = some 0x58)) ∧
    (c.wrote_header = true → ∀ out ∈ outs, ∃ rcd, out = [deflate_raw_b64 rcd] ∧
      (rcd.head? = some 0x46 ∨ rcd.head? = some 0x58)) ∧
    (c.wrote_header = false → ∀ out1 outs1, outs = out1 :: outs1 →
      ∃ hrec rcd, out1 = [deflate_raw_b64 hrec, deflate_raw_b64 rcd] ∧
        hrec.head? = some 0x48 ∧ (rcd.head? = some 0x46 ∨ rcd.head? = some 0x58)) := by
  induction fs generalizing c outs c' with
  | nil =>
    simp only [compress_seq, Except.ok.injEq, Prod.mk.injEq] at h
    obtain ⟨h1, h2⟩ := h
    subst h1
    exact ⟨by intro out hm; simp at hm, fun _ => by intro out hm; simp at hm,
      fun _ => by intro o os hcons; exact absurd hcons (by simp)⟩
  | cons f fs ih =>
    simp only [compress_seq] at h
    cases hc : compress c f with
    | error e => simp only [hc] at h; exact absurd h (by simp)
    | ok r =>
      obtain ⟨lines, c1⟩ := r
      simp only [hc] at h
      cases hs : compress_seq c1 fs with
      | error e => simp only [hs] at h; exact absurd h (by simp)
      | ok r2 =>
        obtain ⟨outs2, c2⟩ := r2
        simp only [hs] at h
        simp only [Except.ok.injEq, Prod.mk.injEq] at h
        obtain ⟨h1, h2⟩ := h
        subst h1
        have hw := compress_wrote c f lines c1 hc
        have ihs := ih c1 outs2 c2 hs
        refine ⟨?_, ?_, ?_⟩
        · intro out hm
          exact ihs.2.1 hw.1 out hm
        · intro hwc out hm
          rcases List.mem_cons.mp hm with rfl | hm
          · exact hw.2.2.1 hwc
          · exact ihs.2.1 hw.1 out hm
        · intro hwf out1 outs1 hcons
          simp only [List.cons.injEq] at hcons
          obtain ⟨rfl, -⟩ := hcons
          exact hw.2.2.2 hwf

theorem c5_header_idempotence_witness :
    compress_seq (.init (bytesOf "A")) [.text (bytesOf "PONG"), .text (bytesOf "PONG")] =
      .ok ([[[65, 81, 99, 65, 45, 80, 57, 73, 65, 119, 69, 65, 65, 81, 70, 66],
             [65, 81, 89, 65, 45, 102, 57, 89, 67, 86, 66, 80, 84, 107, 99, 61]],
            [[65, 81, 73, 65, 95, 102, 57, 89, 65, 103, 61, 61]]],
        ⟨bytesOf "A", ⟨[bytesOf "PONG"]⟩, some 0, some 0, true⟩) ∧
    ((∀ out ∈ [[[65, 81, 99, 65, 45, 80, 57, 73, 65, 119, 69, 65, 65, 81, 70, 66],
             [65, 81, 89, 65, 45, 102, 57, 89, 67, 86, 66, 80, 84, 107, 99, 61]],
            [[65, 81, 73, 65, 95, 102, 57, 89, 65, 103, 61, 61]]].drop 1,
        ∃ rcd, out = [deflate_raw_b64 rcd] ∧
          (rcd.head? = some 0x46 ∨ rcd.head? = some 0x58)) ∧
     ((FrameCompressorV3.init (bytesOf "A")).wrote_header = true →
       ∀ out ∈ [[[65, 81, 99, 65, 45, 80, 57, 73, 65, 119, 69, 65, 65, 81, 70, 66],
             [65, 81, 89, 65, 45, 102, 57, 89, 67, 86, 66, 80, 84, 107, 99, 61]],
            [[65, 81, 73, 65, 95, 102, 57, 89, 65, 103, 61, 61]]],
         ∃ rcd, out = [deflate_raw_b64 rcd] ∧
           (rcd.head? = some 0x46 ∨ rcd.head? = some 0x58)) ∧
     ((FrameCompressorV3.init (bytesOf "A")).wrote_header = false →
       ∀ out1 outs1, [[[65, 81, 99, 65, 45, 80, 57, 73, 65, 119, 69, 65, 65, 81, 70, 66],
             [65, 81, 89, 65, 45, 102, 57, 89, 67, 86, 66, 80, 84, 107, 99, 61]],
            [[65, 81, 73, 65, 95, 102, 57, 89, 65, 103, 61, 61]]] = out1 :: outs1 →
         ∃ hrec rcd, out1 = [deflate_raw_b64 hrec, deflate_raw_b64 rcd] ∧
           hrec.head? = some 0x48 ∧ (rcd.head? = some 0x46 ∨ rcd.head? = some 0x58))) :=
  ⟨rfl, c5_header_idempotence (.init (bytesOf "A"))
    [.text (bytesOf "PONG"), .text (bytesOf "PONG")] _ _ rfl⟩

/-- The state built by a successful `_decode_header`: pool reset,
`base_ts` from the header, `prev_ts` seeded equal to `base_ts`, flags and
asset ids stored, `have_header` set. -/
theorem decode_header_shape (body : Bytes) (st st1 : V3State)
    (h : decode_header body st = .ok st1) :
    ∃ flags base assets, st1 = ⟨.empty, base, some base, assets, flags, true⟩ := by
  unfold decode_header at h
  repeat' split at h
  all_goals
    first
      | exact Except.noConfusion h
      | (simp only [Except.ok.injEq] at h
         subst h
         exact ⟨_, _, _, rfl⟩)

/-- `_decode_header` rejects any version varint other than 3. -/
theorem decode_header_bad_version (body : Bytes) (st : V3State) (v c : Nat)
    (hv : uvarint_decode body = .ok (v, c)) (hne : v ≠ 3) :
    decode_header body st = .error ("Unsupported V3 version: " ++ toString v) := by
  unfold decode_header
  simp only [hv]
  rw [if_pos hne]

/-- C6: Header handling by the decompressor.  For every line whose
inflated bytes begin with `H`: if the version varint is not 3, the decode
raises `Unsupported V3 version`; and whenever the header parses, the line
yields zero JSON outputs and the new state has a reset pool, `base_ts`
from the header, `prev_ts` equal to `base_ts`, and the stored flags and
asset ids, with `have_header` set. -/
theorem c6_header_decode (tok body : Bytes) (st : V3State)
    (hinf : inflate_raw_b64 tok = .ok (0x48 :: body)) :
    (∀ v c, uvarint_decode body = .ok (v, c) → v ≠ 3 →
      try_decode_v3_line tok st = .error ("Unsupported V3 version: " ++ toString v)) ∧
    (∀ st1, decode_header body st = .ok st1 →
      try_decode_v3_line tok st = .ok (some [], st1) ∧
      ∃ flags base assets, st1 = ⟨.empty, base, some base, assets, flags, true⟩) := by
  constructor
  · intro v c hv hne
    unfold try_decode_v3_line
    simp only [hinf]
    rw [if_pos trivial, decode_header_bad_version body st v c hv hne]
  · intro st1 hdh
    refine ⟨?_, decode_header_shape body st st1 hdh⟩
    unfold try_decode_v3_line
    simp only [hinf]
    rw [if_pos trivial]
    simp only [hdh]

theorem c6_header_decode_witness :
    (try_decode_v3_line [65, 81, 73, 65, 95, 102, 57, 73, 66, 65, 61, 61] V3State.init =
      .error ("Unsupported V3 version: " ++ toString 4)) ∧
    (try_decode_v3_line [65, 81, 103, 65, 57, 95, 57, 73, 65, 119, 72, 111, 66, 119, 69,
        66, 81, 81, 61, 61] V3State.init =
      .ok (some [], ⟨.empty, 1000, some 1000, [[65]], 1, true⟩) ∧
      ∃ flags base assets, (⟨.empty, 1000, some 1000, [[65]], 1, true⟩ : V3State) =
        ⟨.empty, base, some base, assets, flags, true⟩) :=
  ⟨(c6_header_decode [65, 81, 73, 65, 95, 102, 57, 73, 66, 65, 61, 61] [4]
      V3State.init rfl).1 4 1 rfl (by decide),
   (c6_header_decode [65, 81, 103, 65, 57, 95, 57, 73, 65, 119, 72, 111, 66, 119, 69,
      66, 81, 81, 61, 61] [3, 1, 232, 7, 1, 1, 65] V3State.init rfl).2 _ rfl⟩

/-! ## Claim-side pool-session drivers (C4) -/

/-- Driving `_StringPool.encode` over a sequence of strings,
concatenating the emitted bytes. -/
def poolEncodeSeq : StringPool → List Bytes → Bytes × StringPool
  | p, [] => ([], p)
  | p, s :: ss =>
    let r := p.encode s
    let r2 := poolEncodeSeq r.2 ss
    (r.1 ++ r2.1, r2.2)

/-- Driving `_StringPool.decode` the same number of times over the byte
stream. -/
def poolDecodeSeq : StringPool → Nat → Bytes → Except String (List Bytes × Bytes × StringPool)
  | p, 0, buf => .ok ([], buf, p)
  | p, n + 1, buf =>
    match p.decode buf with
    | .error e => .error e
    | .ok (s, buf1, p1) =>
      match poolDecodeSeq p1 n buf1 with
      | .error e => .error e
      | .ok (ss, buf2, p2) => .ok (s :: ss, buf2, p2)

/-- The pool table after a sequence of encodes starting from table `acc`:
the distinct new strings appended in first-seen order. -/
def firstSeenFrom (acc : List Bytes) : List Bytes → List Bytes
  | [] => acc
  | s :: ss => firstSeenFrom (if s ∈ acc then acc else acc ++ [s]) ss

/-- The distinct strings of a sequence in first-seen order. -/
def firstSeen (ss : List Bytes) : List Bytes := firstSeenFrom [] ss

theorem poolEncodeSeq_pool (ss : List Bytes) :
    ∀ p : StringPool, (poolEncodeSeq p ss).2 = ⟨firstSeenFrom p.i2s ss⟩ := by
  induction ss with
  | nil => intro p; simp [poolEncodeSeq, firstSeenFrom]
  | cons s ss ih =>
    intro p
    simp only [poolEncodeSeq, firstSeenFrom]
    by_cases hmem : s ∈ p.i2s
    · rw [if_pos hmem]
      have hn : ∃ i, poolIdx p.i2s s = some i := by
        cases hp : poolIdx p.i2s s with
        | none => exact absurd ((poolIdx_none_iff p.i2s s).mp hp) (by simpa using hmem)
        | some i => exact ⟨i, rfl⟩
      obtain ⟨i, hi⟩ := hn
      show (poolEncodeSeq (StringPool.encode p s).2 ss).2 = _
      unfold StringPool.encode
      simp only [hi]
      exact ih p
    · rw [if_neg hmem]
      have hp : poolIdx p.i2s s = none := (poolIdx_none_iff p.i2s s).mpr hmem
      show (poolEncodeSeq (StringPool.encode p s).2 ss).2 = _
      unfold StringPool.encode
      simp only [hp]
      exact ih ⟨p.i2s ++ [s]⟩

theorem mem_firstSeenFrom (ss : List Bytes) :
    ∀ (acc : List Bytes) (x : Bytes), x ∈ firstSeenFrom acc ss ↔ x ∈ acc ∨ x ∈ ss := by
  induction ss with
  | nil => intro acc x; simp [firstSeenFrom]
  | cons s ss ih =>
    intro acc x
    simp only [firstSeenFrom]
    rw [ih]
    by_cases hmem : s ∈ acc
    · rw [if_pos hmem]
      simp only [List.mem_cons]
      constructor
      · rintro (hx | hx)
        · exact Or.inl hx
        · exact Or.inr (Or.inr hx)
      · rintro (hx | rfl | hx)
        · exact Or.inl hx
        · exact Or.inl hmem
        · exact Or.inr hx
    · rw [if_neg hmem]
      simp only [List.mem_append, List.mem_singleton, List.mem_cons]
      tauto

theorem firstSeenFrom_prefix (ss : List Bytes) :
    ∀ acc : List Bytes, ∃ ext, firstSeenFrom acc ss = acc ++ ext := by
  induction ss with
  | nil => intro acc; exact ⟨[], by simp [firstSeenFrom]⟩
  | cons s ss ih =>
    intro acc
    simp only [firstSeenFrom]
    by_cases hmem : s ∈ acc
    · rw [if_pos hmem]
      exact ih acc
    · rw [if_neg hmem]
      obtain ⟨ext, hext⟩ := ih (acc ++ [s])
      exact ⟨[s] ++ ext, by rw [hext, List.append_assoc]⟩

theorem firstSeenFrom_append (xs ys acc : List Bytes) :
    firstSeenFrom acc (xs ++ ys) = firstSeenFrom (firstSeenFrom acc xs) ys := by
  induction xs generalizing acc with
  | nil => simp [firstSeenFrom]
  | cons x xs ih =>
    simp only [List.cons_append, firstSeenFrom]
    exact ih _

theorem poolIdx_append (l : List Bytes) (s : Bytes) (i : Nat) (ext : List Bytes)
    (h : poolIdx l s = some i) : poolIdx (l ++ ext) s = some i := by
  induction l generalizing i with
  | nil => simp [poolIdx] at h
  | cons t ts ih =>
    by_cases ht : t = s
    · simp only [poolIdx, if_pos ht, Option.some_inj] at h
      simp only [List.cons_append, poolIdx, if_pos ht, h]
    · simp only [poolIdx, if_neg ht] at h
      cases hp : poolIdx ts s with
      | none => rw [hp] at h; exact Option.noConfusion h
      | some j =>
        rw [hp] at h
        simp only [Option.map_some'] at h
        rw [List.cons_append]
        simp only [poolIdx, if_neg ht]
        rw [ih j hp]
        simpa using h

theorem poolIdx_snoc (l : List Bytes) (s : Bytes) (h : s ∉ l) :
    poolIdx (l ++ [s]) s = some (l.length + 1) := by
  induction l with
  | nil => simp [poolIdx]
  | cons t ts ih =>
    have ht : ¬ (t = s) := by
      intro hts
      exact h (by simp [hts])
    rw [List.cons_append]
    simp only [poolIdx, if_neg ht]
    rw [ih (fun hm => h (by simp [hm]))]
    simp [List.length_cons]

/-- Sequence round-trip of the pool codec. -/
theorem poolSeq_roundtrip (ss : List Bytes) :
    ∀ (p : StringPool) (rest : Bytes), (∀ x ∈ ss, strOk x) →
      p.i2s.length + ss.length ≤ 2 ^ 76 →
      poolDecodeSeq p ss.length ((poolEncodeSeq p ss).1 ++ rest) =
        .ok (ss, rest, (poolEncodeSeq p ss).2) ∧
      (poolEncodeSeq p ss).2.i2s.length ≤ p.i2s.length + ss.length := by
  induction ss with
  | nil =>
    intro p rest _ _
    exact ⟨rfl, by simp [poolEncodeSeq]⟩
  | cons s ss ih =>
    intro p rest hok hbud
    have hs := hok s (by simp)
    have hrt := pool_roundtrip p s ((poolEncodeSeq (p.encode s).2 ss).1 ++ rest)
      (by simp only [List.length_cons] at hbud; omega) hs.2
    have hg := pool_encode_grow p s
    have ihs := ih (p.encode s).2 rest (fun x hx => hok x (by simp [hx]))
      (by simp only [List.length_cons] at hbud; omega)
    constructor
    · simp only [poolEncodeSeq, List.length_cons, poolDecodeSeq, List.append_assoc]
      rw [hrt]
      simp only [ihs.1]
    · simp only [poolEncodeSeq, List.length_cons]
      have := ihs.2
      omega

/-- C4: String pool monotonicity.  Within one session (pool sequence from
the empty table), at any occurrence `ss = pre ++ s :: post`: if `s` was
not seen before, it is emitted as a literal — varint `2*len+1` with low
bit 1 followed by the raw bytes — and interned with the next ID
`(firstSeen pre).length + 1` (IDs count from 1 in first-seen order); if
`s` was seen, it is emitted as the reference varint `2*i` with low bit 0,
where `i` is its first-seen ordinal, the pool is unchanged, and the same
ID still resolves to `s` at the end of the session.  The decoder pool fed
the concatenated bytes returns the same strings with the same pool
evolution. -/
theorem c4_pool_monotonicity (ss pre post : List Bytes) (s : Bytes)
    (hsplit : ss = pre ++ s :: post) :
    (s ∉ pre →
      (poolEncodeSeq (.empty) pre).2.encode s =
        (uvarint_encode (2 * s.length + 1) ++ s, ⟨firstSeen pre ++ [s]⟩) ∧
      (2 * s.length + 1) % 2 = 1 ∧
      poolIdx ((poolEncodeSeq (.empty) pre).2.encode s).2.i2s s =
        some ((firstSeen pre).length + 1)) ∧
    (s ∈ pre →
      ∃ i, poolIdx (firstSeen pre) s = some i ∧
        (poolEncodeSeq (.empty) pre).2.encode s =
          (uvarint_encode (2 * i), (poolEncodeSeq (.empty) pre).2) ∧
        2 * i % 2 = 0 ∧
        poolIdx (firstSeen ss) s = some i) ∧
    (∀ rest, (∀ x ∈ ss, strOk x) → ss.length ≤ 2 ^ 76 →
      poolDecodeSeq (.empty) ss.length ((poolEncodeSeq (.empty) ss).1 ++ rest) =
        .ok (ss, rest, (poolEncodeSeq (.empty) ss).2)) := by
  have hpool : (poolEncodeSeq (.empty) pre).2 = ⟨firstSeen pre⟩ :=
    poolEncodeSeq_pool pre StringPool.empty
  have hi2s : (poolEncodeSeq (.empty) pre).2.i2s = firstSeen pre := by rw [hpool]
  refine ⟨?_, ?_, ?_⟩
  · intro hnot
    have hmem : s ∉ firstSeen pre := by
      intro hc
      rcases (mem_firstSeenFrom pre [] s).mp hc with h0 | h0
      · simp at h0
      · exact hnot h0
    have hidx : poolIdx (firstSeen pre) s = none := (poolIdx_none_iff _ s).mpr hmem
    have henc : (poolEncodeSeq (.empty) pre).2.encode s =
        (uvarint_encode (2 * s.length + 1) ++ s, ⟨firstSeen pre ++ [s]⟩) := by
      unfold StringPool.encode
      simp only [hi2s, hidx]
    refine ⟨henc, by omega, ?_⟩
    rw [henc]
    exact poolIdx_snoc (firstSeen pre) s hmem
  · intro hin
    have hmem : s ∈ firstSeen pre := (mem_firstSeenFrom pre [] s).mpr (Or.inr hin)
    have hex : ∃ i, poolIdx (firstSeen pre) s = some i := by
      cases hp : poolIdx (firstSeen pre) s with
      | none => exact absurd ((poolIdx_none_iff _ s).mp hp) (by simpa using hmem)
      | some i => exact ⟨i, rfl⟩
    obtain ⟨i, hi⟩ := hex
    refine ⟨i, hi, ?_, by omega, ?_⟩
    · unfold StringPool.encode
      simp only [hi2s, hi]
    · have h1 : firstSeen ss = firstSeenFrom (firstSeen pre) (s :: post) := by
        rw [hsplit]
        unfold firstSeen
        exact firstSeenFrom_append pre (s :: post) []
      obtain ⟨ext, hext⟩ := firstSeenFrom_prefix (s :: post) (firstSeen pre)
      rw [h1, hext]
      exact poolIdx_append _ s i ext hi
  · intro rest hok hbud
    have h0 : StringPool.empty.i2s.length + ss.length ≤ 2 ^ 76 := by
      have hz : StringPool.empty.i2s.length = 0 := rfl
      omega
    exact (poolSeq_roundtrip ss StringPool.empty rest hok h0).1

theorem c4_pool_monotonicity_witness :
    (([97] : Bytes) ∉ ([[97], [98]] : List Bytes) →
      (poolEncodeSeq (.empty) [[97], [98]]).2.encode [97] =
        (uvarint_encode (2 * ([97] : Bytes).length + 1) ++ [97],
         ⟨firstSeen [[97], [98]] ++ [[97]]⟩) ∧
      (2 * ([97] : Bytes).length + 1) % 2 = 1 ∧
      poolIdx ((poolEncodeSeq (.empty) [[97], [98]]).2.encode [97]).2.i2s [97] =
        some ((firstSeen [[97], [98]]).length + 1)) ∧
    (([97] : Bytes) ∈ ([[97], [98]] : List Bytes) →
      ∃ i, poolIdx (firstSeen [[97], [98]]) [97] = some i ∧
        (poolEncodeSeq (.empty) [[97], [98]]).2.encode [97] =
          (uvarint_encode (2 * i), (poolEncodeSeq (.empty) [[97], [98]]).2) ∧
        2 * i % 2 = 0 ∧
        poolIdx (firstSeen [[97], [98], [97]]) [97] = some i) ∧
    (∀ rest, (∀ x ∈ ([[97], [98], [97]] : List Bytes), strOk x) →
      ([[97], [98], [97]] : List Bytes).length ≤ 2 ^ 76 →
      poolDecodeSeq (.empty) ([[97], [98], [97]] : List Bytes).length
          ((poolEncodeSeq (.empty) [[97], [98], [97]]).1 ++ rest) =
        .ok ([[97], [98], [97]], rest, (poolEncodeSeq (.empty) [[97], [98], [97]]).2)) :=
  c4_pool_monotonicity [[97], [98], [97]] [[97], [98]] [] [97] rfl

/-! ## C2: the timestamp delta law -/

/-- An event with no timestamp field (scenario for the `prev_ts`
divergence: the encoder emits `TS_ABS` with value 0 and keeps its
`prev_ts`, the decoder overwrites `prev_ts` with 0). -/
def ev_no_ts : InEvent :=
  { payload := .price_change (some []), timestamp := none, market := none, hash := none }

/-- C2 counterexample: one frame of a book event (timestamp 1000)
followed by an event with no timestamp, encoded from a synced pair of
states.  After the second event the encoder's `prev_ts` is still 1000
while the decoder's is 0 — the claimed law fails for events with a
missing timestamp. -/
theorem c2_prev_ts_desync :
    encode_events_fold ⟨bytesOf "A", .empty, some 1000, some 1000, true⟩
        [ev_book, ev_no_ts] =
      .ok ([0, 0, 1, 7, 48, 46, 53, 5, 49, 48, 1, 7, 48, 46, 54, 3, 53, 33, 0, 0],
        ⟨bytesOf "A", ⟨[bytesOf "0.5", bytesOf "10", bytesOf "0.6", bytesOf "5"]⟩,
          some 1000, some 1000, true⟩) ∧
    decode_events_loop 2 [0, 0, 1, 7, 48, 46, 53, 5, 49, 48, 1, 7, 48, 46, 54, 3, 53, 33, 0, 0]
        ⟨.empty, 1000, some 1000, [[65]], 1, true⟩ =
      .ok ([⟨bytesOf "book", [65], bytesOf "1000",
              .book [⟨bytesOf "0.5", bytesOf "10"⟩] [⟨bytesOf "0.6", bytesOf "5"⟩]⟩,
            ⟨bytesOf "price_change", [65], bytesOf "0", .price_change []⟩], [],
        ⟨⟨[bytesOf "0.5", bytesOf "10", bytesOf "0.6", bytesOf "5"]⟩,
          1000, some 0, [[65]], 1, true⟩) ∧
    (some 0 : Option Nat) ≠ (some (1000 : Int)).map Int.toNat := by
  refine ⟨rfl, rfl, by decide⟩

/-- C2 (amended): Timestamp delta law for events that do carry a numeric
timestamp.  For every synced encoder/decoder pair and every prefix
`pre` of a frame's valid events (`k = pre.length` events processed),
encoding the prefix and decoding the produced bytes leaves the two
`prev_ts` values equal. -/
theorem c2_prev_ts_law (evs pre suf : List InEvent) (c : FrameCompressorV3) (st : V3State)
    (rest : Bytes) (hsplit : evs = pre ++ suf) (hsync : Synced c st)
    (hval : ∀ ev ∈ evs, validEvent ev)
    (hb : c.pool.i2s.length + frameCalls evs ≤ 2 ^ 76) :
    ∃ b c' st', encode_events_fold c pre = .ok (b, c') ∧
      decode_events_loop pre.length (b ++ rest) st =
        .ok (pre.map (normEvent c.asset_id), rest, st') ∧
      ∃ p : Nat, c'.prev_ts = some (p : Int) ∧ st'.prev_ts = some p := by
  have hval' : ∀ ev ∈ pre, validEvent ev := fun ev hev =>
    hval ev (by rw [hsplit]; exact List.mem_append.mpr (Or.inl hev))
  have hcalls : frameCalls evs = frameCalls pre + frameCalls suf := by
    rw [hsplit]
    simp [frameCalls, List.map_append, List.sum_append]
  obtain ⟨b, c', st', henc, hdec, hsync', _⟩ :=
    events_roundtrip pre c st rest hsync hval' (by omega)
  exact ⟨b, c', st', henc, hdec, hsync'.2.2⟩

theorem c2_prev_ts_law_witness :
    ∃ b c' st', encode_events_fold
        ⟨bytesOf "A", .empty, some 1000, some 1000, true⟩ [ev_book] = .ok (b, c') ∧
      decode_events_loop ([ev_book] : List InEvent).length (b ++ [9])
          ⟨.empty, 1000, some 1000, [[65]], 1, true⟩ =
        .ok ([ev_book].map (normEvent (bytesOf "A")), [9], st') ∧
      ∃ p : Nat, c'.prev_ts = some (p : Int) ∧ st'.prev_ts = some p :=
  c2_prev_ts_law [ev_book, ev_pc] [ev_book] [ev_pc]
    ⟨bytesOf "A", .empty, some 1000, some 1000, true⟩
    ⟨.empty, 1000, some 1000, [[65]], 1, true⟩ [9] rfl
    ⟨rfl, rfl, ⟨1000, rfl, rfl⟩⟩ (by decide) (by decide)

/-! ## C7: the varint codec -/

/-- A buffer of continuation bytes short enough to stay inside the shift
budget ends in the truncation error. -/
theorem uvarint_decode_loop_truncated (bs : Bytes) :
    ∀ (shift x : Nat), (∀ b ∈ bs, 128 ≤ b % 256) → shift + 7 * bs.length ≤ 70 →
      uvarint_decode_loop bs shift x = .error "uvarint truncated" := by
  induction bs with
  | nil => intro shift x _ _; rfl
  | cons b bs ih =>
    intro shift x hcont hlen
    have hb := hcont b (by simp)
    simp only [List.length_cons] at hlen
    simp only [uvarint_decode_loop]
    rw [if_neg (by omega), if_neg (by omega)]
    rw [ih (shift + 7) (x + b % 128 * 2 ^ shift) (fun y hy => hcont y (by simp [hy]))
      (by omega)]

/-- A non-empty buffer of continuation bytes that exhausts the shift
budget ends in the overflow error. -/
theorem uvarint_decode_loop_overflow (bs : Bytes) :
    ∀ (shift x : Nat), (∀ b ∈ bs, 128 ≤ b % 256) → bs ≠ [] →
      70 < shift + 7 * bs.length →
      uvarint_decode_loop bs shift x = .error "uvarint overflow" := by
  induction bs with
  | nil => intro shift x _ hne _; exact absurd rfl hne
  | cons b bs ih =>
    intro shift x hcont _ hlen
    have hb := hcont b (by simp)
    simp only [List.length_cons] at hlen
    simp only [uvarint_decode_loop]
    rw [if_neg (by omega)]
    by_cases hsh : shift + 7 > 70
    · rw [if_pos hsh]
    · rw [if_neg hsh]
      have hne : bs ≠ [] := by
        intro hnil
        subst hnil
        simp at hlen
        omega
      rw [ih (shift + 7) (x + b % 128 * 2 ^ shift) (fun y hy => hcont y (by simp [hy]))
        hne (by omega)]

/-- C7 counterexample: the round-trip already fails at `2 ^ 77` — the
encoder emits twelve bytes, and the decoder's shift budget (`shift ≤ 70`)
overflows on the twelfth. -/
theorem c7_varint_overflow_at_2_pow_77 :
    uvarint_decode (uvarint_encode (2 ^ 77)) = .error "uvarint overflow" := rfl

/-- C7 (amended): Varint codec laws.  Round-trip holds for every
`n < 2 ^ 77` (not every `n ≥ 0`: the decoder's shift budget rejects the
encoder's own output from `2 ^ 77` up); `_uvarint_encode` raises on every
negative input; `_uvarint_decode` fails with the truncation error when
the buffer is all continuation bytes but ends within the shift budget
(up to 10 bytes), and with the overflow error once the shift budget is
exceeded (11 continuation bytes or more). -/
theorem c7_varint_roundtrip :
    (∀ n : Nat, n < 2 ^ 77 → ∀ rest,
      uvarint_decode (uvarint_encode n ++ rest) = .ok (n, (uvarint_encode n).length)) ∧
    (∀ n : Int, n < 0 → uvarint_encode_checked n = .error "uvarint negative") ∧
    (∀ bs : Bytes, (∀ b ∈ bs, 128 ≤ b % 256) → bs.length ≤ 10 →
      uvarint_decode bs = .error "uvarint truncated") ∧
    (∀ bs : Bytes, (∀ b ∈ bs, 128 ≤ b % 256) → 11 ≤ bs.length →
      uvarint_decode bs = .error "uvarint overflow") := by
  refine ⟨fun n h rest => uvarint_roundtrip n h rest, ?_, ?_, ?_⟩
  · intro n hn
    unfold uvarint_encode_checked
    rw [if_pos hn]
  · intro bs hcont hlen
    exact uvarint_decode_loop_truncated bs 0 0 hcont (by omega)
  · intro bs hcont hlen
    have hne : bs ≠ [] := by
      intro hnil
      subst hnil
      simp at hlen
    exact uvarint_decode_loop_overflow bs 0 0 hcont hne (by omega)

theorem c7_varint_roundtrip_witness :
    uvarint_decode (uvarint_encode 300 ++ [9]) = .ok (300, (uvarint_encode 300).length) ∧
    uvarint_encode_checked (-1) = .error "uvarint negative" ∧
    uvarint_decode [128, 129] = .error "uvarint truncated" ∧
    uvarint_decode [128, 128, 128, 128, 128, 128, 128, 128, 128, 128, 128] =
      .error "uvarint overflow" :=
  ⟨c7_varint_roundtrip.1 300 (by norm_num) [9],
   c7_varint_roundtrip.2.1 (-1) (by norm_num),
   c7_varint_roundtrip.2.2.1 [128, 129] (by decide) (by norm_num),
   c7_varint_roundtrip.2.2.2 [128, 128, 128, 128, 128, 128, 128, 128, 128, 128, 128]
     (by decide) (by norm_num)⟩

/-! ## C3: the transport and its padding -/

/-- C3: Padding-agnostic transport.  The modelled transport does round-trip
every record byte string through `_deflate_raw_b64`/`_inflate_raw_b64`;
but base64url decoding in the code is `base64.urlsafe_b64decode`, which is
NOT padding-agnostic: stripping the trailing `=` from the token of the
empty record (which really carries padding) makes `_inflate_raw_b64`
raise `Incorrect padding` instead of recovering the record. -/
theorem c3_padding_agnostic_transport :
    (∀ d, bytesOk d → inflate_raw_b64 (deflate_raw_b64 d) = .ok d) ∧
    stripPad (deflate_raw_b64 []) ≠ deflate_raw_b64 [] ∧
    inflate_raw_b64 (stripPad (deflate_raw_b64 [])) = .error "Incorrect padding" :=
  ⟨fun d hd => transport_roundtrip d hd, by decide, rfl⟩

theorem c3_padding_agnostic_transport_witness :
    bytesOk [1, 2, 3] ∧ inflate_raw_b64 (deflate_raw_b64 [1, 2, 3]) = .ok [1, 2, 3] :=
  ⟨by decide, c3_padding_agnostic_transport.1 [1, 2, 3] (by decide)⟩
